import Mathlib

/-!
# pkg-go-tools: the `pgt-gopath` workspace builder

A shallow embedding of `cmd/pgt-gopath` (sources.go, gopath.go, unpack.go,
patches.go, debhelper.go), of the request handling of `internal/api`
(middleware.go, context.go, handler.go), and the properties of them that the
specification states.

Conventions of the embedding.

* Go `string` is Lean `String`; the functions of package `strings`, `path` and
  `path/filepath` that the programme calls are written out on the character
  list of the string, following the documented behaviour of the Go library
  (Unix separator `/`).
* Calls that leave the programme (filesystem, external tools, the archive
  downloader) are answered by a record of functions `Sys`; every procedure
  returns the list of calls it made (`Action`) together with its Go result.
* Go `error` is `GoError`; a `nil` error is `none`.
* `version.Compare` and `sort.Slice` are library code and are parameters of the
  loader; the theorems assume of them only what their documentation promises.
-/

namespace PkgGoTools

set_option linter.dupNamespace false

/-! ## Package `strings` -/

/-- Cut a character list at every occurrence of `sep`: the pieces between the
separators, in order; always at least one piece. -/
def splitList (sep : Char) : List Char → List (List Char)
  | [] => [[]]
  | c :: cs =>
    if c = sep then [] :: splitList sep cs
    else
      match splitList sep cs with
      | [] => [[c]]
      | w :: ws => (c :: w) :: ws

/-- Go `strings.Split(s, sep)` for a one-character separator (every call site
of the programme passes `","`, `"\n"` or `" "`). -/
def Split (s : String) (sep : Char) : List String :=
  (splitList sep s.data).map String.mk

/-- Go `strings.Contains(s, substr)`. -/
def Contains (s substr : String) : Bool :=
  decide (substr.data <:+: s.data)

/-- Go `strings.HasPrefix(s, prefix)`. -/
def HasPrefix (s pre : String) : Bool :=
  pre.data.isPrefixOf s.data

/-- Go `strings.HasSuffix(s, suffix)`. -/
def HasSuffix (s suf : String) : Bool :=
  suf.data.isSuffixOf s.data

/-- Go `strings.TrimPrefix(s, prefix)`: `s` without the leading `prefix`, or
`s` itself when it does not start with it. -/
def TrimPrefix (s pre : String) : String :=
  if HasPrefix s pre then String.mk (s.data.drop pre.data.length) else s

/-- Go `unicode.IsSpace`: the white space characters that `strings.TrimSpace`
removes. -/
def isSpace (c : Char) : Bool :=
  let n := c.toNat
  (9 ≤ n && n ≤ 13) || n = 32 || n = 0x85 || n = 0xA0 || n = 0x1680 ||
  (0x2000 ≤ n && n ≤ 0x200A) || n = 0x2028 || n = 0x2029 || n = 0x202F ||
  n = 0x205F || n = 0x3000

/-- Leading and trailing white space removed from a character list. -/
def trimList (l : List Char) : List Char :=
  ((l.dropWhile isSpace).reverse.dropWhile isSpace).reverse

/-- Go `strings.TrimSpace(s)`. -/
def TrimSpace (s : String) : String :=
  String.mk (trimList s.data)

/-- Character lists joined with a separator character between them. -/
def joinList (sep : Char) : List (List Char) → List Char
  | [] => []
  | [w] => w
  | w :: ws => w ++ sep :: joinList sep ws

/-- Go `strings.Join(elems, sep)` for a one-character separator. -/
def stringsJoin (elems : List String) (sep : Char) : String :=
  String.mk (joinList sep (elems.map String.data))

/-! ## Packages `path` and `path/filepath` (Unix) -/

/-- One step of `Clean` on the path elements kept so far (`out`, in order):
an empty element and `.` are dropped; `..` removes the last kept element when
that is a real name, is kept itself when the path is not rooted, and is
dropped at the root; any other element is kept. -/
def cleanStep (rooted : Bool) (out : List (List Char)) (e : List Char) : List (List Char) :=
  if e = [] ∨ e = ['.'] then out
  else if e = ['.', '.'] then
    match out.getLast? with
    | some last =>
      if last = ['.', '.'] then out ++ [e] else out.dropLast
    | none => if rooted then out else out ++ [e]
  else out ++ [e]

/-- Elements of the shortest equivalent path. -/
def cleanElems (rooted : Bool) (elems : List (List Char)) : List (List Char) :=
  elems.foldl (cleanStep rooted) []

/-- `Clean` on character lists. -/
def cleanList (p : List Char) : List Char :=
  match p with
  | [] => ['.']
  | c :: _ =>
    let rooted := decide (c = '/')
    let out := joinList '/' (cleanElems rooted (splitList '/' p))
    if rooted then '/' :: out
    else if out = [] then ['.'] else out

/-- Go `path.Clean` / `filepath.Clean`: the shortest path name equivalent to
`path` by purely lexical processing (multiple slashes become one, `.` elements
go, an inner `..` goes with the element before it, `..` at the root goes; the
empty path becomes `.`). -/
def Clean (path : String) : String :=
  String.mk (cleanList path.data)

/-- Go `path.Join` / `filepath.Join`: leading empty elements are ignored, the
rest is joined with `/` and cleaned; all elements empty gives the empty
string. -/
def Join (elem : List String) : String :=
  match elem.dropWhile (fun e => e = "") with
  | [] => ""
  | es => Clean (stringsJoin es '/')

/-- The part of a character list up to and including its last `/` (empty when
there is none). -/
def dirPart (p : List Char) : List Char :=
  (p.reverse.dropWhile (fun c => c ≠ '/')).reverse

/-- Go `filepath.Dir`: all but the last element of the path, cleaned. -/
def Dir (path : String) : String :=
  Clean (String.mk (dirPart path.data))

/-- Elements that the scanning loop of `filepath.Rel` walks over: the pieces
between slashes, without a final empty piece after a trailing slash; none for
the empty string. -/
def relElems (p : List Char) : List (List Char) :=
  if p = [] then []
  else if p.getLast? = some '/' then (splitList '/' p).dropLast
  else splitList '/' p

/-- The part of `filepath.Rel` that positions base and target at their first
differing elements: the remaining base elements, the remaining target
elements, and the first remaining base element (empty when the base ran out),
from which `Rel` would have to go up. -/
def relPosition : List (List Char) → List (List Char) →
    List (List Char) × List (List Char) × List Char
  | b :: bs, t :: ts =>
    if t = b then relPosition bs ts else (b :: bs, t :: ts, b)
  | b :: bs, [] => (b :: bs, [], b)
  | [], ts => ([], ts, [])

/-- Go `filepath.Rel(basepath, targpath)`: a relative path that is lexically
equivalent to `targpath` when joined to `basepath`; an error when the target
cannot be made relative to the base. -/
def Rel (basepath targpath : String) : Except String String :=
  let base := cleanList basepath.data
  let targ := cleanList targpath.data
  if targ = base then .ok "."
  else
    let base := if base = ['.'] then [] else base
    let baseSlashed := decide (base.head? = some '/')
    let targSlashed := decide (targ.head? = some '/')
    if baseSlashed ≠ targSlashed then
      .error ("Rel: can't make " ++ targpath ++ " relative to " ++ basepath)
    else
      match relPosition (relElems base) (relElems targ) with
      | (b, t, d) =>
        if d = ['.', '.'] then
          .error ("Rel: can't make " ++ targpath ++ " relative to " ++ basepath)
        else if b ≠ [] then
          .ok (String.mk (joinList '/' (List.replicate b.length ['.', '.'] ++ t)))
        else .ok (String.mk (joinList '/' t))

/-! ## Data model (sources.go) -/

/-- Entry `control.FileHash` of a source package's checksum list; the
programme reads its file name and its hash. -/
structure FileHash where
  Filename : String
  Hash : String
deriving DecidableEq, Repr

/-- One alternative of a build dependency (`dependency.Possibility`); the
programme reads its name only. -/
structure Possibility where
  Name : String
deriving DecidableEq, Repr

/-- Comma separated member of a dependency field: its alternatives. -/
structure Relation where
  Possibilities : List Possibility
deriving DecidableEq, Repr

/-- Parsed `Build-Depends` field (`dependency.Dependency`). -/
structure Dependency where
  Relations : List Relation
deriving DecidableEq, Repr

/-- Method `Dependency.GetAllPossibilities`: the alternatives of all relations. -/
def Dependency.GetAllPossibilities (d : Dependency) : List Possibility :=
  d.Relations.flatMap (fun r => r.Possibilities)

/-- Debian version (`version.Version`). It is only ever handed to
`version.Compare`, which is a parameter of the loader. -/
structure Version where
  Epoch : Nat
  Version : String
  Revision : String
deriving DecidableEq, Repr

/-- Record `sourceIndex` of sources.go: the fields of a source package entry
that the programme reads. `Checksums` stands for the embedded
`control.BestChecksums`. -/
structure sourceIndex where
  Checksums : List FileHash
  BuildDepends : Dependency
  GoImportPath : String
  ExtraSourceOnly : Bool
  Package : String
  Version : Version
  Directory : String
deriving DecidableEq, Repr

/-- Table `ignored` of gopath.go; a package that is not in the map reads as
`false`. -/
def ignored (pkg : String) : Bool :=
  pkg = "kxd" || pkg = "golang-1.6" || pkg = "golang-1.7" || pkg = "golang-1.8" ||
  pkg = "golang-1.9" || pkg = "golang-1.10"

/-- Table `rewrite` of gopath.go, from Debian source package to import path. -/
def rewrite (pkg : String) : Option String :=
  if pkg = "gitlab-workhorse" then some "gitlab.com/gitlab-org/gitlab-workhorse"
  else if pkg = "pluginhook" then some "github.com/progrium/pluginhook"
  else if pkg = "golang-github-gosexy-gettext" then some "github.com/gosexy/gettext"
  else if pkg = "mongo-tools" then some "github.com/mongodb/mongo-tools"
  else if pkg = "golang-github-mvo5-goconfigparser" then some "github.com/mvo5/goconfigparser"
  else none

/-- First element of a Go slice that the programme knows to be non-empty
(`strings.Split` never returns an empty slice). -/
def first (l : List String) : String :=
  l.headD ""

/-- Method `sourceIndex.importPath` of sources.go. -/
def sourceIndex.importPath (src : sourceIndex) : String :=
  let importPath := src.GoImportPath
  let importPath :=
    match rewrite src.Package with
    | some target => target
    | none => importPath
  first (Split importPath ',')

/-- Function `dependsOnGo` of sources.go. -/
def dependsOnGo (sidx : sourceIndex) : Bool :=
  if sidx.GoImportPath ≠ "" then true
  else
    sidx.BuildDepends.GetAllPossibilities.any (fun possi =>
      possi.Name = "golang-go" || possi.Name = "golang-any" || possi.Name = "golang")

/-- Statement `byName[src.Package] = append(byName[src.Package], src)` on a
map kept as a list of (key, value) pairs with distinct keys. -/
def appendByName (byName : List (String × List sourceIndex)) (src : sourceIndex) :
    List (String × List sourceIndex) :=
  match byName with
  | [] => [(src.Package, [src])]
  | (k, srcs) :: rest =>
    if k = src.Package then (k, srcs ++ [src]) :: rest
    else (k, srcs) :: appendByName rest src

/-- First loop of `loadSources`: the Go-relevant records grouped by package
name. -/
def byName (temp : List sourceIndex) : List (String × List sourceIndex) :=
  temp.foldl (fun m src => if !dependsOnGo src then m else appendByName m src) []

/-- Comparison closure that `loadSources` hands to `sort.Slice`: record `a`
goes before record `b` when its version compares greater. -/
def moreRecent (Compare : Version → Version → Int) (a b : sourceIndex) : Bool :=
  decide (Compare a.Version b.Version > 0)

/-- Body of the second loop of `loadSources` for one group: `srcs[0]` after
the group was sorted when it has more than one record (no group is empty). -/
def newest (Compare : Version → Version → Int)
    (sortSlice : (sourceIndex → sourceIndex → Bool) → List sourceIndex → List sourceIndex)
    (srcs : List sourceIndex) : Option sourceIndex :=
  (if srcs.length > 1 then sortSlice (moreRecent Compare) srcs else srcs).head?

/-- Second loop of `loadSources`: of every group its first record, after the
group was sorted when it has more than one record. Go visits the groups in
an unspecified order; the order of the result is that of the first
occurrences here and no theorem depends on it. -/
def filtered (Compare : Version → Version → Int)
    (sortSlice : (sourceIndex → sourceIndex → Bool) → List sourceIndex → List sourceIndex)
    (groups : List (String × List sourceIndex)) : List sourceIndex :=
  groups.filterMap (fun g => newest Compare sortSlice g.2)

/-- Function `loadSources` of sources.go. The argument `decoded` is what
`control.Unmarshal` made of the reader: the decoded records or its error. -/
def loadSources (Compare : Version → Version → Int)
    (sortSlice : (sourceIndex → sourceIndex → Bool) → List sourceIndex → List sourceIndex)
    (decoded : Except String (List sourceIndex)) : Except String (List sourceIndex) :=
  match decoded with
  | .error err => .error ("unmarshal: " ++ err)
  | .ok temp => .ok (filtered Compare sortSlice (byName temp))

/-- What the documentation of `sort.Slice` promises for the comparison `less`:
the slice holds the same elements afterwards and no element is `less` than one
that stands before it. -/
def SortsBy (sortSlice : (sourceIndex → sourceIndex → Bool) → List sourceIndex → List sourceIndex)
    (less : sourceIndex → sourceIndex → Bool) : Prop :=
  ∀ l, (sortSlice less l).Perm l ∧ (sortSlice less l).Pairwise (fun a b => less b a = false)

/-! ## Selection of the records to assemble (loop of `logic`, gopath.go) -/

/-- Variable `importPath` of the loop in `logic`: the rewrite-table entry of
the package, or else its `Go-Import-Path`. -/
def resolvedImportPath (src : sourceIndex) : String :=
  match rewrite src.Package with
  | some target => target
  | none => src.GoImportPath

/-- Conditions of the loop in `logic` under which a record is passed over
(`continue`) instead of being handed to `eg.Go`. -/
def skipped (src : sourceIndex) : Bool :=
  ignored src.Package || src.ExtraSourceOnly || resolvedImportPath src = "" ||
  src.Package = "golang-github-dnephin-cobra" || src.Package = "docker-containerd"

/-- Selection loop of the task in `logic` over `src.Checksums()`; both
results start as the zero `FileHash`. -/
def selectTars (checksums : List FileHash) : FileHash × FileHash :=
  checksums.foldl (fun (acc : FileHash × FileHash) c =>
    if HasSuffix c.Filename ".asc" then acc
    else if Contains c.Filename ".orig.tar." then (c, acc.2)
    else if Contains c.Filename ".debian.tar." then (acc.1, c)
    else acc) (⟨"", ""⟩, ⟨"", ""⟩)

/-! ## Calls that leave the programme -/

/-- Go `error` value, as far as the programme tells errors apart: by
`os.IsNotExist`, by `os.IsExist`, and by its message. -/
inductive GoError where
  | notExist (msg : String)
  | exist (msg : String)
  | other (msg : String)
deriving DecidableEq, Repr

/-- Method `Error()`: the message. -/
def GoError.Error : GoError → String
  | .notExist msg => msg
  | .exist msg => msg
  | .other msg => msg

/-- Go `os.IsNotExist`. -/
def IsNotExist : GoError → Bool
  | .notExist _ => true
  | _ => false

/-- Go `os.IsExist`. -/
def IsExist : GoError → Bool
  | .exist _ => true
  | _ => false

/-- External command (`exec.Cmd`): argument vector, working directory (empty:
that of the programme) and environment (empty: inherited). -/
structure Cmd where
  Args : List String
  Dir : String
  Env : List String
deriving DecidableEq, Repr

/-- Call that leaves the programme, with its arguments. -/
inductive Action where
  | Printf (msg : String)
  | MkdirAll (path : String)
  | Output (cmd : Cmd)
  | Run (cmd : Cmd)
  | Abs (path : String)
  | ReadFile (path : String)
  | ReadDir (path : String)
  | Symlink (oldname newname : String)
  | Remove (path : String)
  | WriteFile (path data : String)
  | TempFile (fh : FileHash)
  | Close (name : String)
deriving DecidableEq, Repr

/-- Answers of the outside world to the calls of the programme: `os.MkdirAll`,
`exec.Cmd.Output`, `exec.Cmd.Run`, `filepath.Abs`, `ioutil.ReadFile`,
`ioutil.ReadDir` (entry names), `os.Symlink`, `os.Remove`, `ioutil.WriteFile`,
`archive.Downloader.TempFile` (name of the temporary file) and `File.Close`. -/
structure Sys where
  MkdirAll : String → Option GoError
  Output : Cmd → Except GoError String
  Run : Cmd → Option GoError
  Abs : String → Except GoError String
  ReadFile : String → Except GoError String
  ReadDir : String → Except GoError (List String)
  Symlink : String → String → Option GoError
  Remove : String → Option GoError
  WriteFile : String → String → Option GoError
  TempFile : FileHash → Except GoError String
  Close : String → Option GoError

/-- Result of running a piece of the programme: the calls it made, in order,
and the value or error it returned. -/
structure Eff (α : Type) where
  trace : List Action
  result : Except GoError α

/-- Return a value without any call. -/
def Eff.pure {α : Type} (a : α) : Eff α :=
  ⟨[], .ok a⟩

/-- Sequencing: the second piece runs only when the first returned no error
(`if err != nil { return err }`). -/
def Eff.bind {α β : Type} (m : Eff α) (f : α → Eff β) : Eff β :=
  match m.result with
  | .error e => ⟨m.trace, .error e⟩
  | .ok a => ⟨m.trace ++ (f a).trace, (f a).result⟩

instance : Monad Eff where
  pure := Eff.pure
  bind := Eff.bind

/-- One call with a value or an error as its answer. -/
def call {α : Type} (a : Action) (answer : Except GoError α) : Eff α :=
  ⟨[a], answer⟩

/-- One call whose answer is just an error or `nil`. -/
def callErr (a : Action) (answer : Option GoError) : Eff Unit :=
  ⟨[a], match answer with
        | some e => .error e
        | none => .ok ()⟩

/-- Return an error (`return err`). -/
def fail {α : Type} (e : GoError) : Eff α :=
  ⟨[], .error e⟩

/-- Go `log.Printf`. -/
def logPrintf (msg : String) : Eff Unit :=
  ⟨[.Printf msg], .ok ()⟩

/-- Go `defer`: the call is made when the body returns, whatever it returns;
its own result is dropped. -/
def deferred {α : Type} (a : Action) (body : Eff α) : Eff α :=
  ⟨body.trace ++ [a], body.result⟩

/-- Go `for _, x := range xs { ... }` with a body that may `return err`. -/
def forEach {α : Type} (xs : List α) (body : α → Eff Unit) : Eff Unit :=
  match xs with
  | [] => Eff.pure ()
  | x :: rest => Eff.bind (body x) (fun _ => forEach rest body)

/-- Go `fmt` verb `%v` for a slice of strings. -/
def showArgs (args : List String) : String :=
  "[" ++ stringsJoin args ' ' ++ "]"

/-! ## unpack.go -/

/-- Text file with the given lines, each followed by a newline: the output of
`tar tf` for an archive with these member paths, a series file with these
entries. -/
def listing (members : List String) : String :=
  String.mk (members.flatMap (fun m => m.data ++ ['\n']))

/-- Loop of `unpack` over the lines of the archive listing: the strip count
becomes 0 at the first line without a slash. -/
def stripLoop (lines : List String) (stripComponents : Nat) : Nat :=
  match lines with
  | [] => stripComponents
  | line :: rest =>
    if !Contains line "/" then 0
    else stripLoop rest stripComponents

/-- Strip count that `unpack` derives from the output of `tar tf`. -/
def stripComponents (out : String) : Nat :=
  stripLoop (Split (TrimSpace out) '\n') 1

/-- Command with which `unpack` extracts the archive. -/
def tarExtract (dest fn : String) (strip : Nat) : Cmd :=
  { Args := ["tar", "xf", fn, "-C", dest, "--strip-components=" ++ toString strip],
    Dir := "", Env := [] }

/-- Function `unpack` of unpack.go. -/
def unpack (sys : Sys) (dest fn : String) : Eff Unit := do
  callErr (.MkdirAll dest) (sys.MkdirAll dest)
  let tf : Cmd := { Args := ["tar", "tf", fn], Dir := "", Env := [] }
  let out ← call (.Output tf) (sys.Output tf)
  let tar := tarExtract dest fn (stripComponents out)
  match sys.Run tar with
  | some err => ⟨[.Run tar], .error (.other (showArgs tar.Args ++ ": " ++ err.Error))⟩
  | none => ⟨[.Run tar], .ok ()⟩

/-! ## patches.go -/

/-- Loop of `applyPatches` over the lines of the series file: true at the
first line that is neither a comment nor empty. -/
def hasPatches (lines : List String) : Bool :=
  match lines with
  | [] => false
  | patch :: rest =>
    if HasPrefix patch "#" then hasPatches rest
    else if patch = "" then hasPatches rest
    else true

/-- Command with which `applyPatches` applies the series. -/
def quiltPush (dir patchDir : String) : Cmd :=
  { Args := ["quilt", "push", "-a"], Dir := dir, Env := ["QUILT_PATCHES=" ++ patchDir] }

/-- Function `applyPatches` of patches.go. -/
def applyPatches (sys : Sys) (dir : String) : Eff Unit := do
  let p := Join [dir, "debian", "patches"]
  let patchDir ← call (.Abs p) (sys.Abs p)
  let series := Join [patchDir, "series"]
  match sys.ReadFile series with
  | .error err =>
    if IsNotExist err then ⟨[.ReadFile series], .ok ()⟩
    else ⟨[.ReadFile series], .error err⟩
  | .ok patches =>
    if !hasPatches (Split (TrimSpace patches) '\n') then ⟨[.ReadFile series], .ok ()⟩
    else
      let quilt := quiltPush dir patchDir
      match sys.Run quilt with
      | some err =>
        ⟨[.ReadFile series, .Run quilt],
          .error (.other (showArgs quilt.Args ++ " in " ++ quilt.Dir ++ ": " ++ err.Error))⟩
      | none => ⟨[.ReadFile series, .Run quilt], .ok ()⟩

/-! ## debhelper.go -/

/-- Function `dhFilesForPackage` of debhelper.go: the entries of `dir/debian`
whose name is `typ` or ends in `typ`. -/
def dhFilesForPackage (sys : Sys) (dir typ : String) : Eff (List String) := do
  let d := Join [dir, "debian"]
  let fis ← call (.ReadDir d) (sys.ReadDir d)
  pure (fis.filter (fun name => !(name ≠ typ && !HasSuffix name typ)))

/-- Body of the inner loop of `createLinks` for one line of a links file. -/
def createLink (sys : Sys) (destdir line : String) : Eff Unit :=
  if !HasPrefix line "usr/share/gocode/src" then Eff.pure ()
  else
    let parts := Split line ' '
    if parts.length ≠ 2 then
      logPrintf ("Skipping link line " ++ line.quote ++
        ": unexpected number of parts: got " ++ toString parts.length ++ ", want 2")
    else
      let oldname := Join [destdir, TrimPrefix (parts.getD 0 "") "usr/share/gocode/src"]
      let newname := Join [destdir, TrimPrefix (parts.getD 1 "") "usr/share/gocode/src"]
      Eff.bind (callErr (.MkdirAll (Dir newname)) (sys.MkdirAll (Dir newname))) (fun _ =>
        match Rel (Dir newname) oldname with
        | .error msg => fail (.other msg)
        | .ok rel =>
          match sys.Symlink rel newname with
          | some err =>
            if !IsExist err then ⟨[.Symlink rel newname], .error err⟩
            else ⟨[.Symlink rel newname], .ok ()⟩
          | none => ⟨[.Symlink rel newname], .ok ()⟩)

/-- Function `createLinks` of debhelper.go. -/
def createLinks (sys : Sys) (destdir dir : String) : Eff Unit := do
  let names ← dhFilesForPackage sys dir "links"
  forEach names (fun name => do
    let f := Join [dir, "debian", name]
    let links ← call (.ReadFile f) (sys.ReadFile f)
    forEach (Split (TrimSpace links) '\n') (createLink sys destdir))

/-- Body of the inner loop of `cleanFiles` for one line of a clean file. -/
def cleanFile (sys : Sys) (dir line : String) : Eff Unit :=
  if line = "" then Eff.pure ()
  else
    let f := Join [dir, line]
    match sys.Remove f with
    | some err =>
      if IsNotExist err then ⟨[.Remove f], .ok ()⟩
      else ⟨[.Remove f], .error err⟩
    | none => ⟨[.Remove f], .ok ()⟩

/-- Function `cleanFiles` of debhelper.go. -/
def cleanFiles (sys : Sys) (dir : String) : Eff Unit := do
  let names ← dhFilesForPackage sys dir "clean"
  forEach names (fun name => do
    let f := Join [dir, "debian", name]
    let clean ← call (.ReadFile f) (sys.ReadFile f)
    forEach (Split (TrimSpace clean) '\n') (cleanFile sys dir))

/-! ## gopath.go -/

/-- Error wrapped by `fmt.Errorf(pre + "%v", err)`; the calls made stay. -/
def wrapErr {α : Type} (pre : String) (m : Eff α) : Eff α :=
  ⟨m.trace, match m.result with
            | .error err => .error (.other (pre ++ err.Error))
            | .ok a => .ok a⟩

/-- Task that `logic` hands to `eg.Go` for one record: `tempdir` is the
staging directory and `importPath` the variable of the loop. -/
def packageTask (sys : Sys) (tempdir : String) (src : sourceIndex) (importPath : String) :
    Eff Unit :=
  let origTar := (selectTars src.Checksums).1
  let debTar := (selectTars src.Checksums).2
  if origTar.Filename = "" then
    logPrintf ("ERROR: src:" ++ src.Package ++ " is missing .orig.tar. file")
  else if debTar.Filename = "" then
    logPrintf ("ERROR: src:" ++ src.Package ++ " is missing .debian.tar. file")
  else
    let origTar : FileHash := { origTar with Filename := Join [src.Directory, origTar.Filename] }
    Eff.bind (wrapErr ("src:" ++ src.Package ++ ": download(origTar=" ++ origTar.Filename ++ "): ")
        (call (.TempFile origTar) (sys.TempFile origTar))) (fun origTarTmp =>
    Eff.bind (callErr (.Close origTarTmp) (sys.Close origTarTmp)) (fun _ =>
    deferred (.Remove origTarTmp) (
    let debTar : FileHash := { debTar with Filename := Join [src.Directory, debTar.Filename] }
    Eff.bind (wrapErr ("src:" ++ src.Package ++ ": download(debTar=" ++ debTar.Filename ++ "): ")
        (call (.TempFile debTar) (sys.TempFile debTar))) (fun debTarTmp =>
    Eff.bind (callErr (.Close debTarTmp) (sys.Close debTarTmp)) (fun _ =>
    deferred (.Remove debTarTmp) (
    let destRepo := Join [tempdir, first (Split importPath ',')]
    Eff.bind (wrapErr "unpacking orig tarball: " (unpack sys destRepo origTarTmp)) (fun _ =>
    Eff.bind (wrapErr "unpacking debian tarball: "
        (unpack sys (Join [destRepo, "debian"]) debTarTmp)) (fun _ =>
    Eff.bind (wrapErr "applying patches: " (applyPatches sys destRepo)) (fun _ =>
    Eff.bind (wrapErr "creating links: " (createLinks sys tempdir destRepo)) (fun _ =>
    Eff.bind (wrapErr "cleaning files: " (cleanFiles sys destRepo)) (fun _ =>
    let chmod : Cmd :=
      { Args := ["chmod", "-R", "--", "u+r+w+X,g+r-w+X,o+r-w+X", destRepo], Dir := "", Env := [] }
    Eff.bind (wrapErr (showArgs chmod.Args ++ ": ") (callErr (.Run chmod) (sys.Run chmod)))
      (fun _ =>
    let hashes := stringsJoin [origTar.Filename ++ "=" ++ origTar.Hash,
      debTar.Filename ++ "=" ++ debTar.Hash] '\n' ++ "\n"
    let f := Join [destRepo, "debian", ".hashes"]
    callErr (.WriteFile f hashes) (sys.WriteFile f hashes)))))))))))))

/-- What `logic` reads of the answer of `g.Release("unstable")`: the UNIX time
`rd.LastModified.Unix()` and the index files `release.Indices()`. -/
structure ReleaseInfo where
  LastModified : Int
  Indices : String → List FileHash

/-- Surroundings of one run of `logic`: the outside world of the tasks, the
two library functions of the loader, the random numbers `ioutil.TempDir` tries
in turn, the answer of `g.Release`, of the release downloader's `TempFile`, of
`control.Unmarshal` on the downloaded file, and of `os.Rename`. -/
structure Host where
  sys : Sys
  Compare : Version → Version → Int
  sortSlice : (sourceIndex → sourceIndex → Bool) → List sourceIndex → List sourceIndex
  tempNames : List Nat
  Release : Except GoError ReleaseInfo
  rdTempFile : FileHash → Except GoError String
  Unmarshal : String → Except String (List sourceIndex)
  Rename : String → String → Option GoError

/-- Go `ioutil.TempDir(".", prefix)`: a new directory whose name is the prefix
followed by a random number; a name that exists already is not taken and the
next number is tried; an error when no name could be created. The directory
is made in `.`, so the path returned is the name itself. -/
def TempDir (entries : List String) (pre : String) (tempNames : List Nat) :
    Except GoError String :=
  match tempNames.find? (fun n => decide (pre ++ toString n ∉ entries)) with
  | some n => .ok (pre ++ toString n)
  | none => .error (.exist ("mkdir " ++ pre ++ ": file exists"))

/-- Function `downloadSources` of sources.go. -/
def downloadSources (h : Host) (sourcesHash : FileHash) : Eff (List sourceIndex) :=
  Eff.bind (call (.TempFile sourcesHash) (h.rdTempFile sourcesHash)) (fun f =>
    deferred (.Close f) (deferred (.Remove f) (
      match loadSources h.Compare h.sortSlice (h.Unmarshal f) with
      | .error msg => fail (.other msg)
      | .ok srcs => Eff.pure srcs)))

/-- Go `eg.Wait()`: the first error among the tasks, `nil` when there is
none. (Which failing task is first depends on the scheduling; here it is the
first in the order of the records.) -/
def Wait (results : List (Eff Unit)) : Option GoError :=
  results.findSome? (fun r =>
    match r.result with
    | .error err => some err
    | .ok _ => none)

/-- Lines that the loop of `logic` logs for one record. -/
def loopLog (src : sourceIndex) : List Action :=
  if ignored src.Package then []
  else if src.ExtraSourceOnly then []
  else if resolvedImportPath src = "" then
    [.Printf ("package src:" ++ src.Package ++ " is missing xs-go-import-path")]
  else if resolvedImportPath src = "github.com/spf13/cobra" then
    [.Printf ("pkg = " ++ src.Package)]
  else []

/-- Observable result of one run of `logic`: the returned error, the lines
printed to standard output, the entries of the working directory afterwards,
the records for which a task was started, and all calls made. -/
structure Outcome where
  err : Option GoError
  stdout : List String
  entries : List String
  started : List sourceIndex
  trace : List Action

/-- Function `logic` of gopath.go after the staging directory was created:
`entries` are the names in the working directory, `tempdir` among them. -/
def logicBody (h : Host) (tempdir : String) (entries : List String) : Outcome :=
  match h.Release with
  | .error err => { err := some err, stdout := [], entries := entries, started := [], trace := [] }
  | .ok release =>
    let timestamp := toString release.LastModified
    if "src-" ++ timestamp ∈ entries then
      { err := none, stdout := [timestamp], entries := entries, started := [], trace := [] }
    else
      let sourcesPath := "main/source/Sources.gz"
      match release.Indices sourcesPath with
      | [] =>
        { err := some (.other (sourcesPath ++ " not found")), stdout := [], entries := entries,
          started := [], trace := [] }
      | fh :: _ =>
        let dl := downloadSources h fh
        match dl.result with
        | .error err =>
          { err := some err, stdout := [], entries := entries, started := [], trace := dl.trace }
        | .ok srcs =>
          let loaded : List Action :=
            [.Printf ("loaded " ++ toString srcs.length ++ " source packages")]
          let started := srcs.filter (fun src => !skipped src)
          let results := started.map (fun src =>
            packageTask h.sys tempdir src (resolvedImportPath src))
          let trace := dl.trace ++ loaded ++ srcs.flatMap loopLog ++
            results.flatMap (fun r => r.trace)
          match Wait results with
          | some err =>
            { err := some err, stdout := [], entries := entries, started := started,
              trace := trace }
          | none =>
            match h.Rename tempdir ("src-" ++ timestamp) with
            | some err =>
              { err := some err, stdout := [], entries := entries, started := started,
                trace := trace }
            | none =>
              { err := none, stdout := [timestamp],
                entries := ("src-" ++ timestamp) :: entries.filter (fun e => e ≠ tempdir),
                started := started, trace := trace }

/-- Function `logic` of gopath.go, run in a working directory with the given
entries. The deferred `os.RemoveAll(tempdir)` takes the staging directory
away again whenever it is still there at the end. -/
def logic (h : Host) (entries : List String) : Outcome :=
  match TempDir entries "src-tmp-" h.tempNames with
  | .error err => { err := some err, stdout := [], entries := entries, started := [], trace := [] }
  | .ok tempdir =>
    let out := logicBody h tempdir (tempdir :: entries)
    { out with entries := out.entries.filter (fun e => e ≠ tempdir) }

/-- Variable `destRepo` of the task in `logic`: the directory into which the
package is assembled, `filepath.Join(tempdir, strings.Split(importPath, ",")[0])`. -/
def destRepo (tempdir importPath : String) : String :=
  Join [tempdir, first (Split importPath ',')]

/-! ## internal/api (middleware.go, context.go, handler.go) -/

/-- Constant `repoKey` of middleware.go. -/
def repoKey : String := "repo"

/-- Constant `group` of context.go. -/
def group : String := "go-team/packages"

/-- What the handlers read of an `echo.Context`: the form values of the request
and the values stored with `Set`, the latest first. -/
structure Context where
  form : String → String
  store : List (String × String)

/-- Method `FormValue` of `echo.Context`: the form value of that name, empty
when the request has none. -/
def Context.FormValue (c : Context) (name : String) : String :=
  c.form name

/-- Method `Set` of `echo.Context`. -/
def Context.Set (c : Context) (key val : String) : Context :=
  { c with store := (key, val) :: c.store }

/-- Method `Get` of `echo.Context`: the value stored last under the key. -/
def Context.Get (c : Context) (key : String) : Option String :=
  (c.store.find? (fun kv => kv.1 = key)).map Prod.snd

/-- GitLab project (`gitlab.Project`); the handlers only pass it on. -/
structure Project where
  ID : Nat
  PathWithNamespace : String
deriving DecidableEq, Repr

/-- Result of a handler: an HTTP response with status code and body, or an
error handed back to the router. -/
inductive Reply where
  | response (status : Nat) (body : String)
  | failure (err : GoError)
deriving DecidableEq, Repr

/-- What serving one request did: the project paths looked up with
`Projects.GetProject`, in order, and the reply. -/
structure Served where
  lookups : List String
  reply : Reply
deriving DecidableEq, Repr

/-- Record `AppContext` of context.go; `GetProject` answers for
`salsaClient.Projects.GetProject`. -/
structure AppContext where
  GetProject : String → Except GoError Project
  repoCreation : Bool

/-- Method `AppContext.GetGoProject` of context.go: the path looked up and
the answer. -/
def AppContext.GetGoProject (ac : AppContext) (repo : String) :
    String × Except GoError Project :=
  let repo := Join [group, repo]
  (repo, ac.GetProject repo)

/-- Function `ConfigRepoHandler` of handler.go; `configAll` answers for
`config.All`. The type assertion `c.Get(repoKey).(string)` fails when the key
was never set. -/
def ConfigRepoHandler (ac : AppContext) (configAll : Project → Option GoError)
    (c : Context) : Served :=
  match c.Get repoKey with
  | none => ⟨[], .failure (.other "interface conversion: interface \x7b\x7d is nil, not string")⟩
  | some repo =>
    let looked := ac.GetGoProject repo
    ⟨[looked.1],
      match looked.2 with
      | .error err => .failure err
      | .ok p =>
        match configAll p with
        | some err => .response 500 err.Error
        | none => .response 200 ""⟩

/-- Function `RepoInfoMiddleware` of middleware.go around the handler `next`. -/
def RepoInfoMiddleware (next : Context → Served) (c : Context) : Served :=
  let repo := c.FormValue "repo"
  if repo = "" then ⟨[], .response 400 "no \"repo\" parameter found"⟩
  else
    let repo := Clean repo
    if Contains repo "/" then ⟨[], .response 400 "repo must not contain slashes"⟩
    else next (c.Set repoKey repo)

/-! ## Sample library functions

A comparison and a sorting routine with which the theorems about the loader
are exercised on concrete indices. They are not part of the programme. -/

/-- Sample version comparison: by epoch alone. -/
def compareEpoch (a b : Version) : Int :=
  (a.Epoch : Int) - (b.Epoch : Int)

/-- Sample sorting routine: insertion sort. -/
def insertionSlice (less : sourceIndex → sourceIndex → Bool) (l : List sourceIndex) :
    List sourceIndex :=
  List.insertionSort (fun a b => less b a = false) l

/-- Sample record: a package with a name, an epoch, an import-path hint, the
names of its build dependencies and the extra-source-only flag. -/
def sampleSrc (pkg : String) (epoch : Nat) (hint : String) (deps : List String)
    (extra : Bool) : sourceIndex :=
  { Checksums := [], BuildDepends := ⟨[⟨deps.map Possibility.mk⟩]⟩, GoImportPath := hint,
    ExtraSourceOnly := extra, Package := pkg, Version := ⟨epoch, "1", "1"⟩, Directory := "" }

/-- Sample outside world in which every call succeeds: archives list nothing,
directories are empty and files do not exist. -/
def sampleSys : Sys :=
  { MkdirAll := fun _ => none,
    Output := fun _ => .ok "",
    Run := fun _ => none,
    Abs := fun p => .ok (Join ["/srv/gopath", p]),
    ReadFile := fun _ => .error (.notExist "no such file or directory"),
    ReadDir := fun _ => .ok [],
    Symlink := fun _ _ => none,
    Remove := fun _ => none,
    WriteFile := fun _ _ => none,
    TempFile := fun fh => .ok (Join ["/tmp", fh.Hash]),
    Close := fun _ => none }

/-- Sample surroundings of a run: the release was last modified at `stamp` and
its source index decodes to `idx`. -/
def sampleHost (idx : List sourceIndex) (stamp : Int) : Host :=
  { sys := sampleSys, Compare := compareEpoch, sortSlice := insertionSlice,
    tempNames := [123456],
    Release := .ok ⟨stamp, fun _ => [⟨"main/source/Sources.gz", "0a1b"⟩]⟩,
    rdTempFile := fun _ => .ok "/tmp/Sources",
    Unmarshal := fun _ => .ok idx,
    Rename := fun _ _ => none }

/-- Sample record with its two archives: `pkg_1.0.orig.tar.gz` with the given
hash and `pkg_1.0-1.debian.tar.xz`. -/
def sampleTars (pkg hint origHash : String) : sourceIndex :=
  { Checksums := [⟨pkg ++ "_1.0.orig.tar.gz", origHash⟩, ⟨pkg ++ "_1.0-1.debian.tar.xz", "d1"⟩],
    BuildDepends := ⟨[]⟩, GoImportPath := hint, ExtraSourceOnly := false, Package := pkg,
    Version := ⟨0, "1.0", "1"⟩, Directory := "pool/main/" ++ pkg }

/-- Sample outside world in which the download of the file with hash `gone`
fails and every other call succeeds. -/
def failingSys : Sys :=
  { sampleSys with
    TempFile := fun fh =>
      if fh.Hash = "gone" then .error (.other "404 Not Found") else .ok (Join ["/tmp", fh.Hash]) }

/-- Sample surroundings of a run in `failingSys`. -/
def failingHost (idx : List sourceIndex) (stamp : Int) : Host :=
  { sampleHost idx stamp with sys := failingSys }

/-- Sample request: a form with the given value of `repo` and nothing else. -/
def repoRequest (repo : String) : Context :=
  { form := fun name => if name = "repo" then repo else "", store := [] }

/-- Sample outside world in which `tar tf` lists the given member paths and
every call succeeds. -/
def listingSys (members : List String) : Sys :=
  { sampleSys with Output := fun _ => .ok (listing members) }

/-! ## Notions used in the proofs -/

/-- Line without white space at its beginning and at its end. -/
def Trimmed (l : List Char) : Prop :=
  (∀ c, l.head? = some c → isSpace c = false) ∧ (∀ c, l.getLast? = some c → isSpace c = false)

/-- Ordinary path element: not empty, not `.`, not `..`, without a slash. -/
def IsName (n : List Char) : Prop :=
  n ≠ [] ∧ n ≠ ['.'] ∧ n ≠ ['.', '.'] ∧ '/' ∉ n

instance : DecidablePred IsName := fun n => by
  unfold IsName
  infer_instance


/-- Grouping invariant: distinct keys, every group is the non-empty list of
the records of `L` with its key, and every record of `L` has its group. -/
def Grouped (m : List (String × List sourceIndex)) (L : List sourceIndex) : Prop :=
  (m.map Prod.fst).Nodup ∧
  (∀ g ∈ m, g.2 = L.filter (fun s => s.Package = g.1) ∧ g.2 ≠ []) ∧
  (∀ s ∈ L, s.Package ∈ m.map Prod.fst)

/-- Path `p` lies below the directory `dir`: it is `dir`, a slash and at least
one more character. -/
def Inside (dir p : String) : Prop :=
  (dir.data ++ ['/']).isPrefixOf p.data = true ∧ dir.data.length + 1 < p.data.length

instance (dir p : String) : Decidable (Inside dir p) := by
  unfold Inside
  infer_instance

/-- The two filtering steps in the other order, for comparison with the
programme: first the extra-source-only records are dropped from the index, then
`loadSources` keeps the newest record per name, then the remaining conditions
of the loop of `logic` apply. -/
def dropExtraFirst (Compare : Version → Version → Int)
    (sortSlice : (sourceIndex → sourceIndex → Bool) → List sourceIndex → List sourceIndex)
    (idx : List sourceIndex) : List sourceIndex :=
  match loadSources Compare sortSlice (.ok (idx.filter (fun s => !s.ExtraSourceOnly))) with
  | .ok out => out.filter (fun s => !skipped s)
  | .error _ => []

/-! # Properties -/

/-! ## The loader keeps one newest record per package name -/

theorem byName_eq (temp : List sourceIndex) :
    byName temp = (temp.filter (fun s => dependsOnGo s)).foldl appendByName [] := by
  unfold byName
  generalize ([] : List (String × List sourceIndex)) = m
  induction temp generalizing m with
  | nil => rfl
  | cons s rest ih =>
    by_cases h : dependsOnGo s = true
    · simp only [List.foldl, List.filter, h, Bool.not_true, Bool.false_eq_true, if_false]
      exact ih _
    · simp only [Bool.not_eq_true] at h
      simp only [List.foldl, List.filter, h, Bool.not_false, if_true]
      exact ih _

theorem keys_appendByName (m : List (String × List sourceIndex)) (s : sourceIndex) :
    (appendByName m s).map Prod.fst =
      if s.Package ∈ m.map Prod.fst then m.map Prod.fst else m.map Prod.fst ++ [s.Package] := by
  induction m with
  | nil => simp [appendByName]
  | cons g rest ih =>
    obtain ⟨k, v⟩ := g
    by_cases hk : k = s.Package
    · simp [appendByName, hk]
    · have hk2 : ¬ s.Package = k := fun h => hk h.symm
      simp only [appendByName, hk, if_false, List.map_cons, ih, List.mem_cons, hk2, false_or]
      split <;> simp

theorem mem_appendByName (m : List (String × List sourceIndex)) (s : sourceIndex)
    (hnd : (m.map Prod.fst).Nodup)
    (g : String × List sourceIndex) (hg : g ∈ appendByName m s) :
    (g ∈ m ∧ g.1 ≠ s.Package) ∨
    (g.1 = s.Package ∧ ((∃ v, (s.Package, v) ∈ m ∧ g.2 = v ++ [s]) ∨
      ((∀ x ∈ m, x.1 ≠ s.Package) ∧ g.2 = [s]))) := by
  induction m with
  | nil =>
    simp [appendByName] at hg
    subst hg
    simp
  | cons x rest ih =>
    obtain ⟨k, v⟩ := x
    simp only [List.map_cons, List.nodup_cons, List.mem_map, not_exists, not_and] at hnd
    by_cases hk : k = s.Package
    · simp only [appendByName, hk, if_true, List.mem_cons] at hg
      rcases hg with hg | hg
      · right
        subst hg
        exact ⟨rfl, Or.inl ⟨v, by simp [hk], rfl⟩⟩
      · by_cases hg1 : g.1 = s.Package
        · exact absurd (hg1.trans hk.symm) (hnd.1 g hg)
        · left
          exact ⟨by simp [hg], hg1⟩
    · simp only [appendByName, hk, if_false, List.mem_cons] at hg
      rcases hg with hg | hg
      · left
        subst hg
        exact ⟨by simp, hk⟩
      · rcases ih hnd.2 hg with ⟨h1, h2⟩ | ⟨h1, h2⟩
        · left
          exact ⟨by simp [h1], h2⟩
        · right
          refine ⟨h1, ?_⟩
          rcases h2 with ⟨w, hw, hw2⟩ | ⟨h3, h4⟩
          · exact Or.inl ⟨w, by simp [hw], hw2⟩
          · right
            refine ⟨?_, h4⟩
            intro x hx
            simp only [List.mem_cons] at hx
            rcases hx with hx | hx
            · subst hx; exact hk
            · exact h3 x hx

theorem grouped_append (m : List (String × List sourceIndex)) (L : List sourceIndex)
    (s : sourceIndex) (h : Grouped m L) : Grouped (appendByName m s) (L ++ [s]) := by
  obtain ⟨hnd, hgr, hcov⟩ := h
  refine ⟨?_, ?_, ?_⟩
  · rw [keys_appendByName]
    split
    · exact hnd
    · rename_i hnot
      rw [List.nodup_append]
      refine ⟨hnd, by simp, ?_⟩
      intro a ha hb
      simp only [List.mem_singleton] at hb
      subst hb
      exact hnot ha
  · intro g hg
    rcases mem_appendByName m s hnd g hg with ⟨h1, h2⟩ | ⟨h1, h2⟩
    · have := hgr g h1
      refine ⟨?_, this.2⟩
      have h3 : ¬ s.Package = g.1 := fun e => h2 e.symm
      simp [List.filter_append, List.filter, h3, this.1.symm]
    · rcases h2 with ⟨v, hv, hv2⟩ | ⟨h3, h4⟩
      · have := hgr _ hv
        simp only at this
        refine ⟨?_, by simp [hv2]⟩
        rw [hv2, this.1, h1]
        simp [List.filter_append, List.filter]
      · refine ⟨?_, by simp [h4]⟩
        have hnone : L.filter (fun x => x.Package = s.Package) = [] := by
          rw [List.filter_eq_nil_iff]
          intro a ha hpa
          simp only [decide_eq_true_eq] at hpa
          have := hcov a ha
          simp only [List.mem_map] at this
          obtain ⟨x, hx, hx2⟩ := this
          exact h3 x hx (hx2.trans hpa)
        rw [h4, h1]
        simp [List.filter_append, hnone, List.filter]
  · intro a ha
    rw [keys_appendByName]
    simp only [List.mem_append, List.mem_singleton] at ha
    split
    · rename_i hin
      rcases ha with ha | ha
      · exact hcov a ha
      · subst ha; exact hin
    · rcases ha with ha | ha
      · exact List.mem_append_left _ (hcov a ha)
      · subst ha; simp

theorem grouped_foldl (L : List sourceIndex) : Grouped (L.foldl appendByName []) L := by
  induction L using List.reverseRecOn with
  | nil => exact ⟨by simp, by simp, by simp⟩
  | append_singleton l a ih =>
    rw [List.foldl_append]
    exact grouped_append _ _ _ ih

theorem newest_spec (Compare : Version → Version → Int)
    (sortSlice : (sourceIndex → sourceIndex → Bool) → List sourceIndex → List sourceIndex)
    (hrefl : ∀ v, Compare v v = 0)
    (hsort : SortsBy sortSlice (moreRecent Compare))
    (srcs : List sourceIndex) (hne : srcs ≠ []) :
    ∃ r, newest Compare sortSlice srcs = some r ∧ r ∈ srcs ∧
      ∀ s ∈ srcs, Compare s.Version r.Version ≤ 0 := by
  have hself : ∀ r : sourceIndex, Compare r.Version r.Version ≤ 0 := fun r => by
    rw [hrefl]
  unfold newest
  by_cases hlen : srcs.length > 1
  · simp only [hlen, if_true]
    obtain ⟨hperm, hpair⟩ := hsort srcs
    cases hs : sortSlice (moreRecent Compare) srcs with
    | nil =>
      rw [hs] at hperm
      exact absurd hperm.symm.eq_nil hne
    | cons r tl =>
      rw [hs] at hperm hpair
      refine ⟨r, rfl, hperm.subset (List.mem_cons_self _ _), ?_⟩
      intro s hsm
      have hs2 : s ∈ r :: tl := hperm.symm.subset hsm
      simp only [List.mem_cons] at hs2
      rcases hs2 with h | h
      · subst h; exact hself s
      · have := (List.pairwise_cons.mp hpair).1 s h
        simpa [moreRecent] using this
  · simp only [hlen, if_false]
    cases srcs with
    | nil => exact absurd rfl hne
    | cons r tl =>
      cases tl with
      | nil =>
        refine ⟨r, rfl, List.mem_cons_self _ _, ?_⟩
        intro s hsm
        simp only [List.mem_singleton] at hsm
        subst hsm; exact hself s
      | cons x xs => simp at hlen

theorem filter_key_unique (m : List (String × List sourceIndex))
    (hnd : (m.map Prod.fst).Nodup) (g : String × List sourceIndex) (hg : g ∈ m) :
    m.filter (fun x => x.1 = g.1) = [g] := by
  induction m with
  | nil => simp at hg
  | cons x rest ih =>
    simp only [List.map_cons, List.nodup_cons, List.mem_map, not_exists, not_and] at hnd
    simp only [List.mem_cons] at hg
    rcases hg with hg | hg
    · subst hg
      have : rest.filter (fun x => x.1 = g.1) = [] := by
        rw [List.filter_eq_nil_iff]
        intro a ha hpa
        simp only [decide_eq_true_eq] at hpa
        exact hnd.1 a ha hpa
      simp [List.filter, this]
    · have hx : ¬ x.1 = g.1 := fun e => hnd.1 g hg e.symm
      simp [List.filter, hx, ih hnd.2 hg]

theorem filtered_filter (Compare : Version → Version → Int)
    (sortSlice : (sourceIndex → sourceIndex → Bool) → List sourceIndex → List sourceIndex)
    (m : List (String × List sourceIndex))
    (hpk : ∀ g ∈ m, ∀ r, newest Compare sortSlice g.2 = some r → r.Package = g.1)
    (name : String) :
    (filtered Compare sortSlice m).filter (fun s => s.Package = name) =
      filtered Compare sortSlice (m.filter (fun g => g.1 = name)) := by
  unfold filtered
  induction m with
  | nil => rfl
  | cons g rest ih =>
    have ih2 := ih (fun x hx => hpk x (List.mem_cons_of_mem _ hx))
    have hg := hpk g (List.mem_cons_self _ _)
    cases hn : newest Compare sortSlice g.2 with
    | none =>
      by_cases hk : g.1 = name
      · simp [List.filterMap_cons, List.filter_cons, hn, hk, ih2]
      · simp [List.filterMap_cons, List.filter_cons, hn, hk, ih2]
    | some r =>
      have hr := hg r hn
      by_cases hk : g.1 = name
      · have : r.Package = name := hr.trans hk
        simp [List.filterMap_cons, List.filter_cons, hn, hk, this, ih2]
      · have : ¬ r.Package = name := fun e => hk (hr.symm.trans e)
        simp [List.filterMap_cons, List.filter_cons, hn, hk, this, ih2]

theorem newest_mem (Compare : Version → Version → Int)
    (sortSlice : (sourceIndex → sourceIndex → Bool) → List sourceIndex → List sourceIndex)
    (hsort : SortsBy sortSlice (moreRecent Compare))
    (srcs : List sourceIndex) (r : sourceIndex)
    (h : newest Compare sortSlice srcs = some r) : r ∈ srcs := by
  unfold newest at h
  split at h
  · exact (hsort srcs).1.subset (List.mem_of_mem_head? h)
  · exact List.mem_of_mem_head? h

theorem byName_grouped (idx : List sourceIndex) :
    Grouped (byName idx) (idx.filter (fun s => dependsOnGo s)) := by
  rw [byName_eq]
  exact grouped_foldl _

/-- C1 (as amended). For every decoded index and every package name:
when no record of that name is Go-relevant (`dependsOnGo`), `loadSources`
returns no record of that name; when at least one is, it returns exactly one
record of that name, that record is one of the Go-relevant input records, and
no Go-relevant input record of the name has a greater version under
`version.Compare`. -/
theorem loadSources_newest_per_name (Compare : Version → Version → Int)
    (sortSlice : (sourceIndex → sourceIndex → Bool) → List sourceIndex → List sourceIndex)
    (hrefl : ∀ v, Compare v v = 0)
    (hsort : SortsBy sortSlice (moreRecent Compare))
    (idx : List sourceIndex) (name : String) :
    ∃ out, loadSources Compare sortSlice (.ok idx) = .ok out ∧
      ((∀ s ∈ idx, s.Package = name → dependsOnGo s = false) →
        out.filter (fun s => s.Package = name) = []) ∧
      ((∃ s ∈ idx, s.Package = name ∧ dependsOnGo s = true) →
        ∃ r, out.filter (fun s => s.Package = name) = [r] ∧ r ∈ idx ∧
          dependsOnGo r = true ∧
          ∀ s ∈ idx, s.Package = name → dependsOnGo s = true →
            Compare s.Version r.Version ≤ 0) := by
  refine ⟨filtered Compare sortSlice (byName idx), rfl, ?_, ?_⟩
  all_goals
    obtain ⟨hnd, hgr, hcov⟩ := byName_grouped idx
    have hpk : ∀ g ∈ byName idx, ∀ r, newest Compare sortSlice g.2 = some r →
        r.Package = g.1 := by
      intro g hg r hr
      have hm := newest_mem Compare sortSlice hsort g.2 r hr
      rw [(hgr g hg).1] at hm
      simpa using (List.mem_filter.mp hm).2
    rw [filtered_filter Compare sortSlice (byName idx) hpk name]
  · intro hno
    have : (byName idx).filter (fun g => g.1 = name) = [] := by
      rw [List.filter_eq_nil_iff]
      intro g hg hgn
      simp only [decide_eq_true_eq] at hgn
      obtain ⟨h1, h2⟩ := hgr g hg
      obtain ⟨s, hs⟩ := List.exists_mem_of_ne_nil _ h2
      rw [h1] at hs
      obtain ⟨hs1, hs2⟩ := List.mem_filter.mp hs
      obtain ⟨hs3, hs4⟩ := List.mem_filter.mp hs1
      simp only [decide_eq_true_eq] at hs2
      have := hno s hs3 (hs2.trans hgn)
      simp [this] at hs4
    rw [this]
    rfl
  · rintro ⟨s, hs, hsn, hsg⟩
    have hsG : s ∈ idx.filter (fun s => dependsOnGo s) := List.mem_filter.mpr ⟨hs, hsg⟩
    have hkey := hcov s hsG
    simp only [List.mem_map] at hkey
    obtain ⟨g, hg, hgk⟩ := hkey
    have hgn : g.1 = name := hgk.trans hsn
    have huniq := filter_key_unique (byName idx) hnd g hg
    rw [hgn] at huniq
    rw [huniq]
    obtain ⟨h1, h2⟩ := hgr g hg
    obtain ⟨r, hr, hrm, hmax⟩ := newest_spec Compare sortSlice hrefl hsort g.2 h2
    refine ⟨r, by simp [filtered, hr], ?_, ?_, ?_⟩
    · rw [h1] at hrm
      exact (List.mem_filter.mp (List.mem_filter.mp hrm).1).1
    · rw [h1] at hrm
      exact (List.mem_filter.mp (List.mem_filter.mp hrm).1).2
    · intro t ht htn htg
      apply hmax
      rw [h1]
      refine List.mem_filter.mpr ⟨List.mem_filter.mpr ⟨ht, htg⟩, ?_⟩
      simp [htn, hgn]

theorem insertionSlice_sortsBy : SortsBy insertionSlice (moreRecent compareEpoch) := by
  intro l
  unfold insertionSlice
  haveI : IsTotal sourceIndex (fun a b => moreRecent compareEpoch b a = false) :=
    ⟨fun a b => by simp only [moreRecent, compareEpoch, decide_eq_false_iff_not]; omega⟩
  haveI : IsTrans sourceIndex (fun a b => moreRecent compareEpoch b a = false) :=
    ⟨fun a b c => by simp only [moreRecent, compareEpoch, decide_eq_false_iff_not]; omega⟩
  exact ⟨List.perm_insertionSort _ l, List.sorted_insertionSort _ l⟩

/-- Witness of C1 (as amended): an index with two Go-relevant records of
package `foo`, epochs 1 and 2. -/
theorem loadSources_newest_per_name_witness :
    (∀ v, compareEpoch v v = 0) ∧ SortsBy insertionSlice (moreRecent compareEpoch) ∧
    (∃ s ∈ [sampleSrc "foo" 1 "example.org/foo" [] false,
        sampleSrc "foo" 2 "example.org/foo" [] false],
      s.Package = "foo" ∧ dependsOnGo s = true) ∧
    ∃ out, loadSources compareEpoch insertionSlice
        (.ok [sampleSrc "foo" 1 "example.org/foo" [] false,
          sampleSrc "foo" 2 "example.org/foo" [] false]) = .ok out ∧
      ((∀ s ∈ [sampleSrc "foo" 1 "example.org/foo" [] false,
          sampleSrc "foo" 2 "example.org/foo" [] false],
          s.Package = "foo" → dependsOnGo s = false) →
        out.filter (fun s => s.Package = "foo") = []) ∧
      ((∃ s ∈ [sampleSrc "foo" 1 "example.org/foo" [] false,
          sampleSrc "foo" 2 "example.org/foo" [] false],
          s.Package = "foo" ∧ dependsOnGo s = true) →
        ∃ r, out.filter (fun s => s.Package = "foo") = [r] ∧
          r ∈ [sampleSrc "foo" 1 "example.org/foo" [] false,
            sampleSrc "foo" 2 "example.org/foo" [] false] ∧
          dependsOnGo r = true ∧
          ∀ s ∈ [sampleSrc "foo" 1 "example.org/foo" [] false,
              sampleSrc "foo" 2 "example.org/foo" [] false],
            s.Package = "foo" → dependsOnGo s = true →
              compareEpoch s.Version r.Version ≤ 0) :=
  ⟨fun v => by simp [compareEpoch], insertionSlice_sortsBy,
    ⟨sampleSrc "foo" 1 "example.org/foo" [] false, by simp, rfl, rfl⟩,
    loadSources_newest_per_name compareEpoch insertionSlice
      (fun v => by simp [compareEpoch]) insertionSlice_sortsBy _ "foo"⟩

/-- C1 as stated fails. An index whose only record of package `foo` is not
Go-relevant has a record of that name, and `loadSources` returns none; and in
an index with a Go-relevant `foo` of epoch 1 and a `foo` of epoch 2 that is
not Go-relevant, the record returned is the one of epoch 1, which is not the
maximum of the records sharing the name. -/
theorem loadSources_not_one_per_input_name :
    (∃ s ∈ [sampleSrc "foo" 1 "" ["debhelper"] false], s.Package = "foo") ∧
    loadSources compareEpoch insertionSlice (.ok [sampleSrc "foo" 1 "" ["debhelper"] false])
      = .ok [] ∧
    loadSources compareEpoch insertionSlice
      (.ok [sampleSrc "foo" 1 "example.org/foo" [] false, sampleSrc "foo" 2 "" [] false])
      = .ok [sampleSrc "foo" 1 "example.org/foo" [] false] ∧
    compareEpoch (sampleSrc "foo" 2 "" [] false).Version
      (sampleSrc "foo" 1 "example.org/foo" [] false).Version > 0 := by
  refine ⟨⟨_, List.mem_singleton.mpr rfl, rfl⟩, ?_, ?_, ?_⟩
  · rfl
  · rfl
  · decide

/-! ## What reaches assembly -/

theorem logicBody_started (h : Host) (tempdir : String) (entries : List String)
    (src : sourceIndex) (hs : src ∈ (logicBody h tempdir entries).started) :
    skipped src = false ∧
      ∃ srcs fh, (downloadSources h fh).result = .ok srcs ∧ src ∈ srcs := by
  unfold logicBody at hs
  split at hs
  · simp at hs
  · rename_i release hrel
    simp only at hs
    split at hs
    · simp at hs
    · split at hs
      · simp at hs
      · rename_i fh rest hidx
        split at hs
        · simp at hs
        · rename_i srcs hdl
          have key : src ∈ srcs.filter (fun src => !skipped src) := by
            split at hs
            · exact hs
            · split at hs
              · exact hs
              · exact hs
          obtain ⟨h1, h2⟩ := List.mem_filter.mp key
          exact ⟨by simpa using h2, srcs, fh, hdl, h1⟩

theorem logic_started (h : Host) (entries : List String)
    (src : sourceIndex) (hs : src ∈ (logic h entries).started) :
    skipped src = false ∧
      ∃ srcs fh, (downloadSources h fh).result = .ok srcs ∧ src ∈ srcs := by
  unfold logic at hs
  split at hs
  · simp at hs
  · exact logicBody_started h _ _ src hs

/-- C2 (as amended). In every run, a record for which `logic` starts the
per-package task has its extra-source-only flag unset and its package outside
the table `ignored`, whatever its other fields are: the loop of `logic` passes
such records over. (The result of `loadSources` itself may hold them.) -/
theorem logic_never_starts_extra_or_ignored (h : Host) (entries : List String)
    (src : sourceIndex) :
    src ∈ (logic h entries).started → src.ExtraSourceOnly = false ∧ ignored src.Package = false := by
  intro hs
  have := (logic_started h entries src hs).1
  simp only [skipped, Bool.or_eq_false_iff] at this
  exact ⟨this.1.1.1.2, this.1.1.1.1⟩

/-- Witness of C2 (as amended): a run over an index with one ordinary Go
package starts its task, and that record is neither extra-source-only nor
ignored. -/
theorem logic_never_starts_extra_or_ignored_witness :
    sampleSrc "golang-foo" 1 "example.org/foo" [] false ∈
      (logic (sampleHost [sampleSrc "golang-foo" 1 "example.org/foo" [] false] 1500000000)
        []).started ∧
    (sampleSrc "golang-foo" 1 "example.org/foo" [] false).ExtraSourceOnly = false ∧
    ignored (sampleSrc "golang-foo" 1 "example.org/foo" [] false).Package = false :=
  ⟨by decide,
    logic_never_starts_extra_or_ignored
      (sampleHost [sampleSrc "golang-foo" 1 "example.org/foo" [] false] 1500000000) []
      (sampleSrc "golang-foo" 1 "example.org/foo" [] false) (by decide)⟩

/-- C2 as stated fails. The result of `loadSources` holds a record whose
extra-source-only flag is set, and a record of the ignored package `kxd`. -/
theorem loadSources_returns_extra_and_ignored :
    loadSources compareEpoch insertionSlice
      (.ok [sampleSrc "golang-foo" 1 "example.org/foo" [] true,
        sampleSrc "kxd" 1 "blitiri.com.ar/go/kxd" [] false])
      = .ok [sampleSrc "golang-foo" 1 "example.org/foo" [] true,
        sampleSrc "kxd" 1 "blitiri.com.ar/go/kxd" [] false] ∧
    (sampleSrc "golang-foo" 1 "example.org/foo" [] true).ExtraSourceOnly = true ∧
    ignored (sampleSrc "kxd" 1 "blitiri.com.ar/go/kxd" [] false).Package = true :=
  ⟨rfl, rfl, rfl⟩

theorem mem_loadSources (Compare : Version → Version → Int)
    (sortSlice : (sourceIndex → sourceIndex → Bool) → List sourceIndex → List sourceIndex)
    (hsort : SortsBy sortSlice (moreRecent Compare))
    (idx out : List sourceIndex) (h : loadSources Compare sortSlice (.ok idx) = .ok out)
    (r : sourceIndex) (hr : r ∈ out) : r ∈ idx ∧ dependsOnGo r = true := by
  simp only [loadSources, Except.ok.injEq] at h
  subst h
  simp only [filtered, List.mem_filterMap] at hr
  obtain ⟨g, hg, hn⟩ := hr
  have hm := newest_mem Compare sortSlice hsort g.2 r hn
  rw [((byName_grouped idx).2.1 g hg).1] at hm
  have := List.mem_filter.mp (List.mem_filter.mp hm).1
  exact ⟨this.1, this.2⟩

theorem rewrite_skipped (src : sourceIndex) (target : String)
    (h : rewrite src.Package = some target) : skipped src = src.ExtraSourceOnly := by
  unfold rewrite at h
  unfold skipped resolvedImportPath
  split at h
  · rename_i hp
    simp only [Option.some.injEq] at h
    subst h
    rw [hp]
    simp [rewrite, ignored]
  · split at h
    · rename_i hp
      simp only [Option.some.injEq] at h
      subst h
      rw [hp]
      simp [rewrite, ignored]
    · split at h
      · rename_i hp
        simp only [Option.some.injEq] at h
        subst h
        rw [hp]
        simp [rewrite, ignored]
      · split at h
        · rename_i hp
          simp only [Option.some.injEq] at h
          subst h
          rw [hp]
          simp [rewrite, ignored]
        · split at h
          · rename_i hp
            simp only [Option.some.injEq] at h
            subst h
            rw [hp]
            simp [rewrite, ignored]
          · simp at h

/-- C3 (as amended). For every record whose import-path hint is empty: if
none of its build-dependency possibilities is named `golang-go`, `golang-any`
or `golang`, the record is in no result of `loadSources`; if one of them is,
the record passes the relevance test of the loader and an index holding it
alone is returned unchanged, but `logic` starts its task only when the table
`rewrite` has an entry for its package (then exactly when it is not
extra-source-only), and passes it over when the table has none. -/
theorem empty_hint_record (Compare : Version → Version → Int)
    (sortSlice : (sourceIndex → sourceIndex → Bool) → List sourceIndex → List sourceIndex)
    (hsort : SortsBy sortSlice (moreRecent Compare))
    (src : sourceIndex) (hhint : src.GoImportPath = "") :
    ((∀ p ∈ src.BuildDepends.GetAllPossibilities,
        p.Name ≠ "golang-go" ∧ p.Name ≠ "golang-any" ∧ p.Name ≠ "golang") →
      ∀ idx out, loadSources Compare sortSlice (.ok idx) = .ok out → src ∉ out) ∧
    ((∃ p ∈ src.BuildDepends.GetAllPossibilities,
        p.Name = "golang-go" ∨ p.Name = "golang-any" ∨ p.Name = "golang") →
      dependsOnGo src = true ∧
      loadSources Compare sortSlice (.ok [src]) = .ok [src] ∧
      (rewrite src.Package = none → skipped src = true) ∧
      (∀ target, rewrite src.Package = some target → skipped src = src.ExtraSourceOnly) ∧
      (∀ h entries, src ∈ (logic h entries).started →
        ∃ target, rewrite src.Package = some target)) := by
  constructor
  · intro hno idx out hload hmem
    have hgo := (mem_loadSources Compare sortSlice hsort idx out hload src hmem).2
    simp only [dependsOnGo, hhint, ne_eq, not_true_eq_false, if_false, List.any_eq_true,
      Bool.or_eq_true, decide_eq_true_eq] at hgo
    obtain ⟨p, hp, hname⟩ := hgo
    obtain ⟨h1, h2, h3⟩ := hno p hp
    rcases hname with (h | h) | h
    · exact h1 h
    · exact h2 h
    · exact h3 h
  · rintro ⟨p, hp, hname⟩
    have hgo : dependsOnGo src = true := by
      simp only [dependsOnGo, hhint, ne_eq, not_true_eq_false, if_false, List.any_eq_true,
        Bool.or_eq_true, decide_eq_true_eq]
      exact ⟨p, hp, by tauto⟩
    have hnone : rewrite src.Package = none → skipped src = true := by
      intro hn
      simp [skipped, resolvedImportPath, hn, hhint]
    refine ⟨hgo, ?_, hnone, rewrite_skipped src, ?_⟩
    · simp [loadSources, byName, hgo, appendByName, filtered, newest]
    · intro h entries hs
      have hsk := (logic_started h entries src hs).1
      cases hrw : rewrite src.Package with
      | none => rw [hnone hrw] at hsk; exact absurd hsk (by decide)
      | some target => exact ⟨target, rfl⟩

/-- Witness of C3 (as amended): the record of package `pluginhook` (which has
a rewrite entry) with an empty hint and a build dependency on `golang-go`. -/
theorem empty_hint_record_witness :
    SortsBy insertionSlice (moreRecent compareEpoch) ∧
    (sampleSrc "pluginhook" 1 "" ["debhelper", "golang-go"] false).GoImportPath = "" ∧
    sampleSrc "pluginhook" 1 "" ["debhelper", "golang-go"] false ∈
      (logic (sampleHost [sampleSrc "pluginhook" 1 "" ["debhelper", "golang-go"] false] 1500000000)
        []).started ∧
    ((∀ p ∈ (sampleSrc "pluginhook" 1 "" ["debhelper", "golang-go"]
          false).BuildDepends.GetAllPossibilities,
        p.Name ≠ "golang-go" ∧ p.Name ≠ "golang-any" ∧ p.Name ≠ "golang") →
      ∀ idx out, loadSources compareEpoch insertionSlice (.ok idx) = .ok out →
        sampleSrc "pluginhook" 1 "" ["debhelper", "golang-go"] false ∉ out) ∧
    ((∃ p ∈ (sampleSrc "pluginhook" 1 "" ["debhelper", "golang-go"]
          false).BuildDepends.GetAllPossibilities,
        p.Name = "golang-go" ∨ p.Name = "golang-any" ∨ p.Name = "golang") →
      dependsOnGo (sampleSrc "pluginhook" 1 "" ["debhelper", "golang-go"] false) = true ∧
      loadSources compareEpoch insertionSlice
        (.ok [sampleSrc "pluginhook" 1 "" ["debhelper", "golang-go"] false])
        = .ok [sampleSrc "pluginhook" 1 "" ["debhelper", "golang-go"] false] ∧
      (rewrite (sampleSrc "pluginhook" 1 "" ["debhelper", "golang-go"] false).Package = none →
        skipped (sampleSrc "pluginhook" 1 "" ["debhelper", "golang-go"] false) = true) ∧
      (∀ target,
        rewrite (sampleSrc "pluginhook" 1 "" ["debhelper", "golang-go"] false).Package
          = some target →
        skipped (sampleSrc "pluginhook" 1 "" ["debhelper", "golang-go"] false)
          = (sampleSrc "pluginhook" 1 "" ["debhelper", "golang-go"] false).ExtraSourceOnly) ∧
      (∀ h entries,
        sampleSrc "pluginhook" 1 "" ["debhelper", "golang-go"] false ∈ (logic h entries).started →
        ∃ target,
          rewrite (sampleSrc "pluginhook" 1 "" ["debhelper", "golang-go"] false).Package
            = some target)) :=
  ⟨insertionSlice_sortsBy, rfl, by decide,
    empty_hint_record compareEpoch insertionSlice insertionSlice_sortsBy
      (sampleSrc "pluginhook" 1 "" ["debhelper", "golang-go"] false) rfl⟩

/-- C3 as stated fails. A record with an empty hint and a build dependency on
`golang-go`, which is not extra-source-only, not ignored and not one of the
two packages excluded by name, is returned by `loadSources`; but the run
starts no task for it (and still ends well, publishing the snapshot). -/
theorem empty_hint_record_not_processed :
    dependsOnGo (sampleSrc "golang-foo" 1 "" ["debhelper", "golang-go"] false) = true ∧
    (sampleSrc "golang-foo" 1 "" ["debhelper", "golang-go"] false).ExtraSourceOnly = false ∧
    ignored "golang-foo" = false ∧
    loadSources compareEpoch insertionSlice
      (.ok [sampleSrc "golang-foo" 1 "" ["debhelper", "golang-go"] false])
      = .ok [sampleSrc "golang-foo" 1 "" ["debhelper", "golang-go"] false] ∧
    (logic (sampleHost [sampleSrc "golang-foo" 1 "" ["debhelper", "golang-go"] false] 1500000000)
      []).started = [] ∧
    (logic (sampleHost [sampleSrc "golang-foo" 1 "" ["debhelper", "golang-go"] false] 1500000000)
      []).err = none ∧
    (logic (sampleHost [sampleSrc "golang-foo" 1 "" ["debhelper", "golang-go"] false] 1500000000)
      []).entries = ["src-1500000000"] := by
  refine ⟨rfl, rfl, rfl, rfl, ?_, ?_, ?_⟩ <;> decide

/-! ## The resolved import path -/

theorem splitList_head (sep : Char) (l : List Char) :
    (splitList sep l).head? = some (l.takeWhile (fun c => c ≠ sep)) := by
  induction l with
  | nil => rfl
  | cons c cs ih =>
    by_cases h : c = sep
    · simp [splitList, h, List.takeWhile]
    · simp only [splitList, h, if_false]
      cases hs : splitList sep cs with
      | nil => rw [hs] at ih; simp at ih
      | cons w ws =>
        rw [hs] at ih
        simp only [List.head?_cons, Option.some.injEq] at ih
        simp [List.takeWhile, h, ih]

theorem first_Split (s : String) (sep : Char) :
    first (Split s sep) = String.mk (s.data.takeWhile (fun c => c ≠ sep)) := by
  unfold first Split
  have := splitList_head sep s.data
  cases hs : splitList sep s.data with
  | nil => rw [hs] at this; simp at this
  | cons w ws =>
    rw [hs] at this
    simp only [List.head?_cons, Option.some.injEq] at this
    simp [this]

/-- C4. For every record, the method `importPath` and the computation in
`logic` (rewrite lookup, then `strings.Split(importPath, ",")[0]`) give the
same string: the rewrite-table entry of the package if there is one, otherwise
the hint `GoImportPath`, cut before its first comma; it is the whole string
when that has no comma. -/
theorem importPath_resolved (src : sourceIndex) :
    src.importPath = first (Split (resolvedImportPath src) ',') ∧
    resolvedImportPath src = (rewrite src.Package).getD src.GoImportPath ∧
    src.importPath =
      String.mk (((rewrite src.Package).getD src.GoImportPath).data.takeWhile
        (fun c => c ≠ ',')) ∧
    (',' ∉ ((rewrite src.Package).getD src.GoImportPath).data →
      src.importPath = (rewrite src.Package).getD src.GoImportPath) := by
  have h1 : src.importPath = first (Split (resolvedImportPath src) ',') := by
    unfold sourceIndex.importPath resolvedImportPath
    cases rewrite src.Package <;> rfl
  have h2 : resolvedImportPath src = (rewrite src.Package).getD src.GoImportPath := by
    unfold resolvedImportPath
    cases rewrite src.Package <;> rfl
  have h3 : src.importPath = String.mk (((rewrite src.Package).getD src.GoImportPath).data.takeWhile
        (fun c => c ≠ ',')) := by
    rw [h1, first_Split, h2]
  refine ⟨h1, h2, h3, ?_⟩
  intro hno
  rw [h3]
  have : ((rewrite src.Package).getD src.GoImportPath).data.takeWhile (fun c => c ≠ ',')
      = ((rewrite src.Package).getD src.GoImportPath).data := by
    rw [List.takeWhile_eq_self_iff]
    intro c hc
    simp only [ne_eq, decide_not, Bool.not_eq_true', decide_eq_false_iff_not]
    intro e
    exact hno (e ▸ hc)
  rw [this]

/-! ## Selection of the two archives -/

theorem getLast?_cons_getD {α : Type} (c a : α) (xs : List α) :
    ((c :: xs).getLast?).getD a = (xs.getLast?).getD c := by
  cases xs with
  | nil => rfl
  | cons x xs =>
    rw [List.getLast?_cons_cons, List.getLast?_eq_getLast _ (List.cons_ne_nil x xs)]
    rfl

theorem selectTars_fold (l : List FileHash) (acc : FileHash × FileHash) :
    l.foldl (fun (acc : FileHash × FileHash) c =>
      if HasSuffix c.Filename ".asc" then acc
      else if Contains c.Filename ".orig.tar." then (c, acc.2)
      else if Contains c.Filename ".debian.tar." then (acc.1, c)
      else acc) acc =
    (((l.filter (fun c => !HasSuffix c.Filename ".asc" &&
          Contains c.Filename ".orig.tar.")).getLast?).getD acc.1,
     ((l.filter (fun c => !HasSuffix c.Filename ".asc" &&
          (!Contains c.Filename ".orig.tar." && Contains c.Filename ".debian.tar."))).getLast?).getD
        acc.2) := by
  induction l generalizing acc with
  | nil => rfl
  | cons c rest ih =>
    rw [List.foldl_cons, ih]
    by_cases hasc : HasSuffix c.Filename ".asc" = true
    · simp [List.filter_cons, hasc]
    · by_cases horig : Contains c.Filename ".orig.tar." = true
      · simp [List.filter_cons, hasc, horig, getLast?_cons_getD]
      · by_cases hdeb : Contains c.Filename ".debian.tar." = true
        · simp [List.filter_cons, hasc, horig, hdeb, getLast?_cons_getD]
        · simp [List.filter_cons, hasc, horig, hdeb]

theorem selectTars_eq (l : List FileHash) :
    selectTars l =
    (((l.filter (fun c => !HasSuffix c.Filename ".asc" &&
          Contains c.Filename ".orig.tar.")).getLast?).getD ⟨"", ""⟩,
     ((l.filter (fun c => !HasSuffix c.Filename ".asc" &&
          (!Contains c.Filename ".orig.tar." && Contains c.Filename ".debian.tar."))).getLast?).getD
        ⟨"", ""⟩) := by
  unfold selectTars
  exact selectTars_fold l _

/-- C5. For every checksum list that has, among its entries not ending in
`.asc`, exactly one entry `o` whose file name contains `.orig.tar.` and exactly
one entry `d` whose file name contains `.debian.tar.`, two different entries,
the selection loop ends with `origTar = o` and `debTar = d`; and so it does on
every list with the same entries not ending in `.asc` in any order, whatever
`.asc` entries that list has. -/
theorem selectTars_picks_both (l : List FileHash) (o d : FileHash)
    (ho : (l.filter (fun c => !HasSuffix c.Filename ".asc")).filter
      (fun c => Contains c.Filename ".orig.tar.") = [o])
    (hd : (l.filter (fun c => !HasSuffix c.Filename ".asc")).filter
      (fun c => Contains c.Filename ".debian.tar.") = [d])
    (hne : o ≠ d) :
    selectTars l = (o, d) ∧
    ∀ l' : List FileHash,
      (l'.filter (fun c => !HasSuffix c.Filename ".asc")).Perm
        (l.filter (fun c => !HasSuffix c.Filename ".asc")) →
      selectTars l' = (o, d) := by
  have key : ∀ l' : List FileHash,
      (l'.filter (fun c => !HasSuffix c.Filename ".asc")).Perm
        (l.filter (fun c => !HasSuffix c.Filename ".asc")) →
      selectTars l' = (o, d) := by
    intro l' hp
    have hdmem : d ∈ (l.filter (fun c => !HasSuffix c.Filename ".asc")).filter
        (fun c => Contains c.Filename ".debian.tar.") := by rw [hd]; simp
    have hdno : Contains d.Filename ".orig.tar." = false := by
      by_contra hc
      simp only [Bool.not_eq_false] at hc
      have : d ∈ (l.filter (fun c => !HasSuffix c.Filename ".asc")).filter
          (fun c => Contains c.Filename ".orig.tar.") :=
        List.mem_filter.mpr ⟨(List.mem_filter.mp hdmem).1, hc⟩
      rw [ho] at this
      exact hne (List.mem_singleton.mp this).symm
    have h1 : l'.filter (fun c => !HasSuffix c.Filename ".asc" &&
          Contains c.Filename ".orig.tar.") = [o] := by
      have := hp.filter (fun c => Contains c.Filename ".orig.tar.")
      rw [ho, List.filter_filter] at this
      rw [← List.perm_singleton]
      refine List.Perm.trans (List.Perm.of_eq ?_) this
      congr 1
      funext c
      exact Bool.and_comm _ _
    have h2 : l'.filter (fun c => !HasSuffix c.Filename ".asc" &&
          (!Contains c.Filename ".orig.tar." && Contains c.Filename ".debian.tar.")) = [d] := by
      have := (hp.filter (fun c => Contains c.Filename ".debian.tar.")).filter
        (fun c => !Contains c.Filename ".orig.tar.")
      rw [hd, List.filter_filter, List.filter_filter] at this
      have hd1 : [d].filter (fun c => !Contains c.Filename ".orig.tar.") = [d] := by
        simp [List.filter, hdno]
      rw [hd1] at this
      rw [← List.perm_singleton]
      refine List.Perm.trans (List.Perm.of_eq ?_) this
      congr 1
      funext c
      cases HasSuffix c.Filename ".asc" <;> cases Contains c.Filename ".orig.tar." <;>
        cases Contains c.Filename ".debian.tar." <;> rfl
    rw [selectTars_eq, h1, h2]
    rfl
  exact ⟨key l (List.Perm.refl _), key⟩

/-- Witness of C5: the list with `foo_1.0-1.debian.tar.xz`, a signature file
and `foo_1.0.orig.tar.gz`. -/
theorem selectTars_picks_both_witness :
    selectTars [⟨"foo_1.0-1.debian.tar.xz", "d1"⟩, ⟨"foo_1.0.orig.tar.gz.asc", "a1"⟩,
        ⟨"foo_1.0.orig.tar.gz", "o1"⟩]
      = (⟨"foo_1.0.orig.tar.gz", "o1"⟩, ⟨"foo_1.0-1.debian.tar.xz", "d1"⟩) ∧
    ∀ l' : List FileHash,
      (l'.filter (fun c => !HasSuffix c.Filename ".asc")).Perm
        (([⟨"foo_1.0-1.debian.tar.xz", "d1"⟩, ⟨"foo_1.0.orig.tar.gz.asc", "a1"⟩,
          ⟨"foo_1.0.orig.tar.gz", "o1"⟩] : List FileHash).filter
            (fun c => !HasSuffix c.Filename ".asc")) →
      selectTars l' = (⟨"foo_1.0.orig.tar.gz", "o1"⟩, ⟨"foo_1.0-1.debian.tar.xz", "d1"⟩) :=
  selectTars_picks_both
    [⟨"foo_1.0-1.debian.tar.xz", "d1"⟩, ⟨"foo_1.0.orig.tar.gz.asc", "a1"⟩,
      ⟨"foo_1.0.orig.tar.gz", "o1"⟩]
    ⟨"foo_1.0.orig.tar.gz", "o1"⟩ ⟨"foo_1.0-1.debian.tar.xz", "d1"⟩
    (by decide) (by decide) (by decide)

/-- An entry whose file name contains both `.orig.tar.` and `.debian.tar.` is
taken by the selection loop as the upstream archive only. -/
theorem selectTars_of_double_match :
    selectTars [⟨"foo_1.0.orig.tar.debian.tar.xz", "d1"⟩] =
      (⟨"foo_1.0.orig.tar.debian.tar.xz", "d1"⟩, ⟨"", ""⟩) := by
  decide

/-! ## A package without one of its two archives is passed over -/

theorem filter_and_nil {α : Type} (p q : α → Bool) (l : List α)
    (h : (l.filter p).filter q = []) (r : α → Bool) :
    l.filter (fun c => p c && (r c && q c)) = [] := by
  rw [List.filter_eq_nil_iff] at h ⊢
  intro a ha hpa
  simp only [Bool.and_eq_true] at hpa
  exact h a (List.mem_filter.mpr ⟨ha, hpa.1⟩) hpa.2.2

/-- C6. For every record whose checksum list has no entry that does not end
in `.asc` and contains `.orig.tar.`, or no such entry that contains
`.debian.tar.`, the per-package task returns `nil` after one log line: it
makes no other call (no download, no extraction, no write), and the error of
the run (`eg.Wait`) is the same with or without this task. -/
theorem packageTask_missing_archive (sys : Sys) (tempdir : String) (src : sourceIndex)
    (importPath : String)
    (hmiss : (src.Checksums.filter (fun c => !HasSuffix c.Filename ".asc")).filter
        (fun c => Contains c.Filename ".orig.tar.") = [] ∨
      (src.Checksums.filter (fun c => !HasSuffix c.Filename ".asc")).filter
        (fun c => Contains c.Filename ".debian.tar.") = []) :
    (∃ msg, packageTask sys tempdir src importPath = ⟨[.Printf msg], .ok ()⟩) ∧
    ∀ before after : List (Eff Unit),
      Wait (before ++ packageTask sys tempdir src importPath :: after) =
        Wait (before ++ after) := by
  have h1 : ∃ msg, packageTask sys tempdir src importPath = ⟨[.Printf msg], .ok ()⟩ := by
    unfold packageTask
    by_cases horig : (selectTars src.Checksums).1.Filename = ""
    · exact ⟨_, by simp only [horig, if_true]; rfl⟩
    · by_cases hdeb : (selectTars src.Checksums).2.Filename = ""
      · exact ⟨_, by simp only [horig, hdeb, if_true, if_false]; rfl⟩
      · exfalso
        rw [selectTars_eq] at horig hdeb
        rcases hmiss with hm | hm
        · have := filter_and_nil _ _ _ hm (fun _ => true)
          simp only [Bool.true_and] at this
          rw [this] at horig
          exact horig rfl
        · have := filter_and_nil _ _ _ hm (fun c => !Contains c.Filename ".orig.tar.")
          rw [this] at hdeb
          exact hdeb rfl
  refine ⟨h1, ?_⟩
  obtain ⟨msg, hmsg⟩ := h1
  intro before after
  rw [hmsg]
  simp [Wait, List.findSome?_append, List.findSome?_cons]

/-- Witness of C6: a record that has an upstream archive and its signature but
no `.debian.tar.` archive. -/
theorem packageTask_missing_archive_witness :
    ((({ sampleSrc "golang-foo" 1 "example.org/foo" [] false with
          Checksums := [⟨"foo_1.0.orig.tar.gz", "o1"⟩, ⟨"foo_1.0-1.debian.tar.xz.asc", "a1"⟩] }
        : sourceIndex).Checksums.filter (fun c => !HasSuffix c.Filename ".asc")).filter
        (fun c => Contains c.Filename ".orig.tar.") = [] ∨
      (({ sampleSrc "golang-foo" 1 "example.org/foo" [] false with
          Checksums := [⟨"foo_1.0.orig.tar.gz", "o1"⟩, ⟨"foo_1.0-1.debian.tar.xz.asc", "a1"⟩] }
        : sourceIndex).Checksums.filter (fun c => !HasSuffix c.Filename ".asc")).filter
        (fun c => Contains c.Filename ".debian.tar.") = []) ∧
    ((∃ msg, packageTask sampleSys "src-tmp-123456"
        { sampleSrc "golang-foo" 1 "example.org/foo" [] false with
          Checksums := [⟨"foo_1.0.orig.tar.gz", "o1"⟩, ⟨"foo_1.0-1.debian.tar.xz.asc", "a1"⟩] }
        "example.org/foo" = ⟨[.Printf msg], .ok ()⟩) ∧
    ∀ before after : List (Eff Unit),
      Wait (before ++ packageTask sampleSys "src-tmp-123456"
        { sampleSrc "golang-foo" 1 "example.org/foo" [] false with
          Checksums := [⟨"foo_1.0.orig.tar.gz", "o1"⟩, ⟨"foo_1.0-1.debian.tar.xz.asc", "a1"⟩] }
        "example.org/foo" :: after) = Wait (before ++ after)) :=
  ⟨Or.inr (by decide),
    packageTask_missing_archive sampleSys "src-tmp-123456"
      { sampleSrc "golang-foo" 1 "example.org/foo" [] false with
        Checksums := [⟨"foo_1.0.orig.tar.gz", "o1"⟩, ⟨"foo_1.0-1.debian.tar.xz.asc", "a1"⟩] }
      "example.org/foo" (Or.inr (by decide))⟩

/-! ## Splitting, joining and trimming -/

theorem splitList_ne_nil (sep : Char) (l : List Char) : splitList sep l ≠ [] := by
  cases l with
  | nil => simp [splitList]
  | cons c cs =>
    simp only [splitList]
    split
    · simp
    · split <;> simp

theorem splitList_of_not_mem (sep : Char) (a : List Char) (h : sep ∉ a) :
    splitList sep a = [a] := by
  induction a with
  | nil => rfl
  | cons c cs ih =>
    simp only [List.mem_cons, not_or] at h
    have hc : ¬ c = sep := fun e => h.1 e.symm
    simp [splitList, hc, ih h.2]

theorem splitList_append_sep (sep : Char) (a b : List Char) (h : sep ∉ a) :
    splitList sep (a ++ sep :: b) = a :: splitList sep b := by
  induction a with
  | nil => simp [splitList]
  | cons c cs ih =>
    simp only [List.mem_cons, not_or] at h
    have hc : ¬ c = sep := fun e => h.1 e.symm
    simp [splitList, hc, ih h.2]

theorem splitList_joinList (sep : Char) (ws : List (List Char)) (hne : ws ≠ [])
    (h : ∀ w ∈ ws, sep ∉ w) : splitList sep (joinList sep ws) = ws := by
  induction ws with
  | nil => exact absurd rfl hne
  | cons w rest ih =>
    cases rest with
    | nil => simpa [joinList] using splitList_of_not_mem sep w (h w (List.mem_cons_self _ _))
    | cons x xs =>
      simp only [joinList]
      rw [splitList_append_sep sep w _ (h w (List.mem_cons_self _ _))]
      rw [ih (by simp) (fun v hv => h v (List.mem_cons_of_mem _ hv))]

theorem mem_of_mem_splitList (sep : Char) (s w : List Char) (hw : w ∈ splitList sep s)
    (c : Char) (hc : c ∈ w) : c ∈ s := by
  induction s generalizing w with
  | nil =>
    simp only [splitList, List.mem_singleton] at hw
    subst hw
    exact hc
  | cons x xs ih =>
    simp only [splitList] at hw
    split at hw
    · simp only [List.mem_cons] at hw
      rcases hw with hw | hw
      · subst hw; simp at hc
      · exact List.mem_cons_of_mem _ (ih w hw hc)
    · have hne := splitList_ne_nil sep xs
      cases hs : splitList sep xs with
      | nil => exact absurd hs hne
      | cons v vs =>
        rw [hs] at hw ih
        simp only [List.mem_cons] at hw
        rcases hw with hw | hw
        · subst hw
          simp only [List.mem_cons] at hc
          rcases hc with hc | hc
          · subst hc; exact List.mem_cons_self _ _
          · exact List.mem_cons_of_mem _ (ih v (List.mem_cons_self _ _) hc)
        · exact List.mem_cons_of_mem _ (ih w (List.mem_cons_of_mem _ hw) hc)

theorem splitList_cons (sep : Char) (x : Char) (xs : List Char) :
    splitList sep (x :: xs) =
      if x = sep then [] :: splitList sep xs
      else (x :: (splitList sep xs).headD []) :: (splitList sep xs).tail := by
  have hne := splitList_ne_nil sep xs
  simp only [splitList]
  split
  · rfl
  · cases hs : splitList sep xs with
    | nil => exact absurd hs hne
    | cons v vs => rfl

theorem splitList_concat (sep : Char) (t : List Char) (c : Char) :
    splitList sep (t ++ [c]) =
      if c = sep then splitList sep t ++ [[]]
      else (splitList sep t).dropLast ++ [(splitList sep t).getLastD [] ++ [c]] := by
  induction t with
  | nil =>
    by_cases h : c = sep
    · simp [splitList, h]
    · simp [splitList, h]
  | cons x xs ih =>
    have hne := splitList_ne_nil sep xs
    rw [List.cons_append, splitList_cons, splitList_cons, ih]
    cases hs : splitList sep xs with
    | nil => exact absurd hs hne
    | cons v vs =>
      by_cases hx : x = sep <;> by_cases hc : c = sep
      · simp [hx, hc]
      · simp [hx, hc, List.dropLast, List.getLastD]
      · simp [hx, hc]
      · cases vs with
        | nil => simp [hx, hc, List.dropLast, List.getLastD]
        | cons u us => simp [hx, hc, List.dropLast, List.getLastD]

theorem contains_slash (s : String) : Contains s "/" = true ↔ '/' ∈ s.data := by
  unfold Contains
  simp only [decide_eq_true_eq]
  show ['/'] <:+: s.data ↔ _
  constructor
  · rintro ⟨a, b, h⟩
    rw [← h]
    simp
  · intro h
    obtain ⟨a, b, h2⟩ := List.append_of_mem h
    exact ⟨a, b, by rw [h2]; simp⟩

/-! ## The strip count of `unpack` -/

theorem isSpace_ne_slash (c : Char) (h : isSpace c = true) : c ≠ '/' := by
  rintro rfl
  revert h
  decide

theorem slashed_dropWhile (s : List Char)
    (h : ∀ w ∈ splitList '\n' s, '/' ∈ w) :
    ∀ w ∈ splitList '\n' (s.dropWhile isSpace), '/' ∈ w := by
  induction s with
  | nil => exact h
  | cons c cs ih =>
    rw [List.dropWhile_cons]
    split
    · rename_i hsp
      apply ih
      rw [splitList_cons] at h
      split at h
      · exact absurd (h [] (List.mem_cons_self _ _)) (by simp)
      · intro w hw
        have hne := splitList_ne_nil '\n' cs
        cases hs : splitList '\n' cs with
        | nil => exact absurd hs hne
        | cons v vs =>
          rw [hs] at h hw
          simp only [List.headD_cons, List.tail_cons] at h
          simp only [List.mem_cons] at hw
          rcases hw with hw | hw
          · subst hw
            have := h (c :: w) (List.mem_cons_self _ _)
            simp only [List.mem_cons] at this
            rcases this with e | e
            · exact absurd e.symm (isSpace_ne_slash c hsp)
            · exact e
          · exact h w (List.mem_cons_of_mem _ hw)
    · exact h

theorem slashed_rdropWhile (s : List Char)
    (h : ∀ w ∈ splitList '\n' s, '/' ∈ w) :
    ∀ w ∈ splitList '\n' (s.rdropWhile isSpace), '/' ∈ w := by
  induction s using List.reverseRecOn with
  | nil => exact h
  | append_singleton t c ih =>
    rw [List.rdropWhile_concat]
    split
    · rename_i hsp
      apply ih
      rw [splitList_concat] at h
      split at h
      · exact absurd (h [] (by simp)) (by simp)
      · intro w hw
        have hne := splitList_ne_nil '\n' t
        have hdl := List.dropLast_append_getLast hne
        rw [← hdl] at hw
        simp only [List.mem_append, List.mem_singleton] at hw
        rcases hw with hw | hw
        · exact h w (List.mem_append_left _ hw)
        · have := h ((splitList '\n' t).getLastD [] ++ [c]) (by simp)
          simp only [List.mem_append, List.mem_singleton] at this
          rcases this with e | e
          · rw [hw]
            rw [List.getLastD_eq_getLast?, List.getLast?_eq_getLast _ hne] at e
            exact e
          · exact absurd e.symm (isSpace_ne_slash c hsp)
    · exact h

theorem trimList_eq (s : List Char) :
    trimList s = (s.dropWhile isSpace).rdropWhile isSpace := rfl

theorem slashed_trimList (s : List Char)
    (h : ∀ w ∈ splitList '\n' s, '/' ∈ w) :
    ∀ w ∈ splitList '\n' (trimList s), '/' ∈ w := by
  rw [trimList_eq]
  exact slashed_rdropWhile _ (slashed_dropWhile _ h)

theorem trimList_append_newline (body : List Char) (c : Char) (hc : c ∈ body)
    (hns : isSpace c = false) : trimList (body ++ ['\n']) = trimList body := by
  rw [trimList_eq, trimList_eq, List.dropWhile_append]
  have : (List.dropWhile isSpace body).isEmpty = false := by
    rw [Bool.eq_false_iff]
    intro he
    rw [List.isEmpty_iff, List.dropWhile_eq_nil_iff] at he
    have := he c hc
    rw [hns] at this
    exact absurd this (by decide)
  rw [this]
  simp only [Bool.false_eq_true, if_false]
  exact List.rdropWhile_concat_pos _ _ _ (by decide)

theorem listing_data (members : List String) (hne : members ≠ []) :
    (listing members).data = joinList '\n' (members.map String.data) ++ ['\n'] := by
  unfold listing
  simp only
  induction members with
  | nil => exact absurd rfl hne
  | cons m rest ih =>
    cases rest with
    | nil => simp [joinList]
    | cons x xs =>
      have := ih (by simp)
      simp only [List.flatMap_cons, List.map_cons, joinList] at this ⊢
      rw [this]
      simp

theorem stripLoop_all (lines : List String) (k : Nat)
    (h : ∀ line ∈ lines, Contains line "/" = true) : stripLoop lines k = k := by
  induction lines with
  | nil => rfl
  | cons line rest ih =>
    simp only [stripLoop, h line (List.mem_cons_self _ _), Bool.not_true, Bool.false_eq_true,
      if_false]
    exact ih (fun l hl => h l (List.mem_cons_of_mem _ hl))

theorem stripComponents_slashed (members : List String) (hne : members ≠ [])
    (hnl : ∀ m ∈ members, '\n' ∉ m.data)
    (hall : ∀ m ∈ members, Contains m "/" = true) :
    stripComponents (listing members) = 1 := by
  unfold stripComponents
  apply stripLoop_all
  intro line hline
  rw [contains_slash]
  simp only [Split, TrimSpace, List.mem_map] at hline
  obtain ⟨w, hw, rfl⟩ := hline
  simp only
  rw [listing_data members hne] at hw
  obtain ⟨m0, hm0⟩ := List.exists_mem_of_ne_nil _ hne
  have hs0 : '/' ∈ m0.data := (contains_slash m0).mp (hall m0 hm0)
  have hbody : ∀ v ∈ splitList '\n' (joinList '\n' (members.map String.data)), '/' ∈ v := by
    rw [splitList_joinList '\n' _ (by simpa using hne)
      (by
        intro v hv
        simp only [List.mem_map] at hv
        obtain ⟨m, hm, rfl⟩ := hv
        exact hnl m hm)]
    intro v hv
    simp only [List.mem_map] at hv
    obtain ⟨m, hm, rfl⟩ := hv
    exact (contains_slash m).mp (hall m hm)
  have hin : '/' ∈ joinList '\n' (members.map String.data) := by
    have h1 := splitList_ne_nil '\n' (joinList '\n' (members.map String.data))
    obtain ⟨v, hv⟩ := List.exists_mem_of_ne_nil _ h1
    exact mem_of_mem_splitList '\n' _ v hv '/' (hbody v hv)
  rw [trimList_append_newline _ '/' hin (by decide)] at hw
  exact slashed_trimList _ hbody w hw

theorem stripComponents_flat (members : List String)
    (hnone : ∀ m ∈ members, Contains m "/" = false) :
    stripComponents (listing members) = 0 := by
  unfold stripComponents
  have hno : '/' ∉ (listing members).data := by
    unfold listing
    simp only [List.mem_flatMap, List.mem_append, List.mem_singleton, not_exists, not_and, not_or]
    intro m hm
    refine ⟨?_, by decide⟩
    intro hc
    have := (contains_slash m).mpr hc
    rw [hnone m hm] at this
    exact absurd this (by decide)
  have hne := splitList_ne_nil '\n' (TrimSpace (listing members)).data
  cases hs : Split (TrimSpace (listing members)) '\n' with
  | nil =>
    simp only [Split, List.map_eq_nil_iff] at hs
    exact absurd hs hne
  | cons line rest =>
    have hline : line ∈ Split (TrimSpace (listing members)) '\n' := by rw [hs]; simp
    simp only [Split, TrimSpace, List.mem_map] at hline
    obtain ⟨w, hw, rfl⟩ := hline
    have hnot : Contains (String.mk w) "/" = false := by
      rw [Bool.eq_false_iff, Ne, contains_slash]
      intro hc
      have h1 := mem_of_mem_splitList '\n' _ w hw '/' hc
      rw [trimList_eq] at h1
      have h2 := (List.rdropWhile_prefix isSpace _).subset h1
      exact hno ((List.dropWhile_sublist isSpace).subset h2)
    simp [stripLoop, hnot]

theorem unpack_trace (sys : Sys) (dest fn out : String)
    (hmk : sys.MkdirAll dest = none)
    (hout : sys.Output { Args := ["tar", "tf", fn], Dir := "", Env := [] } = .ok out) :
    (unpack sys dest fn).trace =
      [.MkdirAll dest, .Output { Args := ["tar", "tf", fn], Dir := "", Env := [] },
        .Run (tarExtract dest fn (stripComponents out))] := by
  simp only [unpack, bind, Eff.bind, callErr, call, hmk, hout]
  cases sys.Run (tarExtract dest fn (stripComponents out)) <;> rfl

theorem stripLoop_none (lines : List String) (k : Nat) (hne : lines ≠ [])
    (h : ∀ line ∈ lines, Contains line "/" = false) : stripLoop lines k = 0 := by
  cases lines with
  | nil => exact absurd rfl hne
  | cons line rest => simp [stripLoop, h line (List.mem_cons_self _ _)]

/-- C7. For every output of `tar tf`, the member paths being what `unpack`
reads from it (the lines of the output without its leading and trailing white
space): if every member path contains a `/`, `unpack` runs the extraction with
`--strip-components=1`; if no member path contains a `/`, it runs it with
`--strip-components=0`. In particular, for the listing of an archive with at
least one member, one member path per line: when every member path contains a
`/` the count is 1, and when none does the count is 0. -/
theorem unpack_strip_components (sys : Sys) (dest fn out : String)
    (hmk : sys.MkdirAll dest = none)
    (hout : sys.Output { Args := ["tar", "tf", fn], Dir := "", Env := [] } = .ok out) :
    ((∀ line ∈ Split (TrimSpace out) '\n', Contains line "/" = true) →
      (unpack sys dest fn).trace =
        [.MkdirAll dest, .Output { Args := ["tar", "tf", fn], Dir := "", Env := [] },
          .Run { Args := ["tar", "xf", fn, "-C", dest, "--strip-components=1"],
                 Dir := "", Env := [] }]) ∧
    ((∀ line ∈ Split (TrimSpace out) '\n', Contains line "/" = false) →
      (unpack sys dest fn).trace =
        [.MkdirAll dest, .Output { Args := ["tar", "tf", fn], Dir := "", Env := [] },
          .Run { Args := ["tar", "xf", fn, "-C", dest, "--strip-components=0"],
                 Dir := "", Env := [] }]) ∧
    (∀ members : List String, out = listing members → members ≠ [] →
      (∀ m ∈ members, '\n' ∉ m.data) → (∀ m ∈ members, Contains m "/" = true) →
      (unpack sys dest fn).trace =
        [.MkdirAll dest, .Output { Args := ["tar", "tf", fn], Dir := "", Env := [] },
          .Run { Args := ["tar", "xf", fn, "-C", dest, "--strip-components=1"],
                 Dir := "", Env := [] }]) ∧
    (∀ members : List String, out = listing members →
      (∀ m ∈ members, Contains m "/" = false) →
      (unpack sys dest fn).trace =
        [.MkdirAll dest, .Output { Args := ["tar", "tf", fn], Dir := "", Env := [] },
          .Run { Args := ["tar", "xf", fn, "-C", dest, "--strip-components=0"],
                 Dir := "", Env := [] }]) := by
  have htrace := unpack_trace sys dest fn out hmk hout
  refine ⟨?_, ?_, ?_, ?_⟩
  · intro hall
    rw [htrace]
    unfold stripComponents
    rw [stripLoop_all _ _ hall]
    rfl
  · intro hnone
    rw [htrace]
    unfold stripComponents
    rw [stripLoop_none _ _ (by
      unfold Split
      simpa using splitList_ne_nil '\n' (TrimSpace out).data) hnone]
    rfl
  · intro members hm hne hnl hall
    rw [htrace, hm, stripComponents_slashed members hne hnl hall]
    rfl
  · intro members hm hnone
    rw [htrace, hm, stripComponents_flat members hnone]
    rfl

/-- Witness of C7: an archive whose two members lie in the directory
`foo-1.0`. -/
theorem unpack_strip_components_witness :
    ({ sampleSys with Output := fun _ => .ok (listing ["foo-1.0/", "foo-1.0/main.go"]) }
      : Sys).MkdirAll "src-tmp-1/example.org/foo" = none ∧
    ({ sampleSys with Output := fun _ => .ok (listing ["foo-1.0/", "foo-1.0/main.go"]) }
      : Sys).Output { Args := ["tar", "tf", "/tmp/o1"], Dir := "", Env := [] }
      = .ok (listing ["foo-1.0/", "foo-1.0/main.go"]) ∧
    (∀ line ∈ Split (TrimSpace (listing ["foo-1.0/", "foo-1.0/main.go"])) '\n',
      Contains line "/" = true) ∧
    (unpack { sampleSys with Output := fun _ => .ok (listing ["foo-1.0/", "foo-1.0/main.go"]) }
        "src-tmp-1/example.org/foo" "/tmp/o1").trace =
      [.MkdirAll "src-tmp-1/example.org/foo",
        .Output { Args := ["tar", "tf", "/tmp/o1"], Dir := "", Env := [] },
        .Run { Args := ["tar", "xf", "/tmp/o1", "-C", "src-tmp-1/example.org/foo",
                 "--strip-components=1"], Dir := "", Env := [] }] :=
  ⟨rfl, rfl, by decide,
    (unpack_strip_components
      { sampleSys with Output := fun _ => .ok (listing ["foo-1.0/", "foo-1.0/main.go"]) }
      "src-tmp-1/example.org/foo" "/tmp/o1" (listing ["foo-1.0/", "foo-1.0/main.go"])
      rfl rfl).1 (by decide)⟩

/-- The listing of an archive without members is empty; `unpack` reads one
empty line from it and runs the extraction with `--strip-components=0`. -/
theorem unpack_of_empty_listing :
    sampleSys.Output { Args := ["tar", "tf", "/tmp/o1"], Dir := "", Env := [] }
      = .ok (listing []) ∧
    Split (TrimSpace (listing [])) '\n' = [""] ∧
    (unpack sampleSys "src-tmp-1/example.org/foo" "/tmp/o1").trace =
      [.MkdirAll "src-tmp-1/example.org/foo",
        .Output { Args := ["tar", "tf", "/tmp/o1"], Dir := "", Env := [] },
        .Run { Args := ["tar", "xf", "/tmp/o1", "-C", "src-tmp-1/example.org/foo",
                 "--strip-components=0"], Dir := "", Env := [] }] :=
  ⟨rfl, by decide, by decide⟩

/-! ## The patch series -/

theorem joinList_cons_cons (sep : Char) (w x : List Char) (xs : List (List Char)) :
    joinList sep (w :: x :: xs) = w ++ sep :: joinList sep (x :: xs) := rfl

theorem joinList_append (sep : Char) (ws vs : List (List Char)) (hw : ws ≠ []) (hv : vs ≠ []) :
    joinList sep (ws ++ vs) = joinList sep ws ++ sep :: joinList sep vs := by
  induction ws with
  | nil => exact absurd rfl hw
  | cons w rest ih =>
    cases rest with
    | nil =>
      cases vs with
      | nil => exact absurd rfl hv
      | cons v vs' => simp [joinList]
    | cons x xs =>
      have := ih (by simp)
      rw [List.cons_append, List.cons_append, joinList_cons_cons, joinList_cons_cons,
        ← List.cons_append, this]
      simp

theorem dropWhile_joinList_lines (ws : List (List Char))
    (h : ∀ w ∈ ws, ∀ c, w.head? = some c → isSpace c = false) :
    (joinList '\n' ws).dropWhile isSpace =
      joinList '\n' (ws.dropWhile (fun w => decide (w = []))) := by
  induction ws with
  | nil => rfl
  | cons w rest ih =>
    have ih' := ih (fun v hv => h v (List.mem_cons_of_mem _ hv))
    cases w with
    | nil =>
      cases rest with
      | nil => rfl
      | cons x xs =>
        rw [joinList_cons_cons, List.nil_append, List.dropWhile_cons]
        have : isSpace '\n' = true := by decide
        simp only [this, if_true]
        rw [ih']
        simp
    | cons c w' =>
      have hc := h (c :: w') (List.mem_cons_self _ _) c rfl
      have e1 : List.dropWhile (fun w => decide (w = [])) ((c :: w') :: rest) = (c :: w') :: rest := by
        simp [List.dropWhile_cons]
      rw [e1]
      cases rest with
      | nil => simp [joinList, List.dropWhile_cons, hc]
      | cons x xs =>
        rw [joinList_cons_cons, List.cons_append, List.dropWhile_cons]
        simp [hc]

theorem rdropWhile_joinList_lines (ws : List (List Char))
    (h : ∀ w ∈ ws, ∀ c, w.getLast? = some c → isSpace c = false) :
    (joinList '\n' ws).rdropWhile isSpace =
      joinList '\n' (ws.rdropWhile (fun w => decide (w = []))) := by
  induction ws using List.reverseRecOn with
  | nil => rfl
  | append_singleton I w ih =>
    have ih' := ih (fun v hv => h v (List.mem_append_left _ hv))
    rcases List.eq_nil_or_concat w with hw | ⟨w', c, hw⟩
    · subst hw
      rw [List.rdropWhile_concat_pos _ _ _ (by simp)]
      cases I with
      | nil => rfl
      | cons i is =>
        rw [joinList_append '\n' (i :: is) [[]] (by simp) (by simp)]
        have : joinList '\n' (i :: is) ++ '\n' :: joinList '\n' [[]] =
            joinList '\n' (i :: is) ++ ['\n'] := rfl
        rw [this, List.rdropWhile_concat_pos _ _ _ (by decide)]
        exact ih'
    · rw [List.concat_eq_append] at hw
      subst hw
      have hc := h (w' ++ [c]) (by simp) c (by simp)
      rw [List.rdropWhile_concat_neg _ _ _ (by simp)]
      cases I with
      | nil =>
        simp only [List.nil_append, joinList]
        exact List.rdropWhile_concat_neg _ _ _ (by simp [hc])
      | cons i is =>
        rw [joinList_append '\n' (i :: is) [w' ++ [c]] (by simp) (by simp)]
        have : joinList '\n' (i :: is) ++ '\n' :: joinList '\n' [w' ++ [c]] =
            (joinList '\n' (i :: is) ++ '\n' :: w') ++ [c] := by simp [joinList]
        rw [this]
        exact List.rdropWhile_concat_neg _ _ _ (by simp [hc])

theorem listing_lines (entries : List String) :
    (listing entries).data = joinList '\n' (entries.map String.data ++ [[]]) := by
  cases entries with
  | nil => rfl
  | cons e rest =>
    rw [listing_data (e :: rest) (by simp),
      joinList_append '\n' ((e :: rest).map String.data) [[]] (by simp) (by simp)]
    rfl

/-- A line of white space only inside the series file is not empty:
`applyPatches` takes it for an entry and runs the tool. Leading white space
of the file is dropped, so that a first line ` # ...` reads as a comment. -/
theorem hasPatches_of_space_line :
    hasPatches (Split (TrimSpace "# one\n \n# two\n") '\n') = true ∧
    hasPatches (Split (TrimSpace " # one\n") '\n') = false := by
  decide

/-! ## Paths made of ordinary names -/

theorem mem_joinList (sep : Char) (ws : List (List Char)) (c : Char)
    (h : c ∈ joinList sep ws) : c = sep ∨ ∃ w ∈ ws, c ∈ w := by
  induction ws with
  | nil => simp [joinList] at h
  | cons w rest ih =>
    cases rest with
    | nil =>
      simp only [joinList] at h
      exact Or.inr ⟨w, by simp, h⟩
    | cons x xs =>
      simp only [joinList, List.mem_append, List.mem_cons] at h
      rcases h with h | h | h
      · exact Or.inr ⟨w, by simp, h⟩
      · exact Or.inl h
      · rcases ih h with h1 | ⟨v, hv, hc⟩
        · exact Or.inl h1
        · exact Or.inr ⟨v, List.mem_cons_of_mem _ hv, hc⟩

theorem cleanStep_name (rooted : Bool) (out : List (List Char)) (e : List Char)
    (h : IsName e) : cleanStep rooted out e = out ++ [e] := by
  obtain ⟨h1, h2, h3, _⟩ := h
  simp [cleanStep, h1, h2, h3]

theorem foldl_cleanStep_names (rooted : Bool) (ns out : List (List Char))
    (h : ∀ e ∈ ns, IsName e) : ns.foldl (cleanStep rooted) out = out ++ ns := by
  induction ns generalizing out with
  | nil => simp
  | cons e rest ih =>
    rw [List.foldl_cons, cleanStep_name rooted out e (h e (List.mem_cons_self _ _)),
      ih _ (fun x hx => h x (List.mem_cons_of_mem _ hx))]
    simp

theorem cleanStep_pop (rooted : Bool) (st : List (List Char)) (last : List Char)
    (h : IsName last) : cleanStep rooted (st ++ [last]) ['.', '.'] = st := by
  obtain ⟨_, _, h3, _⟩ := h
  simp [cleanStep, h3]

theorem foldl_cleanStep_pops (rooted : Bool) (q st : List (List Char))
    (h : ∀ e ∈ q, IsName e) :
    (List.replicate q.length ['.', '.']).foldl (cleanStep rooted) (st ++ q) = st := by
  induction q using List.reverseRecOn with
  | nil => simp
  | append_singleton q' last ih =>
    rw [List.length_append, List.length_singleton, List.replicate_succ, List.foldl_cons,
      ← List.append_assoc, cleanStep_pop rooted (st ++ q') last (h last (by simp))]
    exact ih (fun e he => h e (List.mem_append_left _ he))

theorem cleanList_joinList (L : List (List Char)) (w : List Char) (rest : List (List Char))
    (hL : L = w :: rest) (hw : w ≠ []) (hw2 : '/' ∉ w) (hns : ∀ e ∈ L, '/' ∉ e)
    (hout : cleanElems false L ≠ []) (hout2 : ∀ e ∈ cleanElems false L, e ≠ []) :
    cleanList (joinList '/' L) = joinList '/' (cleanElems false L) := by
  have hsplit : splitList '/' (joinList '/' L) = L :=
    splitList_joinList '/' L (by rw [hL]; simp) hns
  cases w with
  | nil => exact absurd rfl hw
  | cons c w' =>
    have hc : c ≠ '/' := by
      intro e
      exact hw2 (by rw [e]; simp)
    have hj : ∃ tl, joinList '/' L = c :: tl := by
      rw [hL]
      cases rest with
      | nil => exact ⟨w', rfl⟩
      | cons x xs => exact ⟨_, rfl⟩
    obtain ⟨tl, htl⟩ := hj
    have hne : joinList '/' (cleanElems false L) ≠ [] := by
      cases hce : cleanElems false L with
      | nil => exact absurd hce hout
      | cons v vs =>
        have hv : v ≠ [] := hout2 v (by rw [hce]; simp)
        cases vs with
        | nil => simpa [joinList] using hv
        | cons u us => simp [joinList, hv]
    unfold cleanList
    rw [htl]
    simp only [hc, decide_False, Bool.false_eq_true, if_false]
    rw [← htl, hsplit]
    simp [hne]

theorem isName_no_slash (L : List (List Char)) (h : ∀ e ∈ L, IsName e) :
    ∀ e ∈ L, '/' ∉ e := fun e he => (h e he).2.2.2

theorem clean_names (N : List (List Char)) (hne : N ≠ []) (h : ∀ e ∈ N, IsName e) :
    cleanList (joinList '/' N) = joinList '/' N := by
  have hce : cleanElems false N = N := by
    unfold cleanElems
    rw [foldl_cleanStep_names false N [] h]
    simp
  cases hN : N with
  | nil => exact absurd hN hne
  | cons w rest =>
    have hw := h w (by rw [hN]; simp)
    have := cleanList_joinList N w rest hN hw.1 hw.2.2.2 (isName_no_slash N h)
      (by rw [hce]; exact hne) (by rw [hce]; exact fun e he => (h e he).1)
    rw [hce, hN] at this
    exact this

theorem relPosition_split (B T : List (List Char)) :
    ∃ p q t d, relPosition B T = (q, t, d) ∧ B = p ++ q ∧ T = p ++ t ∧ (d = [] ∨ d ∈ B) := by
  induction B generalizing T with
  | nil => exact ⟨[], [], T, [], by simp [relPosition], rfl, rfl, Or.inl rfl⟩
  | cons b bs ih =>
    cases T with
    | nil => exact ⟨[], b :: bs, [], b, by simp [relPosition], rfl, rfl,
        Or.inr (List.mem_cons_self _ _)⟩
    | cons t ts =>
      by_cases h : t = b
      · obtain ⟨p, q, t', d, h1, h2, h3, h4⟩ := ih ts
        refine ⟨b :: p, q, t', d, by simp [relPosition, h, h1], by simp [h2], by simp [h, h3], ?_⟩
        rcases h4 with h4 | h4
        · exact Or.inl h4
        · exact Or.inr (List.mem_cons_of_mem _ h4)
      · exact ⟨[], b :: bs, t :: ts, b, by simp [relPosition, h], rfl, rfl,
          Or.inr (List.mem_cons_self _ _)⟩

theorem joinList_head_ne_slash (N : List (List Char)) (hne : N ≠ []) (h : ∀ e ∈ N, IsName e) :
    (joinList '/' N).head? ≠ some '/' := by
  cases N with
  | nil => exact absurd rfl hne
  | cons w rest =>
    have hw := h w (List.mem_cons_self _ _)
    cases w with
    | nil => exact absurd rfl hw.1
    | cons c w' =>
      have hc : c ≠ '/' := fun e => hw.2.2.2 (by rw [e]; simp)
      cases rest with
      | nil => simpa [joinList] using hc
      | cons x xs => simpa [joinList] using hc

theorem joinList_getLast_ne_slash (N : List (List Char)) (hne : N ≠ [])
    (h : ∀ e ∈ N, IsName e) : (joinList '/' N).getLast? ≠ some '/' := by
  induction N using List.reverseRecOn with
  | nil => exact absurd rfl hne
  | append_singleton I last _ =>
    have hl := h last (by simp)
    have hlast : last.getLast? ≠ some '/' := by
      intro e
      exact hl.2.2.2 (List.mem_of_getLast?_eq_some e)
    cases I with
    | nil => simpa [joinList] using hlast
    | cons i is =>
      rw [joinList_append '/' (i :: is) [last] (by simp) (by simp)]
      have e1 : joinList '/' (i :: is) ++ '/' :: joinList '/' [last] =
          (joinList '/' (i :: is) ++ ['/']) ++ last := by simp [joinList]
      rw [e1, List.getLast?_append_of_ne_nil _ hl.1]
      exact hlast

theorem relElems_names (N : List (List Char)) (hne : N ≠ []) (h : ∀ e ∈ N, IsName e) :
    relElems (joinList '/' N) = N := by
  unfold relElems
  have h1 : joinList '/' N ≠ [] := by
    intro e
    have := splitList_joinList '/' N hne (isName_no_slash N h)
    rw [e] at this
    simp only [splitList] at this
    have hmem : ([] : List Char) ∈ N := by rw [← this]; simp
    exact (h [] hmem).1 rfl
  simp only [h1, if_false, joinList_getLast_ne_slash N hne h]
  exact splitList_joinList '/' N hne (isName_no_slash N h)

theorem joinList_names_ne_nil (N : List (List Char)) (hne : N ≠ []) (h : ∀ e ∈ N, IsName e) :
    joinList '/' N ≠ [] := by
  intro e
  have := joinList_head_ne_slash N hne h
  have h2 := splitList_joinList '/' N hne (isName_no_slash N h)
  rw [e] at h2
  simp only [splitList] at h2
  have hmem : ([] : List Char) ∈ N := by rw [← h2]; simp
  exact (h [] hmem).1 rfl

theorem clean_join_dot (B : List (List Char)) (hB : B ≠ []) (hBn : ∀ e ∈ B, IsName e) :
    cleanList (joinList '/' B ++ '/' :: ['.']) = joinList '/' B := by
  have e1 : joinList '/' B ++ '/' :: ['.'] = joinList '/' (B ++ [['.']]) := by
    rw [joinList_append '/' B [['.']] hB (by simp)]
    rfl
  have hce : cleanElems false (B ++ [['.']]) = B := by
    unfold cleanElems
    rw [List.foldl_append, foldl_cleanStep_names false B [] hBn]
    simp [cleanStep]
  obtain ⟨w, rest, hBc⟩ := List.exists_cons_of_ne_nil hB
  · have hw := hBn w (by rw [hBc]; simp)
    have := cleanList_joinList (B ++ [['.']]) w (rest ++ [['.']]) (by rw [hBc]; rfl)
      hw.1 hw.2.2.2
      (by
        intro e he
        simp only [List.mem_append, List.mem_singleton] at he
        rcases he with he | he
        · exact (hBn e he).2.2.2
        · rw [he]; decide)
      (by rw [hce]; exact hB) (by rw [hce]; exact fun e he => (hBn e he).1)
    rw [e1, this, hce]

theorem clean_join_rel (p q t : List (List Char)) (hp : p ++ q ≠ [])
    (hpq : ∀ e ∈ p ++ q, IsName e) (ht : ∀ e ∈ t, IsName e)
    (hne : List.replicate q.length ['.', '.'] ++ t ≠ []) (hpt : p ++ t ≠ []) :
    cleanList (joinList '/' (p ++ q) ++
      '/' :: joinList '/' (List.replicate q.length ['.', '.'] ++ t)) = joinList '/' (p ++ t) := by
  have e1 : joinList '/' (p ++ q) ++
      '/' :: joinList '/' (List.replicate q.length ['.', '.'] ++ t) =
      joinList '/' ((p ++ q) ++ (List.replicate q.length ['.', '.'] ++ t)) := by
    rw [joinList_append '/' (p ++ q) _ hp hne]
  have hce : cleanElems false ((p ++ q) ++ (List.replicate q.length ['.', '.'] ++ t))
      = p ++ t := by
    unfold cleanElems
    rw [List.foldl_append, List.foldl_append, foldl_cleanStep_names false (p ++ q) [] hpq,
      List.nil_append,
      foldl_cleanStep_pops false q p (fun e he => hpq e (List.mem_append_right _ he)),
      foldl_cleanStep_names false t p ht]
  have hptn : ∀ e ∈ p ++ t, IsName e := by
    intro e he
    simp only [List.mem_append] at he
    rcases he with he | he
    · exact hpq e (List.mem_append_left _ he)
    · exact ht e he
  obtain ⟨w, rest, hc⟩ := List.exists_cons_of_ne_nil hp
  · have hw := hpq w (by rw [hc]; simp)
    have := cleanList_joinList ((p ++ q) ++ (List.replicate q.length ['.', '.'] ++ t)) w
      (rest ++ (List.replicate q.length ['.', '.'] ++ t)) (by rw [hc]; rfl)
      hw.1 hw.2.2.2
      (by
        intro e he
        simp only [List.mem_append, List.mem_replicate] at he
        rcases he with (he | he) | he | he
        · exact (hpq e (List.mem_append_left _ he)).2.2.2
        · exact (hpq e (List.mem_append_right _ he)).2.2.2
        · rw [he.2]; decide
        · exact (ht e he).2.2.2)
      (by rw [hce]; exact hpt) (by rw [hce]; exact fun e he => (hptn e he).1)
    rw [e1, this, hce]

theorem Rel_of_names (B T : List (List Char)) (hB : B ≠ []) (hT : T ≠ [])
    (hBn : ∀ e ∈ B, IsName e) (hTn : ∀ e ∈ T, IsName e) :
    ∃ r : List Char, Rel (String.mk (joinList '/' B)) (String.mk (joinList '/' T))
        = .ok (String.mk r) ∧
      cleanList (joinList '/' B ++ '/' :: r) = joinList '/' T := by
  unfold Rel
  simp only [clean_names B hB hBn, clean_names T hT hTn]
  by_cases heq : joinList '/' T = joinList '/' B
  · refine ⟨['.'], by simp [heq], ?_⟩
    rw [heq]
    exact clean_join_dot B hB hBn
  · have hTB : T ≠ B := fun e => heq (by rw [e])
    have hdot : joinList '/' B ≠ ['.'] := by
      intro e
      have := splitList_joinList '/' B hB (isName_no_slash B hBn)
      rw [e] at this
      have hmem : ['.'] ∈ B := by rw [← this]; simp [splitList]
      exact (hBn _ hmem).2.1 rfl
    have hb := joinList_head_ne_slash B hB hBn
    have ht := joinList_head_ne_slash T hT hTn
    simp only [heq, if_false, hdot, hb, ht, decide_False, ne_eq, not_true_eq_false,
      relElems_names B hB hBn, relElems_names T hT hTn]
    obtain ⟨p, q, t, d, hrp, hBpq, hTpt, hd⟩ := relPosition_split B T
    rw [hrp]
    simp only
    have hdd : d ≠ ['.', '.'] := by
      rcases hd with hd | hd
      · rw [hd]; decide
      · exact (hBn d hd).2.2.1
    simp only [hdd, if_false]
    have htn : ∀ e ∈ t, IsName e := fun e he => hTn e (by rw [hTpt]; exact List.mem_append_right _ he)
    by_cases hq : q = []
    · subst hq
      simp only [ne_eq, not_true_eq_false, if_false]
      refine ⟨_, rfl, ?_⟩
      have htne : t ≠ [] := by
        intro e
        apply hTB
        rw [hTpt, hBpq, e]
      have := clean_join_rel p [] t (by simpa [hBpq] using hB) (by simpa [← hBpq] using hBn)
        htn (by simpa using htne) (by simpa [← hTpt] using hT)
      simp only [List.append_nil, List.length_nil, List.replicate_zero, List.nil_append] at this
      rw [hBpq, hTpt]
      simpa using this
    · simp only [ne_eq, hq, not_false_eq_true, if_true]
      refine ⟨_, rfl, ?_⟩
      have := clean_join_rel p q t (by rw [← hBpq]; exact hB) (by rw [← hBpq]; exact hBn)
        htn (by
          cases q with
          | nil => exact absurd rfl hq
          | cons x xs => simp [List.replicate_succ]) (by rw [← hTpt]; exact hT)
      rw [hBpq, hTpt]
      exact this

theorem clean_join_rooted (D X : List (List Char)) (hD : D ≠ []) (hX : X ≠ [])
    (hDn : ∀ e ∈ D, IsName e) (hXn : ∀ e ∈ X, IsName e) :
    cleanList (joinList '/' D ++ '/' :: '/' :: joinList '/' X) = joinList '/' (D ++ X) := by
  have e1 : joinList '/' D ++ '/' :: '/' :: joinList '/' X = joinList '/' (D ++ [] :: X) := by
    rw [joinList_append '/' D ([] :: X) hD (by simp)]
    obtain ⟨x, xs, hx⟩ := List.exists_cons_of_ne_nil hX
    rw [hx, joinList_cons_cons]
    rfl
  have hce : cleanElems false (D ++ [] :: X) = D ++ X := by
    unfold cleanElems
    rw [List.foldl_append, foldl_cleanStep_names false D [] hDn, List.nil_append,
      List.foldl_cons]
    have : cleanStep false D [] = D := by simp [cleanStep]
    rw [this, foldl_cleanStep_names false X D hXn]
  have hall : ∀ e ∈ D ++ X, IsName e := by
    intro e he
    simp only [List.mem_append] at he
    rcases he with he | he
    · exact hDn e he
    · exact hXn e he
  obtain ⟨w, rest, hDc⟩ := List.exists_cons_of_ne_nil hD
  have hw := hDn w (by rw [hDc]; simp)
  have := cleanList_joinList (D ++ [] :: X) w (rest ++ [] :: X) (by rw [hDc]; rfl)
    hw.1 hw.2.2.2
    (by
      intro e he
      simp only [List.mem_append, List.mem_cons] at he
      rcases he with he | he | he
      · exact (hDn e he).2.2.2
      · rw [he]; simp
      · exact (hXn e he).2.2.2)
    (by rw [hce]; simp [hD]) (by rw [hce]; exact fun e he => (hall e he).1)
  rw [e1, this, hce]

theorem dirPart_eq (p : List Char) : dirPart p = p.rdropWhile (fun c => c ≠ '/') := rfl

theorem rdropWhile_append_all {α : Type} (pr : α → Bool) (A B : List α) (h : ∀ b ∈ B, pr b = true) :
    (A ++ B).rdropWhile pr = A.rdropWhile pr := by
  induction B using List.reverseRecOn with
  | nil => simp
  | append_singleton B' b ih =>
    rw [← List.append_assoc, List.rdropWhile_concat_pos _ _ _ (h b (by simp))]
    exact ih (fun x hx => h x (List.mem_append_left _ hx))

theorem clean_dir_names (I : List (List Char)) (last : List Char) (hI : I ≠ [])
    (hIn : ∀ e ∈ I, IsName e) (hl : IsName last) :
    cleanList (dirPart (joinList '/' (I ++ [last]))) = joinList '/' I := by
  have e0 : dirPart (joinList '/' (I ++ [last])) = joinList '/' I ++ ['/'] := by
    rw [joinList_append '/' I [last] hI (by simp), dirPart_eq]
    have : joinList '/' I ++ '/' :: joinList '/' [last] = (joinList '/' I ++ ['/']) ++ last := by
      simp [joinList]
    rw [this, rdropWhile_append_all _ _ last (by
      intro b hb
      simp only [ne_eq, decide_not, Bool.not_eq_true', decide_eq_false_iff_not]
      intro e
      exact hl.2.2.2 (e ▸ hb))]
    exact List.rdropWhile_concat_neg _ _ _ (by simp)
  have e1 : joinList '/' I ++ ['/'] = joinList '/' (I ++ [[]]) := by
    rw [joinList_append '/' I [[]] hI (by simp)]
    rfl
  have hce : cleanElems false (I ++ [[]]) = I := by
    unfold cleanElems
    rw [List.foldl_append, foldl_cleanStep_names false I [] hIn]
    simp [cleanStep]
  obtain ⟨w, rest, hIc⟩ := List.exists_cons_of_ne_nil hI
  have hw := hIn w (by rw [hIc]; simp)
  have := cleanList_joinList (I ++ [[]]) w (rest ++ [[]]) (by rw [hIc]; rfl)
    hw.1 hw.2.2.2
    (by
      intro e he
      simp only [List.mem_append, List.mem_singleton] at he
      rcases he with he | he
      · exact (hIn e he).2.2.2
      · rw [he]; simp)
    (by rw [hce]; exact hI) (by rw [hce]; exact fun e he => (hIn e he).1)
  rw [e0, e1, this, hce]

theorem not_mem_joinList (c : Char) (hc : c ≠ '/') (ws : List (List Char))
    (h : ∀ w ∈ ws, c ∉ w) : c ∉ joinList '/' ws := by
  intro hm
  rcases mem_joinList '/' ws c hm with h1 | ⟨w, hw, hcw⟩
  · exact hc h1
  · exact h w hw hcw

/-! ## Link declarations -/

theorem Join_pair (a b : String) (ha : a ≠ "") :
    Join [a, b] = String.mk (cleanList (a.data ++ '/' :: b.data)) := by
  unfold Join
  simp only [List.dropWhile_cons, ha, decide_False, Bool.false_eq_true, if_false]
  rfl

theorem string_ne_empty (l : List Char) (h : l ≠ []) : String.mk l ≠ "" := by
  intro e
  apply h
  have := congrArg String.data e
  simpa using this

theorem field_no_space (xs : List String) (hx : ∀ n ∈ xs, ' ' ∉ n.data) :
    ' ' ∉ "usr/share/gocode/src/".data ++ joinList '/' (xs.map String.data) := by
  simp only [List.mem_append, not_or]
  refine ⟨by decide, not_mem_joinList ' ' (by decide) _ ?_⟩
  intro w hw
  simp only [List.mem_map] at hw
  obtain ⟨n, hn, rfl⟩ := hw
  exact hx n hn

theorem trimPrefix_field (X : List Char) :
    TrimPrefix (String.mk ("usr/share/gocode/src/".data ++ X)) "usr/share/gocode/src"
      = String.mk ('/' :: X) := by
  have e : "usr/share/gocode/src/".data = "usr/share/gocode/src".data ++ ['/'] := rfl
  have hp : HasPrefix (String.mk ("usr/share/gocode/src/".data ++ X)) "usr/share/gocode/src"
      = true := by
    unfold HasPrefix
    rw [List.isPrefixOf_iff_prefix, e]
    exact ⟨'/' :: X, by simp⟩
  unfold TrimPrefix
  rw [hp]
  simp only [if_true]
  rfl

theorem createLink_parts (xs ys : List String)
    (hx : ∀ n ∈ xs, ' ' ∉ n.data) (hy : ∀ n ∈ ys, ' ' ∉ n.data) :
    Split ("usr/share/gocode/src/" ++ stringsJoin xs '/' ++ " usr/share/gocode/src/" ++
        stringsJoin ys '/') ' ' =
      [String.mk ("usr/share/gocode/src/".data ++ joinList '/' (xs.map String.data)),
       String.mk ("usr/share/gocode/src/".data ++ joinList '/' (ys.map String.data))] := by
  have e : ("usr/share/gocode/src/" ++ stringsJoin xs '/' ++ " usr/share/gocode/src/" ++
        stringsJoin ys '/').data =
      ("usr/share/gocode/src/".data ++ joinList '/' (xs.map String.data)) ++
        ' ' :: ("usr/share/gocode/src/".data ++ joinList '/' (ys.map String.data)) := by
    simp only [String.data_append, stringsJoin]
    simp
  unfold Split
  rw [e, splitList_append_sep ' ' _ _ (field_no_space xs hx),
    splitList_of_not_mem ' ' _ (field_no_space ys hy)]
  rfl

theorem createLink_prefixed (xs ys : List String) :
    HasPrefix ("usr/share/gocode/src/" ++ stringsJoin xs '/' ++ " usr/share/gocode/src/" ++
        stringsJoin ys '/') "usr/share/gocode/src" = true := by
  unfold HasPrefix
  rw [List.isPrefixOf_iff_prefix]
  simp only [String.data_append]
  exact ⟨'/' :: ((stringsJoin xs '/').data ++ " usr/share/gocode/src/".data ++
    (stringsJoin ys '/').data), by simp⟩

theorem staged_name (ds xs : List String) (hds : ds ≠ []) (hxs : xs ≠ [])
    (hdn : ∀ n ∈ ds, IsName n.data) (hxn : ∀ n ∈ xs, IsName n.data) :
    Join [stringsJoin ds '/', TrimPrefix
        (String.mk ("usr/share/gocode/src/".data ++ joinList '/' (xs.map String.data)))
        "usr/share/gocode/src"] = stringsJoin (ds ++ xs) '/' := by
  have hD : ds.map String.data ≠ [] := by simpa using hds
  have hX : xs.map String.data ≠ [] := by simpa using hxs
  have hDn : ∀ e ∈ ds.map String.data, IsName e := by
    intro e he
    simp only [List.mem_map] at he
    obtain ⟨n, hn, rfl⟩ := he
    exact hdn n hn
  have hXn : ∀ e ∈ xs.map String.data, IsName e := by
    intro e he
    simp only [List.mem_map] at he
    obtain ⟨n, hn, rfl⟩ := he
    exact hxn n hn
  unfold stringsJoin
  rw [trimPrefix_field, Join_pair _ _ (string_ne_empty _ (joinList_names_ne_nil _ hD hDn))]
  simp only [List.map_append]
  rw [clean_join_rooted _ _ hD hX hDn hXn]

theorem dir_staged (ds ys : List String) (hds : ds ≠ []) (hys : ys ≠ [])
    (hdn : ∀ n ∈ ds, IsName n.data) (hyn : ∀ n ∈ ys, IsName n.data) :
    Dir (stringsJoin (ds ++ ys) '/') = stringsJoin (ds ++ ys.dropLast) '/' := by
  have hsplit : ds ++ ys = (ds ++ ys.dropLast) ++ [ys.getLast hys] := by
    rw [List.append_assoc, List.dropLast_append_getLast]
  have hI : (ds ++ ys.dropLast).map String.data ≠ [] := by simp [hds]
  have hIn : ∀ e ∈ (ds ++ ys.dropLast).map String.data, IsName e := by
    intro e he
    simp only [List.mem_map, List.mem_append] at he
    obtain ⟨n, hn | hn, rfl⟩ := he
    · exact hdn n hn
    · exact hyn n (List.mem_of_mem_dropLast hn)
  have hl : IsName (ys.getLast hys).data := hyn _ (List.getLast_mem hys)
  unfold Dir Clean stringsJoin
  simp only
  have e1 : (ds ++ ys).map String.data =
      (ds ++ ys.dropLast).map String.data ++ [(ys.getLast hys).data] := by
    conv_lhs => rw [hsplit]
    simp
  rw [e1, clean_dir_names _ _ hI hIn hl]

theorem createLink_eval (sys : Sys) (ds xs ys : List String)
    (hds : ds ≠ []) (hxs : xs ≠ []) (hys : ys ≠ [])
    (hdn : ∀ n ∈ ds, IsName n.data)
    (hxn : ∀ n ∈ xs, IsName n.data ∧ ' ' ∉ n.data)
    (hyn : ∀ n ∈ ys, IsName n.data ∧ ' ' ∉ n.data)
    (hmk : sys.MkdirAll (stringsJoin (ds ++ ys.dropLast) '/') = none) :
    ∃ rel : String,
      createLink sys (stringsJoin ds '/')
        ("usr/share/gocode/src/" ++ stringsJoin xs '/' ++ " usr/share/gocode/src/" ++
          stringsJoin ys '/') =
        ⟨[.MkdirAll (stringsJoin (ds ++ ys.dropLast) '/'),
            .Symlink rel (stringsJoin (ds ++ ys) '/')],
          match sys.Symlink rel (stringsJoin (ds ++ ys) '/') with
          | some err => if IsExist err then .ok () else .error err
          | none => .ok ()⟩ ∧
      Dir (stringsJoin (ds ++ ys) '/') = stringsJoin (ds ++ ys.dropLast) '/' ∧
      Join [Dir (stringsJoin (ds ++ ys) '/'), rel] = stringsJoin (ds ++ xs) '/' := by
  have hB : (ds ++ ys.dropLast).map String.data ≠ [] := by simp [hds]
  have hT : (ds ++ xs).map String.data ≠ [] := by simp [hds]
  have hBn : ∀ e ∈ (ds ++ ys.dropLast).map String.data, IsName e := by
    intro e he
    simp only [List.mem_map, List.mem_append] at he
    obtain ⟨n, hn | hn, rfl⟩ := he
    · exact hdn n hn
    · exact (hyn n (List.mem_of_mem_dropLast hn)).1
  have hTn : ∀ e ∈ (ds ++ xs).map String.data, IsName e := by
    intro e he
    simp only [List.mem_map, List.mem_append] at he
    obtain ⟨n, hn | hn, rfl⟩ := he
    · exact hdn n hn
    · exact (hxn n hn).1
  obtain ⟨r, hrel, hjoin⟩ := Rel_of_names _ _ hB hT hBn hTn
  have hdir := dir_staged ds ys hds hys hdn (fun n hn => (hyn n hn).1)
  have hold := staged_name ds xs hds hxs hdn (fun n hn => (hxn n hn).1)
  have hnew := staged_name ds ys hds hys hdn (fun n hn => (hyn n hn).1)
  have hrel2 : Rel (stringsJoin (ds ++ ys.dropLast) '/') (stringsJoin (ds ++ xs) '/')
      = .ok (String.mk r) := hrel
  refine ⟨String.mk r, ?_, hdir, ?_⟩
  · unfold createLink
    rw [createLink_prefixed, createLink_parts xs ys (fun n hn => (hxn n hn).2)
      (fun n hn => (hyn n hn).2)]
    simp only [Bool.not_true, Bool.false_eq_true, if_false, List.length_cons, List.length_nil,
      ne_eq, not_true_eq_false, List.getD_cons_zero, List.getD_cons_succ]
    rw [hold, hnew, hdir, hmk, hrel2]
    cases hsym : sys.Symlink (String.mk r) (stringsJoin (ds ++ ys) '/') with
    | none => simp [Eff.bind, callErr, hsym]
    | some err => cases hex : IsExist err <;> simp [Eff.bind, callErr, hsym, hex]
  · rw [hdir]
    unfold stringsJoin
    rw [Join_pair _ _ (string_ne_empty _ (joinList_names_ne_nil _ hB hBn))]
    simp only
    rw [hjoin]

theorem joinList_concat_char (sep : Char) (ws : List (List Char)) (hne : ws ≠ [])
    (w : List Char) (c : Char) (hlast : ws.getLast hne = w ++ [c]) :
    ∃ Z, joinList sep ws = Z ++ [c] := by
  induction ws using List.reverseRecOn with
  | nil => exact absurd rfl hne
  | append_singleton I last _ =>
    simp only [List.getLast_append_singleton] at hlast
    subst hlast
    cases I with
    | nil => exact ⟨w, by simp [joinList]⟩
    | cons i is =>
      rw [joinList_append sep (i :: is) [w ++ [c]] (by simp) (by simp)]
      exact ⟨joinList sep (i :: is) ++ sep :: w, by simp [joinList]⟩

theorem links_file_lines (xs ys : List String) (hys : ys ≠ [])
    (hxn : ∀ n ∈ xs, ∀ c ∈ n.data, isSpace c = false)
    (hyn : ∀ n ∈ ys, n.data ≠ [] ∧ ∀ c ∈ n.data, isSpace c = false) :
    Split (TrimSpace ("usr/share/gocode/src/" ++ stringsJoin xs '/' ++
        " usr/share/gocode/src/" ++ stringsJoin ys '/' ++ "\n")) '\n' =
      ["usr/share/gocode/src/" ++ stringsJoin xs '/' ++ " usr/share/gocode/src/" ++
        stringsJoin ys '/'] := by
  have hY' : ys.map String.data ≠ [] := by simpa using hys
  have hlastmem : (ys.map String.data).getLast hY' ∈ ys.map String.data := List.getLast_mem hY'
  simp only [List.mem_map] at hlastmem
  obtain ⟨nl, hnl, hnle⟩ := hlastmem
  have hnlne := (hyn nl hnl).1
  obtain ⟨w, c, hwc⟩ : ∃ w c, nl.data = w ++ [c] :=
    ⟨nl.data.dropLast, nl.data.getLast hnlne, (List.dropLast_append_getLast hnlne).symm⟩
  have hc : isSpace c = false := (hyn nl hnl).2 c (by rw [hwc]; simp)
  obtain ⟨Z, hZ⟩ := joinList_concat_char '/' (ys.map String.data) hY' w c (by rw [← hnle, hwc])
  have hdata : ("usr/share/gocode/src/" ++ stringsJoin xs '/' ++
        " usr/share/gocode/src/" ++ stringsJoin ys '/').data =
      'u' :: ("sr/share/gocode/src/".data ++ joinList '/' (xs.map String.data) ++
        " usr/share/gocode/src/".data ++ Z) ++ [c] := by
    simp only [String.data_append, stringsJoin, hZ]
    simp
  have hnonl : '\n' ∉ ("usr/share/gocode/src/" ++ stringsJoin xs '/' ++
        " usr/share/gocode/src/" ++ stringsJoin ys '/').data := by
    simp only [String.data_append, stringsJoin, List.mem_append, not_or]
    refine ⟨⟨⟨by decide, ?_⟩, by decide⟩, ?_⟩
    · apply not_mem_joinList '\n' (by decide)
      intro v hv hm
      simp only [List.mem_map] at hv
      obtain ⟨n, hn, rfl⟩ := hv
      have := hxn n hn '\n' hm
      exact absurd this (by decide)
    · apply not_mem_joinList '\n' (by decide)
      intro v hv hm
      simp only [List.mem_map] at hv
      obtain ⟨n, hn, rfl⟩ := hv
      have := (hyn n hn).2 '\n' hm
      exact absurd this (by decide)
  have htrim : trimList (("usr/share/gocode/src/" ++ stringsJoin xs '/' ++
        " usr/share/gocode/src/" ++ stringsJoin ys '/').data ++ ['\n']) =
      ("usr/share/gocode/src/" ++ stringsJoin xs '/' ++
        " usr/share/gocode/src/" ++ stringsJoin ys '/').data := by
    rw [trimList_append_newline _ 'u' (by rw [hdata]; simp) (by decide), trimList_eq, hdata]
    have h1 : List.dropWhile isSpace ('u' :: ("sr/share/gocode/src/".data ++
        joinList '/' (xs.map String.data) ++ " usr/share/gocode/src/".data ++ Z) ++ [c]) =
        'u' :: ("sr/share/gocode/src/".data ++
        joinList '/' (xs.map String.data) ++ " usr/share/gocode/src/".data ++ Z) ++ [c] := by
      rw [List.cons_append, List.dropWhile_cons]
      have : isSpace 'u' = false := by decide
      simp only [this, Bool.false_eq_true, if_false]
    rw [h1]
    exact List.rdropWhile_concat_neg _ _ _ (by simp [hc])
  unfold Split TrimSpace
  have e2 : ("usr/share/gocode/src/" ++ stringsJoin xs '/' ++
        " usr/share/gocode/src/" ++ stringsJoin ys '/' ++ "\n").data =
      ("usr/share/gocode/src/" ++ stringsJoin xs '/' ++
        " usr/share/gocode/src/" ++ stringsJoin ys '/').data ++ ['\n'] := by
    rw [String.data_append]
  rw [e2, htrim]
  rw [splitList_of_not_mem '\n' _ hnonl]
  rfl

/-- C9 (as amended). For every links-file line
`usr/share/gocode/src/X usr/share/gocode/src/Y` with one space between the
fields, where `X` and `Y` are relative paths of ordinary names (each name not
empty, not `.`, not `..`, without slash and without space) and the staging
directory is such a path too: the body of the loop of `createLinks` makes the
directory of `<staging>/Y` and calls `os.Symlink` for a link at `<staging>/Y`
whose target, joined to the directory of `<staging>/Y`, is `<staging>/X`, and
it returns `nil` when the link was created or existed already; `createLinks`
does exactly this for a package whose one links file holds that line (the
names being free of white space). And for every line without a space (a line
with one field only) the body calls `os.Symlink` not at all and returns
`nil`. -/
theorem createLink_relative_target (sys : Sys) (ds xs ys : List String)
    (hds : ds ≠ []) (hxs : xs ≠ []) (hys : ys ≠ [])
    (hdn : ∀ n ∈ ds, IsName n.data)
    (hxn : ∀ n ∈ xs, IsName n.data ∧ ' ' ∉ n.data)
    (hyn : ∀ n ∈ ys, IsName n.data ∧ ' ' ∉ n.data)
    (hmk : sys.MkdirAll (stringsJoin (ds ++ ys.dropLast) '/') = none) :
    (∃ rel,
      (createLink sys (stringsJoin ds '/')
        ("usr/share/gocode/src/" ++ stringsJoin xs '/' ++ " usr/share/gocode/src/" ++
          stringsJoin ys '/')).trace =
        [.MkdirAll (stringsJoin (ds ++ ys.dropLast) '/'),
          .Symlink rel (stringsJoin (ds ++ ys) '/')] ∧
      Dir (stringsJoin (ds ++ ys) '/') = stringsJoin (ds ++ ys.dropLast) '/' ∧
      Join [Dir (stringsJoin (ds ++ ys) '/'), rel] = stringsJoin (ds ++ xs) '/' ∧
      ((sys.Symlink rel (stringsJoin (ds ++ ys) '/') = none ∨
          ∃ err, sys.Symlink rel (stringsJoin (ds ++ ys) '/') = some err ∧ IsExist err = true) →
        (createLink sys (stringsJoin ds '/')
          ("usr/share/gocode/src/" ++ stringsJoin xs '/' ++ " usr/share/gocode/src/" ++
            stringsJoin ys '/')).result = .ok ()) ∧
      (∀ dir name : String,
        dhFilesForPackage sys dir "links" = ⟨[.ReadDir (Join [dir, "debian"])], .ok [name]⟩ →
        sys.ReadFile (Join [dir, "debian", name]) =
          .ok ("usr/share/gocode/src/" ++ stringsJoin xs '/' ++ " usr/share/gocode/src/" ++
            stringsJoin ys '/' ++ "\n") →
        (∀ n ∈ xs ++ ys, ∀ c ∈ n.data, isSpace c = false) →
        (createLinks sys (stringsJoin ds '/') dir).trace =
          [.ReadDir (Join [dir, "debian"]), .ReadFile (Join [dir, "debian", name]),
            .MkdirAll (stringsJoin (ds ++ ys.dropLast) '/'),
            .Symlink rel (stringsJoin (ds ++ ys) '/')])) ∧
    (∀ destdir line : String, ' ' ∉ line.data →
      (createLink sys destdir line).result = .ok () ∧
      ∀ oldname newname, Action.Symlink oldname newname ∉ (createLink sys destdir line).trace) := by
  constructor
  · obtain ⟨rel, hcl, hdir, hjoin⟩ := createLink_eval sys ds xs ys hds hxs hys hdn hxn hyn hmk
    refine ⟨rel, by rw [hcl], hdir, hjoin, ?_, ?_⟩
    · intro hsym
      rw [hcl]
      rcases hsym with h | ⟨err, h, hex⟩
      · rw [h]
      · rw [h]; simp [hex]
    · intro dir name hdh hread hws
      have hlines := links_file_lines xs ys hys
        (fun n hn => hws n (List.mem_append_left _ hn))
        (fun n hn => ⟨(hyn n hn).1.1, hws n (List.mem_append_right _ hn)⟩)
      simp only [createLinks, bind, Eff.bind, hdh, call, hread, forEach, hlines, hcl]
      cases sys.Symlink rel (stringsJoin (ds ++ ys) '/') with
      | none => simp [Eff.pure]
      | some err => cases hex : IsExist err <;> simp [Eff.pure, hex]
  · intro destdir line hsp
    unfold createLink
    split
    · exact ⟨rfl, by simp [Eff.pure]⟩
    · have hparts : (Split line ' ').length = 1 := by
        unfold Split
        rw [splitList_of_not_mem ' ' _ hsp]
        rfl
      simp only [hparts, ne_eq, OfNat.one_ne_ofNat, not_false_eq_true, if_true]
      exact ⟨rfl, by simp [logPrintf]⟩

/-- Witness of C9 (as amended): the line for `a/b` and `c/d` in the staging
directory `src-tmp-123456`; the link is made at `src-tmp-123456/c/d` with the
target `../a/b`. -/
theorem createLink_relative_target_witness :
    (["src-tmp-123456"] : List String) ≠ [] ∧ (["a", "b"] : List String) ≠ [] ∧
    (["c", "d"] : List String) ≠ [] ∧
    (∀ n ∈ ["src-tmp-123456"], IsName n.data) ∧
    (∀ n ∈ ["a", "b"], IsName n.data ∧ ' ' ∉ n.data) ∧
    (∀ n ∈ ["c", "d"], IsName n.data ∧ ' ' ∉ n.data) ∧
    sampleSys.MkdirAll (stringsJoin (["src-tmp-123456"] ++ ["c", "d"].dropLast) '/') = none ∧
    (createLink sampleSys "src-tmp-123456"
        "usr/share/gocode/src/a/b usr/share/gocode/src/c/d").trace =
      [.MkdirAll "src-tmp-123456/c", .Symlink "../a/b" "src-tmp-123456/c/d"] ∧
    Join [Dir "src-tmp-123456/c/d", "../a/b"] = "src-tmp-123456/a/b" ∧
    (createLinks
        { sampleSys with
          ReadDir := fun _ => .ok ["changelog", "golang-foo-dev.links"],
          ReadFile := fun _ => .ok "usr/share/gocode/src/a/b usr/share/gocode/src/c/d\n" }
        "src-tmp-123456" "src-tmp-123456/a/b").trace =
      [.ReadDir "src-tmp-123456/a/b/debian",
        .ReadFile "src-tmp-123456/a/b/debian/golang-foo-dev.links",
        .MkdirAll "src-tmp-123456/c", .Symlink "../a/b" "src-tmp-123456/c/d"] ∧
    ((∃ rel,
      (createLink sampleSys (stringsJoin ["src-tmp-123456"] '/')
        ("usr/share/gocode/src/" ++ stringsJoin ["a", "b"] '/' ++ " usr/share/gocode/src/" ++
          stringsJoin ["c", "d"] '/')).trace =
        [.MkdirAll (stringsJoin (["src-tmp-123456"] ++ ["c", "d"].dropLast) '/'),
          .Symlink rel (stringsJoin (["src-tmp-123456"] ++ ["c", "d"]) '/')] ∧
      Dir (stringsJoin (["src-tmp-123456"] ++ ["c", "d"]) '/') =
        stringsJoin (["src-tmp-123456"] ++ ["c", "d"].dropLast) '/' ∧
      Join [Dir (stringsJoin (["src-tmp-123456"] ++ ["c", "d"]) '/'), rel] =
        stringsJoin (["src-tmp-123456"] ++ ["a", "b"]) '/' ∧
      ((sampleSys.Symlink rel (stringsJoin (["src-tmp-123456"] ++ ["c", "d"]) '/') = none ∨
          ∃ err, sampleSys.Symlink rel (stringsJoin (["src-tmp-123456"] ++ ["c", "d"]) '/')
            = some err ∧ IsExist err = true) →
        (createLink sampleSys (stringsJoin ["src-tmp-123456"] '/')
          ("usr/share/gocode/src/" ++ stringsJoin ["a", "b"] '/' ++ " usr/share/gocode/src/" ++
            stringsJoin ["c", "d"] '/')).result = .ok ()) ∧
      (∀ dir name : String,
        dhFilesForPackage sampleSys dir "links" =
          ⟨[.ReadDir (Join [dir, "debian"])], .ok [name]⟩ →
        sampleSys.ReadFile (Join [dir, "debian", name]) =
          .ok ("usr/share/gocode/src/" ++ stringsJoin ["a", "b"] '/' ++
            " usr/share/gocode/src/" ++ stringsJoin ["c", "d"] '/' ++ "\n") →
        (∀ n ∈ ["a", "b"] ++ ["c", "d"], ∀ c ∈ n.data, isSpace c = false) →
        (createLinks sampleSys (stringsJoin ["src-tmp-123456"] '/') dir).trace =
          [.ReadDir (Join [dir, "debian"]), .ReadFile (Join [dir, "debian", name]),
            .MkdirAll (stringsJoin (["src-tmp-123456"] ++ ["c", "d"].dropLast) '/'),
            .Symlink rel (stringsJoin (["src-tmp-123456"] ++ ["c", "d"]) '/')])) ∧
    (∀ destdir line : String, ' ' ∉ line.data →
      (createLink sampleSys destdir line).result = .ok () ∧
      ∀ oldname newname,
        Action.Symlink oldname newname ∉ (createLink sampleSys destdir line).trace)) :=
  ⟨by decide, by decide, by decide, by decide, by decide, by decide, rfl, by decide, by decide,
    by decide,
    createLink_relative_target sampleSys ["src-tmp-123456"] ["a", "b"] ["c", "d"]
      (by decide) (by decide) (by decide) (by decide) (by decide) (by decide) rfl⟩

/-- C9 as stated fails. `../../c` is a clean relative path, and for the line
`usr/share/gocode/src/a usr/share/gocode/src/../../c` in the staging directory
`src-tmp-123456` no link is made: the new name is `../c`, the target cannot be
made relative to its directory `..`, and `createLink`, hence `createLinks`,
returns that error. -/
theorem createLink_fails_on_parent_path :
    Clean "a" = "a" ∧ Clean "../../c" = "../../c" ∧
    (createLink sampleSys "src-tmp-123456"
        "usr/share/gocode/src/a usr/share/gocode/src/../../c").trace = [.MkdirAll ".."] ∧
    (createLink sampleSys "src-tmp-123456"
        "usr/share/gocode/src/a usr/share/gocode/src/../../c").result =
      .error (.other "Rel: can't make src-tmp-123456/a relative to ..") ∧
    (createLinks
        { sampleSys with
          ReadDir := fun _ => .ok ["links"],
          ReadFile := fun _ => .ok "usr/share/gocode/src/a usr/share/gocode/src/../../c\n" }
        "src-tmp-123456" "src-tmp-123456/example.org/foo").result =
      .error (.other "Rel: can't make src-tmp-123456/a relative to ..") := by
  refine ⟨by decide, by decide, by decide, ?_, ?_⟩
  · rfl
  · rfl

/-! ## Idempotence of the run -/

theorem toDigitsCore_ne_t (fuel n : Nat) (ds : List Char) (h : ∀ c ∈ ds, c ≠ 't') :
    ∀ c ∈ Nat.toDigitsCore 10 fuel n ds, c ≠ 't' := by
  induction fuel generalizing n ds with
  | zero => simpa [Nat.toDigitsCore] using h
  | succ f ih =>
    have hd : (n % 10).digitChar ≠ 't' := by
      have hlt : n % 10 < 10 := Nat.mod_lt _ (by decide)
      generalize n % 10 = d at hlt
      interval_cases d <;> decide
    have hcons : ∀ c ∈ (n % 10).digitChar :: ds, c ≠ 't' := by
      intro c hc
      simp only [List.mem_cons] at hc
      rcases hc with hc | hc
      · rw [hc]; exact hd
      · exact h c hc
    simp only [Nat.toDigitsCore]
    split
    · exact hcons
    · exact ih _ _ hcons

theorem int_toString_ne_t (i : Int) : ∀ c ∈ (toString i).data, c ≠ 't' := by
  have hnat : ∀ n : Nat, ∀ c ∈ (Nat.repr n).data, c ≠ 't' := by
    intro n
    exact toDigitsCore_ne_t _ _ [] (by simp)
  cases i with
  | ofNat n => exact hnat n
  | negSucc n =>
    intro c hc
    have : (toString (Int.negSucc n)).data = '-' :: (Nat.repr (n + 1)).data := rfl
    rw [this] at hc
    simp only [List.mem_cons] at hc
    rcases hc with hc | hc
    · rw [hc]; decide
    · exact hnat _ c hc

theorem snapshot_ne_tempdir (i : Int) (n : Nat) :
    "src-" ++ toString i ≠ "src-tmp-" ++ toString n := by
  intro e
  have h1 := congrArg String.data e
  simp only [String.data_append] at h1
  simp only [List.cons_append, List.nil_append, List.cons.injEq, true_and] at h1
  have hmem : 't' ∈ (toString i).data := by rw [h1]; simp
  exact int_toString_ne_t i 't' hmem rfl

theorem tempDir_fresh (entries : List String) (names : List Nat) (tempdir : String)
    (h : TempDir entries "src-tmp-" names = .ok tempdir) :
    tempdir ∉ entries ∧ ∃ n : Nat, tempdir = "src-tmp-" ++ toString n := by
  unfold TempDir at h
  split at h
  · rename_i n hfind
    simp only [Except.ok.injEq] at h
    subst h
    have := List.find?_some hfind
    exact ⟨by simpa using this, n, rfl⟩
  · simp at h

theorem filter_ne_of_not_mem (entries : List String) (t : String) (h : t ∉ entries) :
    entries.filter (fun e => e ≠ t) = entries := by
  rw [List.filter_eq_self]
  intro a ha
  simp only [ne_eq, decide_not, Bool.not_eq_true', decide_eq_false_iff_not]
  intro e
  exact h (e ▸ ha)

theorem logic_of_existing (h : Host) (entries : List String) (tempdir : String)
    (release : ReleaseInfo)
    (htmp : TempDir entries "src-tmp-" h.tempNames = .ok tempdir)
    (hrel : h.Release = .ok release)
    (hex : "src-" ++ toString release.LastModified ∈ entries) :
    (logic h entries).err = none ∧
    (logic h entries).stdout = [toString release.LastModified] ∧
    (logic h entries).started = [] ∧
    (logic h entries).trace = [] ∧
    (logic h entries).entries = entries := by
  have hfresh := (tempDir_fresh entries h.tempNames tempdir htmp).1
  have hmem : "src-" ++ toString release.LastModified ∈ tempdir :: entries :=
    List.mem_cons_of_mem _ hex
  have hbody : logicBody h tempdir (tempdir :: entries) =
      { err := none, stdout := [toString release.LastModified], entries := tempdir :: entries,
        started := [], trace := [] } := by
    unfold logicBody
    rw [hrel]
    simp only [hmem, if_true]
  unfold logic
  rw [htmp]
  simp only [hbody, true_and]
  rw [List.filter_cons]
  simp only [ne_eq, not_true_eq_false, decide_False, Bool.false_eq_true, if_false]
  exact filter_ne_of_not_mem entries tempdir hfresh

theorem logic_success_leaves_snapshot (h : Host) (entries : List String)
    (release : ReleaseInfo) (hrel : h.Release = .ok release)
    (hok : (logic h entries).err = none) :
    (logic h entries).stdout = [toString release.LastModified] ∧
    "src-" ++ toString release.LastModified ∈ (logic h entries).entries := by
  unfold logic at hok ⊢
  cases htmp : TempDir entries "src-tmp-" h.tempNames with
  | error err => rw [htmp] at hok; simp at hok
  | ok tempdir =>
    rw [htmp] at hok
    simp only at hok ⊢
    obtain ⟨hfresh, n, hn⟩ := tempDir_fresh entries h.tempNames tempdir htmp
    have hne : "src-" ++ toString release.LastModified ≠ tempdir := by
      rw [hn]
      exact snapshot_ne_tempdir _ _
    have keep : ∀ l : List String, "src-" ++ toString release.LastModified ∈ l →
        "src-" ++ toString release.LastModified ∈ l.filter (fun e => e ≠ tempdir) := by
      intro l hl
      exact List.mem_filter.mpr ⟨hl, by simpa using hne⟩
    unfold logicBody at hok ⊢
    rw [hrel] at hok ⊢
    simp only at hok ⊢
    split
    · rename_i hin
      exact ⟨rfl, keep _ hin⟩
    · rename_i hnin
      simp only [hnin, if_false] at hok
      split
      · rename_i hidx
        rw [hidx] at hok
        simp at hok
      · rename_i fh rest hidx
        rw [hidx] at hok
        simp only at hok
        split
        · rename_i err hdl
          rw [hdl] at hok
          simp at hok
        · rename_i srcs hdl
          rw [hdl] at hok
          simp only at hok
          split
          · rename_i err hw
            rw [hw] at hok
            simp at hok
          · rename_i hw
            rw [hw] at hok
            simp only at hok
            split
            · rename_i err hr
              rw [hr] at hok
              simp at hok
            · exact ⟨rfl, keep _ (List.mem_cons_self _ _)⟩

/-- C10. Taking the run as a function of the release timestamp and the
entries of the working directory: if the snapshot `src-<timestamp>` exists
already, `logic` returns `nil`, prints that timestamp, starts no per-package
task (the source index is not even fetched) and leaves the entries unchanged;
so a second run for the same timestamp prints the same timestamp and starts no
task either. Moreover every run that returns `nil` prints the timestamp and leaves
the snapshot in place, so that a run which follows it does no assembly. -/
theorem logic_idempotent (h : Host) (entries : List String) (tempdir : String)
    (release : ReleaseInfo)
    (htmp : TempDir entries "src-tmp-" h.tempNames = .ok tempdir)
    (hrel : h.Release = .ok release)
    (hex : "src-" ++ toString release.LastModified ∈ entries) :
    ((logic h entries).err = none ∧
      (logic h entries).stdout = [toString release.LastModified] ∧
      (logic h entries).started = [] ∧
      (logic h entries).trace = [] ∧
      (logic h entries).entries = entries) ∧
    (∀ (h2 : Host) (tempdir2 : String) (release2 : ReleaseInfo),
      TempDir (logic h entries).entries "src-tmp-" h2.tempNames = .ok tempdir2 →
      h2.Release = .ok release2 → release2.LastModified = release.LastModified →
      (logic h2 (logic h entries).entries).err = none ∧
      (logic h2 (logic h entries).entries).stdout = (logic h entries).stdout ∧
      (logic h2 (logic h entries).entries).started = [] ∧
      (logic h2 (logic h entries).entries).entries = entries) ∧
    (∀ (h0 : Host) (entries0 : List String) (release0 : ReleaseInfo),
      h0.Release = .ok release0 → release0.LastModified = release.LastModified →
      (logic h0 entries0).err = none →
      (logic h0 entries0).stdout = [toString release.LastModified] ∧
      "src-" ++ toString release.LastModified ∈ (logic h0 entries0).entries) := by
  have first := logic_of_existing h entries tempdir release htmp hrel hex
  refine ⟨first, ?_, ?_⟩
  · intro h2 tempdir2 release2 htmp2 hrel2 hts
    rw [first.2.2.2.2] at htmp2 ⊢
    have second := logic_of_existing h2 entries tempdir2 release2 htmp2 hrel2 (by rw [hts]; exact hex)
    rw [first.2.1]
    exact ⟨second.1, by rw [second.2.1, hts], second.2.2.1, second.2.2.2.2⟩
  · intro h0 entries0 release0 hrel0 hts hok
    have := logic_success_leaves_snapshot h0 entries0 release0 hrel0 hok
    rw [hts] at this
    exact this

/-- Witness of C10: a run, for the release last modified at 1500000000, in a
directory that holds `src-1500000000` already. -/
theorem logic_idempotent_witness :
    TempDir ["src-1400000000", "src-1500000000"] "src-tmp-"
      (sampleHost [sampleSrc "golang-foo" 1 "example.org/foo" [] false] 1500000000).tempNames
      = .ok "src-tmp-123456" ∧
    "src-" ++ toString (1500000000 : Int) ∈ ["src-1400000000", "src-1500000000"] ∧
    (logic (sampleHost [sampleSrc "golang-foo" 1 "example.org/foo" [] false] 1500000000)
      ["src-1400000000", "src-1500000000"]).err = none ∧
    (logic (sampleHost [sampleSrc "golang-foo" 1 "example.org/foo" [] false] 1500000000)
      ["src-1400000000", "src-1500000000"]).stdout = ["1500000000"] ∧
    (logic (sampleHost [sampleSrc "golang-foo" 1 "example.org/foo" [] false] 1500000000)
      ["src-1400000000", "src-1500000000"]).started = [] ∧
    (logic (sampleHost [sampleSrc "golang-foo" 1 "example.org/foo" [] false] 1500000000)
      ["src-1400000000", "src-1500000000"]).entries = ["src-1400000000", "src-1500000000"] :=
  ⟨rfl, by decide,
    (logic_idempotent
      (sampleHost [sampleSrc "golang-foo" 1 "example.org/foo" [] false] 1500000000)
      ["src-1400000000", "src-1500000000"] "src-tmp-123456"
      ⟨1500000000, fun _ => [⟨"main/source/Sources.gz", "0a1b"⟩]⟩ rfl rfl (by decide)).1.1,
    (logic_idempotent
      (sampleHost [sampleSrc "golang-foo" 1 "example.org/foo" [] false] 1500000000)
      ["src-1400000000", "src-1500000000"] "src-tmp-123456"
      ⟨1500000000, fun _ => [⟨"main/source/Sources.gz", "0a1b"⟩]⟩ rfl rfl (by decide)).1.2.1,
    (logic_idempotent
      (sampleHost [sampleSrc "golang-foo" 1 "example.org/foo" [] false] 1500000000)
      ["src-1400000000", "src-1500000000"] "src-tmp-123456"
      ⟨1500000000, fun _ => [⟨"main/source/Sources.gz", "0a1b"⟩]⟩ rfl rfl (by decide)).1.2.2.1,
    (logic_idempotent
      (sampleHost [sampleSrc "golang-foo" 1 "example.org/foo" [] false] 1500000000)
      ["src-1400000000", "src-1500000000"] "src-tmp-123456"
      ⟨1500000000, fun _ => [⟨"main/source/Sources.gz", "0a1b"⟩]⟩ rfl rfl (by decide)).1.2.2.2.2⟩

/-! ## A failing task fails the run -/

theorem wait_of_error (results : List (Eff Unit)) (r : Eff Unit) (hr : r ∈ results)
    (e : GoError) (he : r.result = .error e) :
    ∃ e1, Wait results = some e1 ∧ ∃ r1 ∈ results, r1.result = .error e1 := by
  induction results with
  | nil => simp at hr
  | cons x xs ih =>
    unfold Wait
    rw [List.findSome?_cons]
    cases hx : x.result with
    | error ex =>
      exact ⟨ex, rfl, x, List.mem_cons_self _ _, hx⟩
    | ok u =>
      simp only [List.mem_cons] at hr
      rcases hr with hr | hr
      · rw [hr, hx] at he; cases he
      · obtain ⟨e1, h1, r1, hr1, hr1e⟩ := ih hr
        exact ⟨e1, h1, r1, List.mem_cons_of_mem _ hr1, hr1e⟩

theorem infix_flatMap_of_mem {α β : Type} (l : List α) (f : α → List β) (a : α)
    (ha : a ∈ l) : f a <:+: l.flatMap f := by
  induction l with
  | nil => simp at ha
  | cons x xs ih =>
    rw [List.flatMap_cons]
    simp only [List.mem_cons] at ha
    rcases ha with ha | ha
    · rw [ha]; exact (List.prefix_append _ _).isInfix
    · exact (ih ha).trans (List.suffix_append _ _).isInfix

theorem downloadSources_rename (h : Host) (rename : String → String → Option GoError)
    (fh : FileHash) : downloadSources { h with Rename := rename } fh = downloadSources h fh := rfl

theorem logicBody_of_task_error (h : Host) (tempdir : String) (entries : List String)
    (src : sourceIndex) (err : GoError)
    (hsrc : src ∈ (logicBody h tempdir entries).started)
    (herr : (packageTask h.sys tempdir src (resolvedImportPath src)).result = .error err) :
    (∃ e, (logicBody h tempdir entries).err = some e ∧
      ∃ s ∈ (logicBody h tempdir entries).started,
        (packageTask h.sys tempdir s (resolvedImportPath s)).result = .error e) ∧
    (logicBody h tempdir entries).stdout = [] ∧
    (logicBody h tempdir entries).entries = entries ∧
    (∀ rename, logicBody { h with Rename := rename } tempdir entries =
      logicBody h tempdir entries) ∧
    ∀ s ∈ (logicBody h tempdir entries).started,
      (packageTask h.sys tempdir s (resolvedImportPath s)).trace <:+:
        (logicBody h tempdir entries).trace := by
  unfold logicBody at hsrc ⊢
  simp only [downloadSources_rename] at hsrc ⊢
  cases hrel : h.Release with
  | error e0 => rw [hrel] at hsrc; simp at hsrc
  | ok release =>
    rw [hrel] at hsrc
    simp only at hsrc ⊢
    by_cases hin : "src-" ++ toString release.LastModified ∈ entries
    · simp [hin] at hsrc
    · simp only [hin, if_false] at hsrc ⊢
      cases hidx : release.Indices "main/source/Sources.gz" with
      | nil => rw [hidx] at hsrc; simp at hsrc
      | cons fh rest =>
        rw [hidx] at hsrc
        simp only at hsrc ⊢
        cases hres : (downloadSources h fh).result with
        | error e0 => rw [hres] at hsrc; simp at hsrc
        | ok srcs =>
          rw [hres] at hsrc
          simp only at hsrc ⊢
          have hmem : src ∈ srcs.filter (fun src => !skipped src) := by
            revert hsrc
            split
            · exact id
            · split <;> exact id
          obtain ⟨e1, hw, r1, hr1, hr1e⟩ := wait_of_error
            ((srcs.filter (fun src => !skipped src)).map (fun src =>
              packageTask h.sys tempdir src (resolvedImportPath src)))
            (packageTask h.sys tempdir src (resolvedImportPath src))
            (List.mem_map.mpr ⟨src, hmem, rfl⟩) err herr
          obtain ⟨s, hs, hse⟩ := List.mem_map.mp hr1
          simp only [hw]
          refine ⟨⟨e1, rfl, s, hs, ?_⟩, trivial, trivial, fun _ => trivial, ?_⟩
          · rw [hse]; exact hr1e
          · intro s2 hs2
            exact (infix_flatMap_of_mem
              ((srcs.filter (fun src => !skipped src)).map (fun src =>
                packageTask h.sys tempdir src (resolvedImportPath src)))
              (fun r : Eff Unit => r.trace)
              (packageTask h.sys tempdir s2 (resolvedImportPath s2))
              (List.mem_map.mpr ⟨s2, hs2, rfl⟩)).trans (List.suffix_append _ _).isInfix

/-- C11. In every run in which the task of some started record returns an
error: `logic` returns an error, which is the error of one of the tasks;
nothing is printed to standard output; the entries of the working directory
are afterwards what they were before the run, so the staging directory is gone
and the snapshot `src-<timestamp>` exists only if it existed before; and the
outcome is the same whatever `os.Rename` would answer, the rename not being
attempted. The tasks of the other records are run all the same. -/
theorem logic_task_error_discards_staging (h : Host) (entries : List String)
    (tempdir : String) (src : sourceIndex) (err : GoError)
    (htmp : TempDir entries "src-tmp-" h.tempNames = .ok tempdir)
    (hsrc : src ∈ (logic h entries).started)
    (herr : (packageTask h.sys tempdir src (resolvedImportPath src)).result = .error err) :
    (∃ e, (logic h entries).err = some e ∧
      ∃ s ∈ (logic h entries).started,
        (packageTask h.sys tempdir s (resolvedImportPath s)).result = .error e) ∧
    (logic h entries).stdout = [] ∧
    (logic h entries).entries = entries ∧
    tempdir ∉ (logic h entries).entries ∧
    (∀ release, h.Release = .ok release →
      ("src-" ++ toString release.LastModified ∈ (logic h entries).entries ↔
        "src-" ++ toString release.LastModified ∈ entries)) ∧
    (∀ rename, logic { h with Rename := rename } entries = logic h entries) ∧
    (∀ s ∈ (logic h entries).started,
      (packageTask h.sys tempdir s (resolvedImportPath s)).trace <:+:
        (logic h entries).trace) := by
  obtain ⟨hfresh, _⟩ := tempDir_fresh entries h.tempNames tempdir htmp
  have hlogic : ∀ rename, logic { h with Rename := rename } entries =
      { logicBody { h with Rename := rename } tempdir (tempdir :: entries) with
        entries := (logicBody { h with Rename := rename } tempdir (tempdir :: entries)).entries.filter
          (fun e => e ≠ tempdir) } := by
    intro rename
    unfold logic
    simp only [htmp]
  have hl : logic h entries =
      { logicBody h tempdir (tempdir :: entries) with
        entries := (logicBody h tempdir (tempdir :: entries)).entries.filter
          (fun e => e ≠ tempdir) } := hlogic h.Rename
  have hs1 : src ∈ (logicBody h tempdir (tempdir :: entries)).started := by
    rw [hl] at hsrc; exact hsrc
  obtain ⟨b1, b2, b3, b4, b5⟩ :=
    logicBody_of_task_error h tempdir (tempdir :: entries) src err hs1 herr
  have hent : (logic h entries).entries = entries := by
    rw [hl]
    simp only [b3]
    rw [List.filter_cons_of_neg (by simp)]
    exact filter_ne_of_not_mem entries tempdir hfresh
  refine ⟨?_, ?_, hent, ?_, ?_, ?_, ?_⟩
  · rw [hl]; exact b1
  · rw [hl]; exact b2
  · rw [hent]; exact hfresh
  · intro release _
    rw [hent]
  · intro rename
    rw [hlogic rename, hl, b4 rename]
  · rw [hl]; exact b5

/-- Witness of C11: of two packages the first cannot be downloaded and the
second is assembled; the run fails and leaves the directory as it was. -/
theorem logic_task_error_discards_staging_witness :
    TempDir ["src-1400000000"] "src-tmp-"
      (failingHost [sampleTars "golang-foo" "example.org/foo" "gone",
        sampleTars "golang-bar" "example.org/bar" "o2"] 1500000000).tempNames
      = .ok "src-tmp-123456" ∧
    sampleTars "golang-foo" "example.org/foo" "gone" ∈
      (logic (failingHost [sampleTars "golang-foo" "example.org/foo" "gone",
        sampleTars "golang-bar" "example.org/bar" "o2"] 1500000000) ["src-1400000000"]).started ∧
    (packageTask failingSys "src-tmp-123456" (sampleTars "golang-foo" "example.org/foo" "gone")
      (resolvedImportPath (sampleTars "golang-foo" "example.org/foo" "gone"))).result =
      .error (.other ("src:golang-foo: download(origTar=pool/main/golang-foo/" ++
        "golang-foo_1.0.orig.tar.gz): 404 Not Found")) ∧
    (packageTask failingSys "src-tmp-123456" (sampleTars "golang-bar" "example.org/bar" "o2")
      (resolvedImportPath (sampleTars "golang-bar" "example.org/bar" "o2"))).result = .ok () ∧
    (logic (failingHost [sampleTars "golang-foo" "example.org/foo" "gone",
        sampleTars "golang-bar" "example.org/bar" "o2"] 1500000000) ["src-1400000000"]).stdout
      = [] ∧
    (logic (failingHost [sampleTars "golang-foo" "example.org/foo" "gone",
        sampleTars "golang-bar" "example.org/bar" "o2"] 1500000000) ["src-1400000000"]).entries
      = ["src-1400000000"] :=
  ⟨rfl, by decide, rfl, rfl,
    (logic_task_error_discards_staging
      (failingHost [sampleTars "golang-foo" "example.org/foo" "gone",
        sampleTars "golang-bar" "example.org/bar" "o2"] 1500000000) ["src-1400000000"]
      "src-tmp-123456" (sampleTars "golang-foo" "example.org/foo" "gone")
      (.other ("src:golang-foo: download(origTar=pool/main/golang-foo/" ++
        "golang-foo_1.0.orig.tar.gz): 404 Not Found")) rfl (by decide) rfl).2.1,
    (logic_task_error_discards_staging
      (failingHost [sampleTars "golang-foo" "example.org/foo" "gone",
        sampleTars "golang-bar" "example.org/bar" "o2"] 1500000000) ["src-1400000000"]
      "src-tmp-123456" (sampleTars "golang-foo" "example.org/foo" "gone")
      (.other ("src:golang-foo: download(origTar=pool/main/golang-foo/" ++
        "golang-foo_1.0.orig.tar.gz): 404 Not Found")) rfl (by decide) rfl).2.2.1⟩

/-! ## Destinations of the tasks -/

/-- The task of a record with both archives, when the downloads succeed,
first makes the directory `destRepo` and unpacks into it. -/
theorem packageTask_uses_destRepo :
    (packageTask sampleSys "src-tmp-123456" (sampleTars "golang-example-cli" "example.org/cli" "o1")
      (resolvedImportPath (sampleTars "golang-example-cli" "example.org/cli" "o1"))).trace.take 5 =
      [.TempFile ⟨"pool/main/golang-example-cli/golang-example-cli_1.0.orig.tar.gz", "o1"⟩,
        .Close "/tmp/o1",
        .TempFile ⟨"pool/main/golang-example-cli/golang-example-cli_1.0-1.debian.tar.xz", "d1"⟩,
        .Close "/tmp/d1",
        .MkdirAll (destRepo "src-tmp-123456" "example.org/cli")] := by
  decide

theorem splitList_pieces (sep : Char) (s : List Char) :
    ∀ w ∈ splitList sep s, sep ∉ w := by
  induction s with
  | nil => simp [splitList]
  | cons x xs ih =>
    rw [splitList_cons]
    obtain ⟨v, vs, hv⟩ := List.exists_cons_of_ne_nil (splitList_ne_nil sep xs)
    rw [hv] at ih ⊢
    by_cases hx : x = sep
    · simp only [hx, if_true]
      intro w hw
      rcases List.mem_cons.mp hw with rfl | hw
      · simp
      · exact ih w hw
    · simp only [hx, if_false, List.headD_cons, List.tail_cons]
      intro w hw
      rcases List.mem_cons.mp hw with rfl | hw
      · intro hmem
        rcases List.mem_cons.mp hmem with e | hmem
        · exact hx e.symm
        · exact ih v (List.mem_cons_self _ _) hmem
      · exact ih w (List.mem_cons_of_mem _ hw)

theorem cleanStep_kept (rooted : Bool) (out : List (List Char)) (e : List Char)
    (he : '/' ∉ e) (h : ∀ w ∈ out, w ≠ [] ∧ w ≠ ['.'] ∧ '/' ∉ w) :
    ∀ w ∈ cleanStep rooted out e, w ≠ [] ∧ w ≠ ['.'] ∧ '/' ∉ w := by
  have hadd : e ≠ [] → e ≠ ['.'] → ∀ w ∈ out ++ [e], w ≠ [] ∧ w ≠ ['.'] ∧ '/' ∉ w := by
    intro h1 h2 w hw
    rcases List.mem_append.mp hw with hw | hw
    · exact h w hw
    · rw [List.mem_singleton] at hw
      rw [hw]; exact ⟨h1, h2, he⟩
  unfold cleanStep
  split
  · exact h
  · rename_i hne
    have h1 : e ≠ [] := fun e0 => hne (Or.inl e0)
    have h2 : e ≠ ['.'] := fun e0 => hne (Or.inr e0)
    split
    · split
      · split
        · exact hadd h1 h2
        · intro w hw
          exact h w (List.dropLast_subset _ hw)
      · split
        · exact h
        · exact hadd h1 h2
    · exact hadd h1 h2

theorem cleanElems_kept (rooted : Bool) (elems out : List (List Char))
    (he : ∀ e ∈ elems, '/' ∉ e) (h : ∀ w ∈ out, w ≠ [] ∧ w ≠ ['.'] ∧ '/' ∉ w) :
    ∀ w ∈ elems.foldl (cleanStep rooted) out, w ≠ [] ∧ w ≠ ['.'] ∧ '/' ∉ w := by
  induction elems generalizing out with
  | nil => exact h
  | cons e rest ih =>
    rw [List.foldl_cons]
    exact ih _ (fun x hx => he x (List.mem_cons_of_mem _ hx))
      (cleanStep_kept rooted out e (he e (List.mem_cons_self _ _)) h)

/-- A cleaned path without a slash is `.`, `..` or an ordinary name. -/
theorem cleanList_no_slash (p : List Char) (h : '/' ∉ cleanList p) :
    cleanList p = ['.'] ∨ cleanList p = ['.', '.'] ∨ IsName (cleanList p) := by
  cases p with
  | nil => exact Or.inl rfl
  | cons c rest =>
    have hkept := cleanElems_kept (decide (c = '/')) (splitList '/' (c :: rest)) []
      (splitList_pieces '/' (c :: rest)) (by simp)
    unfold cleanList at h ⊢
    simp only at h ⊢
    by_cases hc : c = '/'
    · simp [hc] at h
    · simp only [hc, decide_False, Bool.false_eq_true, if_false] at h hkept ⊢
      change ∀ w ∈ cleanElems false (splitList '/' (c :: rest)), _ at hkept
      by_cases hout : joinList '/' (cleanElems false (splitList '/' (c :: rest))) = []
      · simp [hout]
      · simp only [hout, if_false] at h ⊢
        right
        generalize cleanElems false (splitList '/' (c :: rest)) = E at h hout hkept
        match E, h, hout, hkept with
        | [], _, hout, _ => exact absurd rfl hout
        | [e], h, _, hkept =>
          obtain ⟨k1, k2, k3⟩ := hkept e (List.mem_singleton.mpr rfl)
          show e = ['.', '.'] ∨ IsName e
          by_cases hdd : e = ['.', '.']
          · exact Or.inl hdd
          · exact Or.inr ⟨k1, k2, hdd, k3⟩
        | e1 :: e2 :: es, h, _, _ =>
          exfalso
          apply h
          rw [joinList_cons_cons]
          simp

theorem Join_group (name : List Char) (hn : IsName name) :
    Join [group, String.mk name] = String.mk ("go-team/packages/".data ++ name) := by
  rw [Join_pair group _ (by decide)]
  congr 1
  have e : group.data ++ '/' :: (String.mk name).data =
      joinList '/' ["go-team".data, "packages".data, name] := by
    simp [group, joinList]
  rw [e, clean_names _ (by simp)]
  · simp [joinList]
  · intro x hx
    simp only [List.mem_cons, List.mem_singleton, List.not_mem_nil, or_false] at hx
    rcases hx with rfl | rfl | rfl
    · decide
    · decide
    · exact hn

/-- The middleware answers 400, without calling the handler, when the form
value is empty or still holds a slash after `path.Clean`. -/
theorem RepoInfoMiddleware_rejects (next : Context → Served) (c : Context)
    (h : c.FormValue "repo" = "" ∨ Contains (Clean (c.FormValue "repo")) "/" = true) :
    ∃ body, RepoInfoMiddleware next c = ⟨[], .response 400 body⟩ := by
  unfold RepoInfoMiddleware
  by_cases he : c.FormValue "repo" = ""
  · exact ⟨"no \"repo\" parameter found", by simp [he]⟩
  · rcases h with h | h
    · exact absurd h he
    · exact ⟨"repo must not contain slashes", by simp [he, h]⟩

/-- Every other value is handed on, cleaned, to the handler. -/
theorem RepoInfoMiddleware_accepts (next : Context → Served) (c : Context)
    (h1 : c.FormValue "repo" ≠ "") (h2 : Contains (Clean (c.FormValue "repo")) "/" = false) :
    RepoInfoMiddleware next c = next (c.Set repoKey (Clean (c.FormValue "repo"))) := by
  unfold RepoInfoMiddleware
  simp [h1, h2]

/-- An accepted value that does not clean to `.` or `..` is looked up as a
direct child of the group. -/
theorem ConfigRepoHandler_child (ac : AppContext) (configAll : Project → Option GoError)
    (c : Context)
    (h1 : c.FormValue "repo" ≠ "") (h2 : Contains (Clean (c.FormValue "repo")) "/" = false)
    (h3 : Clean (c.FormValue "repo") ≠ ".") (h4 : Clean (c.FormValue "repo") ≠ "..") :
    IsName (Clean (c.FormValue "repo")).data ∧
    (RepoInfoMiddleware (ConfigRepoHandler ac configAll) c).lookups =
      ["go-team/packages/" ++ Clean (c.FormValue "repo")] := by
  have hns : '/' ∉ cleanList (c.FormValue "repo").data := by
    intro hmem
    have := (contains_slash (Clean (c.FormValue "repo"))).mpr hmem
    rw [h2] at this
    exact absurd this (by decide)
  have hname : IsName (cleanList (c.FormValue "repo").data) := by
    rcases cleanList_no_slash _ hns with h | h | h
    · exact absurd (show Clean (c.FormValue "repo") = "." by unfold Clean; rw [h]) h3
    · exact absurd (show Clean (c.FormValue "repo") = ".." by unfold Clean; rw [h]) h4
    · exact h
  refine ⟨hname, ?_⟩
  rw [RepoInfoMiddleware_accepts _ c h1 h2]
  have hget : (c.Set repoKey (Clean (c.FormValue "repo"))).Get repoKey =
      some (Clean (c.FormValue "repo")) := by
    simp [Context.Set, Context.Get]
  unfold ConfigRepoHandler
  rw [hget]
  show [Join [group, Clean (c.FormValue "repo")]] = _
  rw [show Clean (c.FormValue "repo") = String.mk (cleanList (c.FormValue "repo").data) from rfl,
    Join_group _ hname]
  rfl

/-- C13. The middleware accepts the form value `..` (it cleans to `..`, which
holds no slash) and hands it on; `ConfigRepoHandler` then looks up the project
path `go-team`, which does not lie below `go-team/packages`. The same happens
for every value that cleans to `..`, such as `x/../..`; a value that cleans to
`.` is looked up as `go-team/packages` itself. -/
theorem RepoInfoMiddleware_accepts_parent (ac : AppContext)
    (configAll : Project → Option GoError) :
    (∀ next : Context → Served,
      RepoInfoMiddleware next (repoRequest "..") = next ((repoRequest "..").Set repoKey "..")) ∧
    (RepoInfoMiddleware (ConfigRepoHandler ac configAll) (repoRequest "..")).lookups =
      ["go-team"] ∧
    ¬ Inside group "go-team" ∧
    (RepoInfoMiddleware (ConfigRepoHandler ac configAll) (repoRequest "x/../..")).lookups =
      ["go-team"] ∧
    (RepoInfoMiddleware (ConfigRepoHandler ac configAll) (repoRequest ".")).lookups =
      ["go-team/packages"] ∧
    ¬ Inside group "go-team/packages" ∧
    (∀ body, (RepoInfoMiddleware (ConfigRepoHandler ac configAll) (repoRequest "..")).reply ≠
      .response 400 body) := by
  refine ⟨fun _ => rfl, rfl, by decide, rfl, rfl, by decide, ?_⟩
  intro body
  show (ConfigRepoHandler ac configAll ((repoRequest "..").Set repoKey "..")).reply ≠ _
  unfold ConfigRepoHandler
  have hget : ((repoRequest "..").Set repoKey "..").Get repoKey = some ".." := rfl
  rw [hget]
  simp only
  cases hgp : ac.GetProject (Join [group, ".."]) with
  | error err => simp [AppContext.GetGoProject, hgp]
  | ok p =>
    cases hcfg : configAll p <;> simp [AppContext.GetGoProject, hgp, hcfg]

/-! ## The strip count of a mixed listing -/

theorem stripLoop_zero_iff (lines : List String) :
    stripLoop lines 1 = 0 ↔ ∃ line ∈ lines, Contains line "/" = false := by
  induction lines with
  | nil => simp [stripLoop]
  | cons line rest ih =>
    unfold stripLoop
    cases hc : Contains line "/" with
    | false => simp [hc]
    | true => simp [ih, hc]

theorem stripLoop_one_iff (lines : List String) :
    stripLoop lines 1 = 1 ↔ ∀ line ∈ lines, Contains line "/" = true := by
  induction lines with
  | nil => simp [stripLoop]
  | cons line rest ih =>
    unfold stripLoop
    cases hc : Contains line "/" with
    | false => simp [hc]
    | true => simp [ih, hc]

theorem dropWhile_nil_of_head (ws : List (List Char)) (w : List Char) (rest : List (List Char))
    (h : ws = w :: rest) (hw : w ≠ []) :
    ws.dropWhile (fun w => decide (w = [])) = ws := by
  rw [h, List.dropWhile_cons]
  simp [hw]

theorem lines_listing (members : List String) (hne : members ≠ [])
    (h : ∀ m ∈ members, m ≠ "" ∧ '\n' ∉ m.data ∧ Trimmed m.data) :
    Split (TrimSpace (listing members)) '\n' = members := by
  have hdne : ∀ m ∈ members, m.data ≠ [] := by
    intro m hm e
    apply (h m hm).1
    cases m
    simp only at e
    rw [e]
  have hall : ∀ w ∈ members.map String.data ++ [[]], Trimmed w := by
    intro w hw
    simp only [List.mem_append, List.mem_map, List.mem_singleton] at hw
    rcases hw with ⟨e, he, rfl⟩ | rfl
    · exact (h e he).2.2
    · simp [Trimmed]
  obtain ⟨m0, rest, hm0⟩ := List.exists_cons_of_ne_nil hne
  have hdrop : (members.map String.data ++ [[]]).dropWhile (fun w => decide (w = [])) =
      members.map String.data ++ [[]] :=
    dropWhile_nil_of_head _ m0.data (rest.map String.data ++ [[]]) (by rw [hm0]; rfl)
      (hdne m0 (by rw [hm0]; exact List.mem_cons_self _ _))
  have hrdrop : (members.map String.data ++ [[]]).rdropWhile (fun w => decide (w = [])) =
      members.map String.data := by
    rw [List.rdropWhile_concat_pos _ _ _ (by simp)]
    obtain ⟨init, last, hl⟩ := (List.eq_nil_or_concat (members.map String.data)).resolve_left
      (by simp [hne])
    rw [hl, List.concat_eq_append]
    apply List.rdropWhile_concat_neg
    have : last ∈ members.map String.data := by rw [hl]; simp
    obtain ⟨m, hm, rfl⟩ := List.mem_map.mp this
    simp [hdne m hm]
  have htrim : (TrimSpace (listing members)).data = joinList '\n' (members.map String.data) := by
    show trimList (listing members).data = _
    rw [trimList_eq, listing_lines,
      dropWhile_joinList_lines _ (fun w hw => (hall w hw).1), hdrop,
      rdropWhile_joinList_lines _ (fun w hw => (hall w hw).2), hrdrop]
  unfold Split
  rw [htrim, splitList_joinList '\n' _ (by simp [hne])
    (by
      intro w hw
      obtain ⟨m, hm, rfl⟩ := List.mem_map.mp hw
      exact (h m hm).2.1)]
  rw [List.map_map]
  exact List.map_id _

/-- C14, as amended. The extraction is run with the count `stripComponents`
of the output of `tar tf`, which is 0 or 1: it is 0 if and only if some line of
the output (without its leading and trailing white space) holds no `/`, and 1
if and only if every line holds one. For the listing of an archive with at
least one member, whose member paths are not empty and neither begin nor end
with white space: the count is 0 if and only if some member path holds no
`/`, also when other member paths hold one, and 1 if and only if every member
path holds a `/`. -/
theorem unpack_strip_zero_iff (sys : Sys) (dest fn out : String)
    (hmk : sys.MkdirAll dest = none)
    (hout : sys.Output { Args := ["tar", "tf", fn], Dir := "", Env := [] } = .ok out) :
    (unpack sys dest fn).trace =
      [.MkdirAll dest, .Output { Args := ["tar", "tf", fn], Dir := "", Env := [] },
        .Run { Args := ["tar", "xf", fn, "-C", dest,
                 "--strip-components=" ++ toString (stripComponents out)],
               Dir := "", Env := [] }] ∧
    (stripComponents out = 0 ∨ stripComponents out = 1) ∧
    (stripComponents out = 0 ↔
      ∃ line ∈ Split (TrimSpace out) '\n', Contains line "/" = false) ∧
    (stripComponents out = 1 ↔
      ∀ line ∈ Split (TrimSpace out) '\n', Contains line "/" = true) ∧
    (∀ members : List String, out = listing members → members ≠ [] →
      (∀ m ∈ members, m ≠ "" ∧ '\n' ∉ m.data ∧ Trimmed m.data) →
      (stripComponents out = 0 ↔ ∃ m ∈ members, Contains m "/" = false) ∧
      (stripComponents out = 1 ↔ ∀ m ∈ members, Contains m "/" = true)) := by
  have h0 := stripLoop_zero_iff (Split (TrimSpace out) '\n')
  have h1 := stripLoop_one_iff (Split (TrimSpace out) '\n')
  refine ⟨unpack_trace sys dest fn out hmk hout, ?_, h0, h1, ?_⟩
  · by_cases hall : ∀ line ∈ Split (TrimSpace out) '\n', Contains line "/" = true
    · exact Or.inr (h1.mpr hall)
    · left
      apply h0.mpr
      by_contra hno
      apply hall
      intro line hl
      cases hc : Contains line "/" with
      | true => rfl
      | false => exact absurd ⟨line, hl, hc⟩ hno
  · intro members hm hne hmem
    have hlines := lines_listing members hne hmem
    rw [hm]
    unfold stripComponents
    rw [hlines]
    exact ⟨stripLoop_zero_iff members, stripLoop_one_iff members⟩

/-- Witness of C14: an archive with a top-level file beside a directory. -/
theorem unpack_strip_zero_iff_witness :
    (listingSys ["README.md", "src/", "src/main.go"]).MkdirAll "src-tmp-123456/example.org/foo"
      = none ∧
    (listingSys ["README.md", "src/", "src/main.go"]).Output
      { Args := ["tar", "tf", "/tmp/o1"], Dir := "", Env := [] }
      = .ok "README.md\nsrc/\nsrc/main.go\n" ∧
    (stripComponents "README.md\nsrc/\nsrc/main.go\n" = 0 ↔
      ∃ line ∈ Split (TrimSpace "README.md\nsrc/\nsrc/main.go\n") '\n',
        Contains line "/" = false) ∧
    (unpack (listingSys ["README.md", "src/", "src/main.go"])
        "src-tmp-123456/example.org/foo" "/tmp/o1").trace =
      [.MkdirAll "src-tmp-123456/example.org/foo",
        .Output { Args := ["tar", "tf", "/tmp/o1"], Dir := "", Env := [] },
        .Run { Args := ["tar", "xf", "/tmp/o1", "-C", "src-tmp-123456/example.org/foo",
                 "--strip-components=" ++
                   toString (stripComponents "README.md\nsrc/\nsrc/main.go\n")],
               Dir := "", Env := [] }] :=
  ⟨rfl, rfl,
    (unpack_strip_zero_iff (listingSys ["README.md", "src/", "src/main.go"])
      "src-tmp-123456/example.org/foo" "/tmp/o1" "README.md\nsrc/\nsrc/main.go\n" rfl rfl).2.2.1,
    (unpack_strip_zero_iff (listingSys ["README.md", "src/", "src/main.go"])
      "src-tmp-123456/example.org/foo" "/tmp/o1" "README.md\nsrc/\nsrc/main.go\n" rfl rfl).1⟩

/-- Counterexample to C14 as stated. The listing `README.md`, `src/`,
`src/main.go` shows path separators, and `unpack` extracts it with
`--strip-components=0`. -/
theorem stripComponents_mixed_listing :
    Contains "src/main.go" "/" = true ∧
    stripComponents (listing ["README.md", "src/", "src/main.go"]) = 0 ∧
    (unpack (listingSys ["README.md", "src/", "src/main.go"])
        "src-tmp-123456/example.org/foo" "/tmp/o1").trace =
      [.MkdirAll "src-tmp-123456/example.org/foo",
        .Output { Args := ["tar", "tf", "/tmp/o1"], Dir := "", Env := [] },
        .Run { Args := ["tar", "xf", "/tmp/o1", "-C", "src-tmp-123456/example.org/foo",
                 "--strip-components=0"],
               Dir := "", Env := [] }] := by
  refine ⟨by decide, by decide, by decide⟩

/-! ## Link lines are cut at single spaces -/

theorem split_one_space (X Y : String) (hX : ' ' ∉ X.data) (hY : ' ' ∉ Y.data) :
    Split (X ++ " " ++ Y) ' ' = [X, Y] := by
  unfold Split
  have : (X ++ " " ++ Y).data = X.data ++ ' ' :: Y.data := by simp
  rw [this, splitList_append_sep ' ' _ _ hX, splitList_of_not_mem ' ' _ hY]
  rfl

theorem split_two_spaces (X Y : String) (hX : ' ' ∉ X.data) (hY : ' ' ∉ Y.data) :
    Split (X ++ "  " ++ Y) ' ' = [X, "", Y] := by
  unfold Split
  have : (X ++ "  " ++ Y).data = X.data ++ ' ' :: ([] ++ ' ' :: Y.data) := by simp
  rw [this, splitList_append_sep ' ' _ _ hX, splitList_append_sep ' ' _ _ (by simp),
    splitList_of_not_mem ' ' _ hY]
  rfl

theorem split_tab (X Y : String) (hX : ' ' ∉ X.data) (hY : ' ' ∉ Y.data) :
    Split (X ++ "\t" ++ Y) ' ' = [X ++ "\t" ++ Y] := by
  unfold Split
  have hd : (X ++ "\t" ++ Y).data = X.data ++ '\t' :: Y.data := by simp
  rw [splitList_of_not_mem ' ' _ (by
    rw [hd]
    intro h
    rcases List.mem_append.mp h with h | h
    · exact hX h
    · rcases List.mem_cons.mp h with h | h
      · exact absurd h (by decide)
      · exact hY h)]
  rfl

theorem hasPrefix_append (X Z pre : String) (h : HasPrefix X pre = true) :
    HasPrefix (X ++ Z) pre = true := by
  unfold HasPrefix at h ⊢
  rw [List.isPrefixOf_iff_prefix] at h ⊢
  have : (X ++ Z).data = X.data ++ Z.data := by simp
  rw [this]
  exact h.trans (List.prefix_append _ _)

theorem createLink_skips (sys : Sys) (destdir line : String)
    (hpre : HasPrefix line "usr/share/gocode/src" = true)
    (hlen : (Split line ' ').length ≠ 2) :
    createLink sys destdir line =
      logPrintf ("Skipping link line " ++ line.quote ++
        ": unexpected number of parts: got " ++ toString (Split line ' ').length ++
        ", want 2") := by
  unfold createLink
  simp [hpre, hlen]

theorem createLink_proceeds (sys : Sys) (destdir line : String)
    (hpre : HasPrefix line "usr/share/gocode/src" = true)
    (hlen : (Split line ' ').length = 2) :
    (createLink sys destdir line).trace.head? =
      some (.MkdirAll (Dir (Join [destdir,
        TrimPrefix ((Split line ' ').getD 1 "") "usr/share/gocode/src"]))) := by
  unfold createLink
  simp only [hpre, hlen, Bool.not_true, Bool.false_eq_true, if_false, ne_eq, not_true_eq_false]
  cases hm : sys.MkdirAll (Dir (Join [destdir,
      TrimPrefix ((Split line ' ').getD 1 "") "usr/share/gocode/src"])) with
  | some err => simp [Eff.bind, callErr, hm]
  | none => simp [Eff.bind, callErr, hm]

/-- C15, as amended. `createLinks` cuts a line at every single space. For two
fields `X` and `Y` without a space, `X` under the prefix: the line `X Y` with
one space between them has the two parts `X` and `Y` and goes on to the
creation of the link; with two spaces the line has three parts, with a tab one
part, and in both cases it is logged and skipped without any link. In general
a line under the prefix is logged and skipped exactly when cutting it at every
single space does not give two parts. A line of two paths of ordinary names
with one space between them gets its directory and its link. -/
theorem createLink_single_space_only (sys : Sys) (destdir X Y : String)
    (hX : ' ' ∉ X.data) (hY : ' ' ∉ Y.data)
    (hpre : HasPrefix X "usr/share/gocode/src" = true) :
    Split (X ++ " " ++ Y) ' ' = [X, Y] ∧
    Split (X ++ "  " ++ Y) ' ' = [X, "", Y] ∧
    Split (X ++ "\t" ++ Y) ' ' = [X ++ "\t" ++ Y] ∧
    (createLink sys destdir (X ++ " " ++ Y)).trace.head? =
      some (.MkdirAll (Dir (Join [destdir, TrimPrefix Y "usr/share/gocode/src"]))) ∧
    createLink sys destdir (X ++ "  " ++ Y) =
      logPrintf ("Skipping link line " ++ (X ++ "  " ++ Y).quote ++
        ": unexpected number of parts: got " ++ toString 3 ++ ", want 2") ∧
    createLink sys destdir (X ++ "\t" ++ Y) =
      logPrintf ("Skipping link line " ++ (X ++ "\t" ++ Y).quote ++
        ": unexpected number of parts: got " ++ toString 1 ++ ", want 2") ∧
    (∀ line, HasPrefix line "usr/share/gocode/src" = true →
      ((Split line ' ').length ≠ 2 ↔ ∃ msg, createLink sys destdir line = logPrintf msg)) ∧
    (∀ ds xs ys : List String, ds ≠ [] → xs ≠ [] → ys ≠ [] →
      (∀ n ∈ ds, IsName n.data) →
      (∀ n ∈ xs, IsName n.data ∧ ' ' ∉ n.data) →
      (∀ n ∈ ys, IsName n.data ∧ ' ' ∉ n.data) →
      sys.MkdirAll (stringsJoin (ds ++ ys.dropLast) '/') = none →
      ∃ rel : String,
        (createLink sys (stringsJoin ds '/')
          ("usr/share/gocode/src/" ++ stringsJoin xs '/' ++ " usr/share/gocode/src/" ++
            stringsJoin ys '/')).trace =
          [.MkdirAll (stringsJoin (ds ++ ys.dropLast) '/'),
            .Symlink rel (stringsJoin (ds ++ ys) '/')]) := by
  have s1 := split_one_space X Y hX hY
  have s2 := split_two_spaces X Y hX hY
  have s3 := split_tab X Y hX hY
  have p1 : HasPrefix (X ++ " " ++ Y) "usr/share/gocode/src" = true := by
    rw [String.append_assoc]; exact hasPrefix_append X _ _ hpre
  have p2 : HasPrefix (X ++ "  " ++ Y) "usr/share/gocode/src" = true := by
    rw [String.append_assoc]; exact hasPrefix_append X _ _ hpre
  have p3 : HasPrefix (X ++ "\t" ++ Y) "usr/share/gocode/src" = true := by
    rw [String.append_assoc]; exact hasPrefix_append X _ _ hpre
  refine ⟨s1, s2, s3, ?_, ?_, ?_, ?_, ?_⟩
  · have := createLink_proceeds sys destdir (X ++ " " ++ Y) p1 (by rw [s1]; rfl)
    rw [s1] at this
    exact this
  · have := createLink_skips sys destdir (X ++ "  " ++ Y) p2 (by rw [s2]; simp)
    rw [s2] at this
    exact this
  · have := createLink_skips sys destdir (X ++ "\t" ++ Y) p3 (by rw [s3]; simp)
    rw [s3] at this
    exact this
  · intro line hl
    constructor
    · intro hlen
      exact ⟨_, createLink_skips sys destdir line hl hlen⟩
    · rintro ⟨msg, hmsg⟩ hlen
      have := createLink_proceeds sys destdir line hl hlen
      rw [hmsg] at this
      simp [logPrintf] at this
  · intro ds xs ys hds hxs hys hdn hxn hyn hmk
    obtain ⟨rel, hrel, _, _⟩ := createLink_eval sys ds xs ys hds hxs hys hdn hxn hyn hmk
    exact ⟨rel, by rw [hrel]⟩

/-- Witness of C15: the declaration of a link from `c/d` to `a/b`. -/
theorem createLink_single_space_only_witness :
    ' ' ∉ "usr/share/gocode/src/a/b".data ∧ ' ' ∉ "usr/share/gocode/src/c/d".data ∧
    HasPrefix "usr/share/gocode/src/a/b" "usr/share/gocode/src" = true ∧
    Split ("usr/share/gocode/src/a/b" ++ "  " ++ "usr/share/gocode/src/c/d") ' ' =
      ["usr/share/gocode/src/a/b", "", "usr/share/gocode/src/c/d"] ∧
    createLink sampleSys "src-tmp-123456"
        ("usr/share/gocode/src/a/b" ++ "\t" ++ "usr/share/gocode/src/c/d") =
      logPrintf ("Skipping link line " ++
        ("usr/share/gocode/src/a/b" ++ "\t" ++ "usr/share/gocode/src/c/d").quote ++
        ": unexpected number of parts: got " ++ toString 1 ++ ", want 2") :=
  ⟨by decide, by decide, by decide,
    (createLink_single_space_only sampleSys "src-tmp-123456" "usr/share/gocode/src/a/b"
      "usr/share/gocode/src/c/d" (by decide) (by decide) (by decide)).2.1,
    (createLink_single_space_only sampleSys "src-tmp-123456" "usr/share/gocode/src/a/b"
      "usr/share/gocode/src/c/d" (by decide) (by decide) (by decide)).2.2.2.2.2.1⟩

/-- Counterexample to C15 as stated. The line with one space between the two
paths gets its link; the same two paths with two spaces, or with a tab,
between them get none: the line is logged and passed over. -/
theorem createLink_skips_wide_separator :
    (createLink sampleSys "src-tmp-123456"
      "usr/share/gocode/src/a/b usr/share/gocode/src/c/d").trace =
      [.MkdirAll "src-tmp-123456/c", .Symlink "../a/b" "src-tmp-123456/c/d"] ∧
    (createLink sampleSys "src-tmp-123456"
      "usr/share/gocode/src/a/b  usr/share/gocode/src/c/d").trace =
      [.Printf ("Skipping link line " ++
        "usr/share/gocode/src/a/b  usr/share/gocode/src/c/d".quote ++
        ": unexpected number of parts: got " ++ toString 3 ++ ", want 2")] ∧
    (createLink sampleSys "src-tmp-123456"
      "usr/share/gocode/src/a/b\tusr/share/gocode/src/c/d").trace =
      [.Printf ("Skipping link line " ++
        "usr/share/gocode/src/a/b\tusr/share/gocode/src/c/d".quote ++
        ": unexpected number of parts: got " ++ toString 1 ++ ", want 2")] := by
  refine ⟨by decide, ?_, ?_⟩
  · rw [createLink_skips _ _ _ (by decide) (by decide)]
    have : (Split "usr/share/gocode/src/a/b  usr/share/gocode/src/c/d" ' ').length = 3 := by
      decide
    rw [this]
    rfl
  · rw [createLink_skips _ _ _ (by decide) (by decide)]
    have : (Split "usr/share/gocode/src/a/b\tusr/share/gocode/src/c/d" ' ').length = 1 := by
      decide
    rw [this]
    rfl

/-! ## The newest record is chosen before the extra-source-only filter -/

theorem loadSources_mem_newest (Compare : Version → Version → Int)
    (sortSlice : (sourceIndex → sourceIndex → Bool) → List sourceIndex → List sourceIndex)
    (hrefl : ∀ v, Compare v v = 0)
    (hsort : SortsBy sortSlice (moreRecent Compare))
    (idx out : List sourceIndex) (h : loadSources Compare sortSlice (.ok idx) = .ok out)
    (r : sourceIndex) (hr : r ∈ out) :
    r ∈ idx ∧ dependsOnGo r = true ∧
      ∀ s ∈ idx, dependsOnGo s = true → s.Package = r.Package →
        Compare s.Version r.Version ≤ 0 := by
  simp only [loadSources, Except.ok.injEq] at h
  subst h
  obtain ⟨_, hgr, _⟩ := byName_grouped idx
  obtain ⟨g, hg, hn⟩ := List.mem_filterMap.mp hr
  obtain ⟨hg2, hgne⟩ := hgr g hg
  obtain ⟨r1, hr1, hmem, hle⟩ := newest_spec Compare sortSlice hrefl hsort g.2 hgne
  rw [hn] at hr1
  cases hr1
  have hmem2 := hmem
  rw [hg2, List.mem_filter, List.mem_filter] at hmem2
  obtain ⟨⟨hin, hgo⟩, hpk⟩ := hmem2
  have hpk2 : r.Package = g.1 := by simpa using hpk
  refine ⟨hin, by simpa using hgo, ?_⟩
  intro s hs hsgo hspk
  apply hle
  rw [hg2, List.mem_filter, List.mem_filter]
  refine ⟨⟨hs, by simpa using hsgo⟩, ?_⟩
  simp [hspk, hpk2]

theorem loadSources_covers (Compare : Version → Version → Int)
    (sortSlice : (sourceIndex → sourceIndex → Bool) → List sourceIndex → List sourceIndex)
    (hrefl : ∀ v, Compare v v = 0)
    (hsort : SortsBy sortSlice (moreRecent Compare))
    (idx : List sourceIndex) (s : sourceIndex) (hs : s ∈ idx) (hgo : dependsOnGo s = true) :
    ∃ r ∈ filtered Compare sortSlice (byName idx), r.Package = s.Package := by
  obtain ⟨_, hgr, hcov⟩ := byName_grouped idx
  have hkey := hcov s (List.mem_filter.mpr ⟨hs, by simpa using hgo⟩)
  obtain ⟨g, hg, hg1⟩ := List.mem_map.mp hkey
  obtain ⟨hg2, hgne⟩ := hgr g hg
  obtain ⟨r, hr, hmem, _⟩ := newest_spec Compare sortSlice hrefl hsort g.2 hgne
  refine ⟨r, List.mem_filterMap.mpr ⟨g, hg, hr⟩, ?_⟩
  rw [hg2, List.mem_filter] at hmem
  rw [← hg1]
  simpa using hmem.2

theorem downloadSources_ok (h : Host) (fh : FileHash) (srcs : List sourceIndex)
    (hres : (downloadSources h fh).result = .ok srcs) :
    ∃ f, loadSources h.Compare h.sortSlice (h.Unmarshal f) = .ok srcs := by
  unfold downloadSources at hres
  cases htf : h.rdTempFile fh with
  | error e => simp [Eff.bind, call, htf] at hres
  | ok f =>
    refine ⟨f, ?_⟩
    cases hl : loadSources h.Compare h.sortSlice (h.Unmarshal f) with
    | error msg => simp [Eff.bind, call, htf, deferred, hl, fail] at hres
    | ok out =>
      simp [Eff.bind, call, htf, deferred, hl, Eff.pure] at hres
      rw [hres]

/-- C16. In a run over the decoded index `idx`: when every Go-relevant record
of a package name that no Go-relevant record of the name exceeds in version
has its extra-source-only flag set, no record of that name is started, whatever
the older records of the name are. In the other order of the two steps the
result differs: if an older record of the name is Go-relevant, is the only
such record without the flag, and meets no other condition of the loop, then
dropping the flagged records first keeps it, while the run does not start it. -/
theorem logic_picks_newest_before_extra_filter (h : Host) (entries : List String)
    (idx : List sourceIndex) (name : String)
    (hrefl : ∀ v, h.Compare v v = 0)
    (hsort : SortsBy h.sortSlice (moreRecent h.Compare))
    (hun : ∀ f, h.Unmarshal f = .ok idx)
    (hmax : ∀ s ∈ idx, dependsOnGo s = true → s.Package = name →
      (∀ t ∈ idx, dependsOnGo t = true → t.Package = name →
        h.Compare t.Version s.Version ≤ 0) →
      s.ExtraSourceOnly = true) :
    (∀ s ∈ (logic h entries).started, s.Package ≠ name) ∧
    (∀ t0 ∈ idx, dependsOnGo t0 = true → t0.Package = name → skipped t0 = false →
      (∀ s ∈ idx, dependsOnGo s = true → s.Package = name → s.ExtraSourceOnly = false →
        s = t0) →
      t0 ∈ dropExtraFirst h.Compare h.sortSlice idx ∧ t0 ∉ (logic h entries).started) := by
  have part1 : ∀ s ∈ (logic h entries).started, s.Package ≠ name := by
    intro s hs hname
    obtain ⟨hskip, srcs, fh, hdl, hmem⟩ := logic_started h entries s hs
    obtain ⟨f, hload⟩ := downloadSources_ok h fh srcs hdl
    rw [hun f] at hload
    obtain ⟨hin, hgo, hle⟩ :=
      loadSources_mem_newest h.Compare h.sortSlice hrefl hsort idx srcs hload s hmem
    have hx := hmax s hin hgo hname (fun t ht htgo htn => hle t ht htgo (htn.trans hname.symm))
    simp [skipped, hx] at hskip
  refine ⟨part1, ?_⟩
  intro t0 ht0 hgo hname hskip honly
  refine ⟨?_, fun hs => part1 t0 hs hname⟩
  have hx0 : t0.ExtraSourceOnly = false := by
    simp only [skipped, Bool.or_eq_false_iff] at hskip
    exact hskip.1.1.1.2
  have hin : t0 ∈ idx.filter (fun s => !s.ExtraSourceOnly) :=
    List.mem_filter.mpr ⟨ht0, by simp [hx0]⟩
  obtain ⟨r, hr, hrn⟩ := loadSources_covers h.Compare h.sortSlice hrefl hsort _ t0 hin hgo
  obtain ⟨hrin, hrgo, _⟩ := loadSources_mem_newest h.Compare h.sortSlice hrefl hsort
    (idx.filter (fun s => !s.ExtraSourceOnly)) _ rfl r hr
  obtain ⟨hridx, hrx⟩ := List.mem_filter.mp hrin
  have hrt : r = t0 := honly r hridx hrgo (hrn.trans hname) (by simpa using hrx)
  rw [hrt] at hr
  unfold dropExtraFirst
  simp only [loadSources]
  exact List.mem_filter.mpr ⟨hr, by simp [hskip]⟩

/-- Witness of C16: the index holds `golang-foo` twice, the newer record
flagged extra-source-only. The run starts no task; with the flagged record
dropped first, the older record would be assembled. -/
theorem logic_picks_newest_before_extra_filter_witness :
    (∀ s ∈ [sampleSrc "golang-foo" 2 "example.org/foo" [] true,
        sampleSrc "golang-foo" 1 "example.org/foo" [] false],
      dependsOnGo s = true → s.Package = "golang-foo" →
      (∀ t ∈ [sampleSrc "golang-foo" 2 "example.org/foo" [] true,
          sampleSrc "golang-foo" 1 "example.org/foo" [] false],
        dependsOnGo t = true → t.Package = "golang-foo" →
        compareEpoch t.Version s.Version ≤ 0) →
      s.ExtraSourceOnly = true) ∧
    (logic (sampleHost [sampleSrc "golang-foo" 2 "example.org/foo" [] true,
        sampleSrc "golang-foo" 1 "example.org/foo" [] false] 1500000000) []).started = [] ∧
    (∀ s ∈ (logic (sampleHost [sampleSrc "golang-foo" 2 "example.org/foo" [] true,
        sampleSrc "golang-foo" 1 "example.org/foo" [] false] 1500000000) []).started,
      s.Package ≠ "golang-foo") ∧
    sampleSrc "golang-foo" 1 "example.org/foo" [] false ∈
      dropExtraFirst compareEpoch insertionSlice
        [sampleSrc "golang-foo" 2 "example.org/foo" [] true,
          sampleSrc "golang-foo" 1 "example.org/foo" [] false] :=
  ⟨by decide, by decide,
    (logic_picks_newest_before_extra_filter
      (sampleHost [sampleSrc "golang-foo" 2 "example.org/foo" [] true,
        sampleSrc "golang-foo" 1 "example.org/foo" [] false] 1500000000) []
      [sampleSrc "golang-foo" 2 "example.org/foo" [] true,
        sampleSrc "golang-foo" 1 "example.org/foo" [] false] "golang-foo"
      (fun v => by simp [sampleHost, compareEpoch]) insertionSlice_sortsBy (fun _ => rfl)
      (by decide)).1,
    ((logic_picks_newest_before_extra_filter
      (sampleHost [sampleSrc "golang-foo" 2 "example.org/foo" [] true,
        sampleSrc "golang-foo" 1 "example.org/foo" [] false] 1500000000) []
      [sampleSrc "golang-foo" 2 "example.org/foo" [] true,
        sampleSrc "golang-foo" 1 "example.org/foo" [] false] "golang-foo"
      (fun v => by simp [sampleHost, compareEpoch]) insertionSlice_sortsBy (fun _ => rfl)
      (by decide)).2
      (sampleSrc "golang-foo" 1 "example.org/foo" [] false) (by decide) (by decide) rfl
      (by decide) (by decide)).1⟩

end PkgGoTools
